import Mathlib

/-!
# The associative map of Blotto (`gmap.c`) and the scoring built on it (`blotto.c`)

A shallow embedding of the separately chained hash table of `src/gmap.c`, followed
by the matchup scoring and the ranking comparators of `src/blotto.c`.

* A `void *` value is a `VoidPtr`: `NULL`, the address of the global string
  `gmap_error`, or any other address.
* A key is a value of a type `K` (the contents the key pointer refers to); a
  possibly-null key argument is an `Option K`, a possibly-null map an
  `Option (gmap K V)`.
* A chain (`entry *` linked through `next`) is the list of its nodes, head
  first; the bucket array `entry **table` is the list of its chains.
* `size_t` arithmetic is arithmetic of `Nat` modulo `2 ^ 64`.
* The outcome of each checked `malloc` is an explicit `Bool` argument; the
  key-copy function returns `none` for `NULL`.  The bucket array that
  `gmap_embiggen` allocates is used unchecked by the source, so the embedding
  describes the run in which that allocation succeeds.
-/

namespace Gmap

/-- An untyped pointer as stored in and returned by the map. -/
inductive VoidPtr (V : Type) where
  | null : VoidPtr V
  | error : VoidPtr V
  | addr : V → VoidPtr V
  deriving DecidableEq

/-- The global `char *gmap_error = "error"`. -/
def gmap_error {V : Type} : VoidPtr V := VoidPtr.error

/-- Number of values of `size_t`. -/
def SIZE_T_MOD : Nat := 2 ^ 64

/-- The struct `entry` without its `next` link, which the chain list carries. -/
structure entry (K V : Type) where
  key : K
  value : VoidPtr V
  deriving DecidableEq

/-- The struct `_gmap`. -/
structure gmap (K V : Type) where
  table : List (List (entry K V))
  capacity : Nat
  size : Nat
  hash : K → Nat
  compare : K → K → Int
  copy : K → Option K
  free : K → Unit

def GMAP_INITIAL_CAPACITY : Nat := 100

variable {K V : Type}

/-- The function `gmap_create`; `mapAlloc` and `tableAlloc` tell whether the two
calls of `malloc` succeed. -/
def gmap_create (cp : Option (K → Option K)) (comp : Option (K → K → Int))
    (h : Option (K → Nat)) (f : Option (K → Unit)) (mapAlloc tableAlloc : Bool) :
    Option (gmap K V) :=
  match cp, comp, h, f with
  | some cp, some comp, some h, some f =>
    if mapAlloc then
      let capacity := if tableAlloc then GMAP_INITIAL_CAPACITY else 0
      some { copy := cp, compare := comp, hash := h, free := f,
             table := List.replicate capacity [], capacity := capacity, size := 0 }
    else none
  | _, _, _, _ => none

/-- The function `gmap_size`. -/
def gmap_size (m : Option (gmap K V)) : Nat :=
  match m with
  | none => 0
  | some m => m.size

/-- The function `gmap_compute_index`. -/
def gmap_compute_index (key : K) (hash : K → Nat) (capacity : Nat) : Nat :=
  hash key % capacity

/-- The search loop of `gmap_table_find_key`: the first node of the chain whose
key compares equal to `key`. -/
def find_key_loop (compare : K → K → Int) (key : K) :
    List (entry K V) → Option (entry K V)
  | [] => none
  | curr :: next =>
    if compare curr.key key ≠ 0 then find_key_loop compare key next else some curr

/-- The function `gmap_table_find_key`. -/
def gmap_table_find_key (table : List (List (entry K V))) (key : K) (hash : K → Nat)
    (compare : K → K → Int) (capacity : Nat) : Option (entry K V) :=
  let ind := gmap_compute_index key hash capacity
  find_key_loop compare key (table.getD ind [])

/-- The function `gmap_table_add`: the node becomes the head of its chain. -/
def gmap_table_add (table : List (List (entry K V))) (n : entry K V) (hash : K → Nat)
    (capacity : Nat) : List (List (entry K V)) :=
  let ind := gmap_compute_index n.key hash capacity
  table.set ind (n :: table.getD ind [])

/-- The function `gmap_embiggen`. -/
def gmap_embiggen (m : gmap K V) (n : Nat) : gmap K V :=
  let new_table : List (List (entry K V)) := List.replicate n []
  let new_table := (List.range m.capacity).foldl
    (fun t chain =>
      (m.table.getD chain []).foldl (fun t curr => gmap_table_add t curr m.hash n) t)
    new_table
  { m with capacity := n, table := new_table }

/-- The write `n->value = value` of `gmap_put` through the node that
`gmap_table_find_key` returned: the first node of the chain whose key compares
equal gets the value. -/
def store_value (compare : K → K → Int) (key : K) (value : VoidPtr V) :
    List (entry K V) → List (entry K V)
  | [] => []
  | curr :: next =>
    if compare curr.key key ≠ 0 then curr :: store_value compare key value next
    else { curr with value := value } :: next

/-- The function `gmap_put`; `nodeAlloc` tells whether `malloc(sizeof(entry))`
succeeds.  The result is the map afterwards and the returned pointer. -/
def gmap_put (m : Option (gmap K V)) (key : Option K) (value : VoidPtr V)
    (nodeAlloc : Bool) : Option (gmap K V) × VoidPtr V :=
  match m, key with
  | none, _ => (none, VoidPtr.null)
  | some m, none => (some m, VoidPtr.null)
  | some m, some key =>
    match gmap_table_find_key m.table key m.hash m.compare m.capacity with
    | some n =>
      let ind := gmap_compute_index key m.hash m.capacity
      (some { m with
          table := m.table.set ind (store_value m.compare key value (m.table.getD ind [])) },
        n.value)
    | none =>
      match m.copy key with
      | some copy =>
        let m := if m.size ≥ m.capacity then gmap_embiggen m (m.capacity * 2 % SIZE_T_MOD)
                 else m
        if nodeAlloc then
          (some { m with
              table := gmap_table_add m.table { key := copy, value := value } m.hash m.capacity,
              size := (m.size + 1) % SIZE_T_MOD },
            VoidPtr.null)
        else (some m, gmap_error)
      | none => (some m, gmap_error)

/-- The search loop of `gmap_remove`: the nodes passed before the loop stops
(the last of them is `prev`), and the node `curr` it stops at with the nodes
after it, if it stops at one. -/
def remove_loop (compare : K → K → Int) (key : K) :
    List (entry K V) → List (entry K V) × Option (entry K V × List (entry K V))
  | [] => ([], none)
  | curr :: next =>
    if compare curr.key key ≠ 0 then
      let r := remove_loop compare key next
      (curr :: r.1, r.2)
    else ([], some (curr, next))

/-- The function `gmap_remove`. -/
def gmap_remove (m : Option (gmap K V)) (key : Option K) :
    Option (gmap K V) × VoidPtr V :=
  match m, key with
  | none, _ => (none, VoidPtr.null)
  | some m, none => (some m, VoidPtr.null)
  | some m, some key =>
    let ind := gmap_compute_index key m.hash m.capacity
    match remove_loop m.compare key (m.table.getD ind []) with
    | (_, none) => (some m, VoidPtr.null)
    | ([], some (curr, next)) =>
      (some { m with table := m.table.set ind next,
                     size := (m.size + SIZE_T_MOD - 1) % SIZE_T_MOD },
        curr.value)
    | (before, some (curr, next)) =>
      (some { m with table := m.table.set ind (before ++ next),
                     size := (m.size + SIZE_T_MOD - 1) % SIZE_T_MOD },
        curr.value)

/-- The function `gmap_contains_key`; it dereferences the map unchecked, so its
argument is a map. -/
def gmap_contains_key (m : gmap K V) (key : K) : Bool :=
  match gmap_table_find_key m.table key m.hash m.compare m.capacity with
  | none => false
  | some _ => true

/-- The function `gmap_get`. -/
def gmap_get (m : Option (gmap K V)) (key : Option K) : VoidPtr V :=
  match m, key with
  | none, _ => VoidPtr.null
  | some _, none => VoidPtr.null
  | some m, some key =>
    match gmap_table_find_key m.table key m.hash m.compare m.capacity with
    | some n => n.value
    | none => VoidPtr.null

/-- The function `gmap_for_each`; the visitor gets the key, the value and the
state behind `arg`, and returns that state as it leaves it. -/
def gmap_for_each {σ : Type} (m : Option (gmap K V)) (f : Option (K → VoidPtr V → σ → σ))
    (arg : σ) : σ :=
  match m, f with
  | none, _ => arg
  | some _, none => arg
  | some m, some f =>
    (List.range m.capacity).foldl
      (fun arg chain => (m.table.getD chain []).foldl (fun arg curr => f curr.key curr.value arg) arg)
      arg

/-- The struct `gmap_store_location`; a slot of the array is `none` until a key
reference is written to it. -/
structure gmap_store_location (K : Type) where
  arr : List (Option K)
  index : Nat

/-- The function `gmap_store_key_in_array`. -/
def gmap_store_key_in_array (key : K) (_value : VoidPtr V) (loc : gmap_store_location K) :
    gmap_store_location K :=
  { arr := loc.arr.set loc.index (some key), index := loc.index + 1 }

/-- The function `gmap_keys`; `keysAlloc` tells whether the array allocation
succeeds. -/
def gmap_keys (m : gmap K V) (keysAlloc : Bool) : Option (List (Option K)) :=
  if keysAlloc then
    let loc : gmap_store_location K := { arr := List.replicate m.size none, index := 0 }
    some (gmap_for_each (some m) (some gmap_store_key_in_array) loc).arr
  else none

/-- All nodes of the table: the chains of bucket 0, 1, ... one after the other,
each from its head. -/
def entries (m : gmap K V) : List (entry K V) := m.table.flatten

/-- The contract on the functions of a map: `compare` is an equivalence (0 means
equal), equal keys have equal hashes, and a copy is equal to its original. -/
structure Lawful (m : gmap K V) : Prop where
  refl : ∀ a, m.compare a a = 0
  symm : ∀ a b, m.compare a b = 0 → m.compare b a = 0
  trans : ∀ a b c, m.compare a b = 0 → m.compare b c = 0 → m.compare a c = 0
  hash_eq : ∀ a b, m.compare a b = 0 → m.hash a = m.hash b
  copy_eq : ∀ a b, m.copy a = some b → m.compare b a = 0

/-- Well-formedness of the table. -/
structure WF (m : gmap K V) : Prop where
  len : m.table.length = m.capacity
  cap_pos : 0 < m.capacity
  cap_lt : m.capacity < SIZE_T_MOD
  placed : ∀ i c, m.table[i]? = some c → ∀ e ∈ c, m.hash e.key % m.capacity = i
  distinct : (entries m).Pairwise (fun a b => m.compare a.key b.key ≠ 0)
  size_eq : m.size = (entries m).length
  size_le : m.size ≤ m.capacity

/-- The maps a program can hold: the result of a successful `gmap_create` with
lawful functions, and what `gmap_put` and `gmap_remove` make of such a map.  A
`gmap_put` is included when doubling the capacity stays within `size_t`. -/
inductive Reachable : gmap K V → Prop where
  | create (cp : K → Option K) (comp : K → K → Int) (h : K → Nat) (f : K → Unit)
      (m : gmap K V) :
      gmap_create (some cp) (some comp) (some h) (some f) true true = some m →
      Lawful m → Reachable m
  | put (m m' : gmap K V) (key : Option K) (value : VoidPtr V) (nodeAlloc : Bool) :
      Reachable m → m.capacity * 2 < SIZE_T_MOD →
      (gmap_put (some m) key value nodeAlloc).1 = some m' → Reachable m'
  | remove (m m' : gmap K V) (key : Option K) :
      Reachable m → (gmap_remove (some m) key).1 = some m' → Reachable m'

/-- The map `m'` has the functions of `m`. -/
structure SameFunctions (m m' : gmap K V) : Prop where
  hash : m'.hash = m.hash
  compare : m'.compare = m.compare
  copy : m'.copy = m.copy
  free : m'.free = m.free

/-- A run of `gmap_put` calls, one per pair of the list in order, the node
allocation succeeding in each. -/
def put_all (m : Option (gmap K V)) : List (K × VoidPtr V) → Option (gmap K V)
  | [] => m
  | p :: ps => put_all (gmap_put m (some p.1) p.2 true).1 ps

/-- The number of keys of a sequence that compare equal to none of `seen` and to
no earlier key of the sequence. -/
def count_new (compare : K → K → Int) (seen : List K) : List K → Nat
  | [] => 0
  | k :: ks =>
    (if seen.any (fun s => decide (compare s k = 0)) then 0 else 1) +
      count_new compare (k :: seen) ks

/-- The number of pairwise non-equal keys in a sequence: the keys that compare
equal to no earlier key of it. -/
def count_distinct (compare : K → K → Int) (ks : List K) : Nat :=
  count_new compare [] ks

/-- The visitor `gmap_store_key_in_array` together with a log of the array indices
it writes to. -/
def store_key_logged (key : K) (value : VoidPtr V) (s : gmap_store_location K × List Nat) :
    gmap_store_location K × List Nat :=
  (gmap_store_key_in_array key value s.1, s.2 ++ [s.1.index])

/-- A visitor that records the pairs it is called with, in order. -/
def record_visit (key : K) (value : VoidPtr V) (seen : List (K × VoidPtr V)) :
    List (K × VoidPtr V) :=
  seen ++ [(key, value)]

/-! ### A map with number keys, for examples -/

def nat_copy (a : Nat) : Option Nat := some a

def nat_compare (a b : Nat) : Int := (a : Int) - (b : Int)

def nat_hash (a : Nat) : Nat := a

def nat_free (_a : Nat) : Unit := ()

/-- The map `gmap_create(nat_copy, nat_compare, nat_hash, nat_free)` returns. -/
def nat_map : gmap Nat Nat :=
  { table := List.replicate GMAP_INITIAL_CAPACITY [], capacity := GMAP_INITIAL_CAPACITY,
    size := 0, hash := nat_hash, compare := nat_compare, copy := nat_copy, free := nat_free }

/-- The map `nat_map` after `put(1, 10)`, `put(101, 20)`, `put(201, 30)`: one chain of
three nodes in bucket 1. -/
def nat_map3 : gmap Nat Nat :=
  { nat_map with
    table := (List.replicate GMAP_INITIAL_CAPACITY []).set 1
      [{ key := 201, value := VoidPtr.addr 30 }, { key := 101, value := VoidPtr.addr 20 },
       { key := 1, value := VoidPtr.addr 10 }],
    size := 3 }

/-- The pairs `(0, 0), (1, 1), ..., (n - 1, n - 1)` of a key and the value put under
it. -/
def nat_pairs (n : Nat) : List (Nat × VoidPtr Nat) :=
  (List.range n).map (fun i => (i, VoidPtr.addr i))

/-- A copy function that fails (returns null) for the keys from 100 on. -/
def picky_copy (a : Nat) : Option Nat := if a < 100 then some a else none

/-- The map `gmap_create(picky_copy, nat_compare, nat_hash, nat_free)` returns. -/
def picky_map : gmap Nat Nat :=
  { nat_map with copy := picky_copy }

/-- The map `picky_map` after `put(0, 0)`, `put(1, 1)`, ..., `put(99, 99)`: a full table,
one node in each of the 100 buckets. -/
def picky_full : gmap Nat Nat :=
  { picky_map with
    table := (List.range 100).map (fun i => [{ key := i, value := VoidPtr.addr i }]),
    size := 100 }

/-! ### Insertion order -/

/-- The stored entries in the order of their insertion, the most recently inserted
first, after a put of `k` with value `v`: an entry with a key equal to `k` keeps
its place and gets the value; if there is none, the entry with the copied key is
the most recent one (and nothing changes if the copy failed). -/
def recency_put (compare : K → K → Int) (copied : Option K) (k : K) (v : VoidPtr V)
    (l : List (entry K V)) : List (entry K V) :=
  if l.any (fun e => decide (compare e.key k = 0)) then
    l.map (fun e => if compare e.key k = 0 then { e with value := v } else e)
  else
    match copied with
    | some c => { key := c, value := v } :: l
    | none => l

/-- The stored entries in the order of their insertion after a remove of `k`. -/
def recency_remove (compare : K → K → Int) (k : K) (l : List (entry K V)) :
    List (entry K V) :=
  l.filter (fun e => decide (compare e.key k ≠ 0))

/-- The entries in the order of their insertion, the most recent first, after a run
of puts. -/
def recency_all (compare : K → K → Int) (copy : K → Option K) (l : List (entry K V)) :
    List (K × VoidPtr V) → List (entry K V)
  | [] => l
  | p :: ps => recency_all compare copy (recency_put compare (copy p.1) p.1 p.2 l) ps

/-- The maps reached from a freshly created map by successful puts and by removes
none of which resized the table, each with its entries in the order of their
insertion, the most recently inserted first. -/
inductive ReachedUnresized : gmap K V → List (entry K V) → Prop where
  | create (cp : K → Option K) (comp : K → K → Int) (h : K → Nat) (f : K → Unit)
      (m : gmap K V) :
      gmap_create (some cp) (some comp) (some h) (some f) true true = some m →
      Lawful m → ReachedUnresized m []
  | put (m m' : gmap K V) (l : List (entry K V)) (k : K) (value : VoidPtr V) :
      ReachedUnresized m l →
      (gmap_contains_key m k = true ∨ ((m.copy k).isSome = true ∧ m.size < m.capacity)) →
      (gmap_put (some m) (some k) value true).1 = some m' →
      ReachedUnresized m' (recency_put m.compare (m.copy k) k value l)
  | remove (m m' : gmap K V) (l : List (entry K V)) (k : K) :
      ReachedUnresized m l → (gmap_remove (some m) (some k)).1 = some m' →
      ReachedUnresized m' (recency_remove m.compare k l)

/-- The visitor `record_visit` run by `gmap_for_each` over a map. -/
def visits (m : gmap K V) : List (K × VoidPtr V) :=
  gmap_for_each (some m) (some record_visit) []

/-- A run of 101 puts: the keys 1 and 201, which share a bucket in a table of 100 and
in a table of 200 buckets, then 2, ..., 99, then 100, whose put finds the table
full and resizes it. -/
def resize_run : List (Nat × VoidPtr Nat) :=
  (1, VoidPtr.addr 1) :: (201, VoidPtr.addr 201) ::
    ((List.range 98).map (fun i => (i + 2, VoidPtr.addr (i + 2))) ++ [(100, VoidPtr.addr 100)])

/-- The map `nat_map` after the puts of `resize_run`. -/
def resized_map : gmap Nat Nat :=
  (put_all (some nat_map) resize_run).getD nat_map

/-- Every chain of `m` lists the entries of its bucket in the order of `l`. -/
def ChainsInOrder (m : gmap K V) (l : List (entry K V)) : Prop :=
  ∀ i, i < m.capacity →
    m.table[i]? = some (l.filter (fun e => decide (gmap_compute_index e.key m.hash m.capacity = i)))

/-- The map `nat_map` after `put(1, 10)`. -/
def nat_map1 : gmap Nat Nat :=
  { nat_map with
    table := (List.replicate GMAP_INITIAL_CAPACITY []).set 1
      [{ key := 1, value := VoidPtr.addr 10 }],
    size := 1 }

/-- The map `nat_map` after `put(1, 10)` and `put(101, 20)`. -/
def nat_map2 : gmap Nat Nat :=
  { nat_map with
    table := (List.replicate GMAP_INITIAL_CAPACITY []).set 1
      [{ key := 101, value := VoidPtr.addr 20 }, { key := 1, value := VoidPtr.addr 10 }],
    size := 2 }

/-! ### The scoring of `blotto.c`

A `double` is taken as an exact rational.  A `result *` is the address of a
`result` in the list of the structs allocated so far, the struct at address `a`
being element `a` of the list; an `int *` distribution is identified with the
array it points to.  The weight of battlefield `i`, `atof(argv[i + 3])`, is
`weight i`.  The functions `duplicate`, `compare_keys` and `hash29` of the maps are
those stored in the maps. -/

/-- A C string: its bytes before the terminating NUL. -/
abbrev CString := List Nat

/-- The struct `result`. -/
structure result where
  id : CString
  wins : ℚ
  score : ℚ
  overall_score : ℚ
  games : ℚ

/-- The state of the matchup loop of `play_blotto`: the map `point_map` from an
identifier to the address of its `result`, and the `result` structs allocated so
far. -/
structure play_state where
  point_map : gmap CString Nat
  heap : List result

/-- A read through a `result *`; there is no result when the pointer is not the
address of a struct. -/
def read_result (heap : List result) (p : VoidPtr Nat) : Option result :=
  match p with
  | VoidPtr.addr a => heap[a]?
  | _ => none

/-- A write through a `result *`, the struct `r` behind it becoming `f r`; there is
no result when the pointer is not the address of a struct. -/
def modify_result (heap : List result) (p : VoidPtr Nat) (f : result → result) :
    Option (List result) :=
  match p with
  | VoidPtr.addr a =>
    match heap[a]? with
    | some r => some (heap.set a (f r))
    | none => none
  | _ => none

/-- A sequence of writes through `result *` pointers, in order. -/
def modify_all (heap : List result) :
    List (VoidPtr Nat × (result → result)) → Option (List result)
  | [] => some heap
  | w :: ws => (modify_result heap w.1 w.2).bind (fun heap => modify_all heap ws)

/-- The block of `play_blotto` that gives an identifier without an entry in
`point_map` a zeroed `result` and puts it into the map (lines 220-231 and 233-244);
the two allocations of the block, which the source uses unchecked, and the node
allocation of the put are taken to succeed. -/
def register_player (st : play_state) (id : CString) : play_state :=
  if gmap_contains_key st.point_map id = false then
    let stats : result := { games := 0, score := 0, overall_score := 0, wins := 0, id := id }
    { point_map :=
        ((gmap_put (some st.point_map) (some id) (VoidPtr.addr st.heap.length) true).1).getD
          st.point_map,
      heap := st.heap ++ [stats] }
  else st

/-- The element `arr[i]` of a distribution. -/
def read_int (arr : VoidPtr (List Int)) (i : Nat) : Option Int :=
  match arr with
  | VoidPtr.addr d => d[i]?
  | _ => none

/-- The body of the battlefield loop of `play_blotto` (lines 252-271) for
battlefield `i`. -/
def play_battlefield (pm : gmap CString Nat) (id1 id2 : CString)
    (arr1 arr2 : VoidPtr (List Int)) (weight : Nat → ℚ) (heap : List result) (i : Nat) :
    Option (List result) :=
  match read_int arr1 i, read_int arr2 i with
  | some x1, some x2 =>
    (if x1 > x2 then
      modify_result heap (gmap_get (some pm) (some id1))
        (fun game1 => { game1 with score := game1.score + weight i })
    else some heap).bind fun heap =>
    (if x1 = x2 then
      modify_all heap
        [(gmap_get (some pm) (some id1),
            fun game1 => { game1 with score := game1.score + weight i / 2 }),
         (gmap_get (some pm) (some id2),
            fun game2 => { game2 with score := game2.score + weight i / 2 })]
    else some heap).bind fun heap =>
    if x1 < x2 then
      modify_result heap (gmap_get (some pm) (some id2))
        (fun game2 => { game2 with score := game2.score + weight i })
    else some heap
  | _, _ => none

/-- The battlefield loop of `play_blotto` (lines 250-272) over the battlefields of a
list. -/
def play_battlefields (pm : gmap CString Nat) (id1 id2 : CString)
    (arr1 arr2 : VoidPtr (List Int)) (weight : Nat → ℚ) :
    List Nat → List result → Option (List result)
  | [], heap => some heap
  | i :: rest, heap =>
    (play_battlefield pm id1 id2 arr1 arr2 weight heap i).bind
      (play_battlefields pm id1 id2 arr1 arr2 weight rest)

/-- The end of a matchup in `play_blotto` (lines 274-307): the matchup scores are
added to the overall scores, the win and the games are counted and the matchup
scores are reset. -/
def settle_matchup (pm : gmap CString Nat) (id1 id2 : CString) (heap : List result) :
    Option (List result) :=
  let game1 := gmap_get (some pm) (some id1)
  let game2 := gmap_get (some pm) (some id2)
  (modify_all heap
    [(game1, fun r => { r with overall_score := r.overall_score + r.score }),
     (game2, fun r => { r with overall_score := r.overall_score + r.score })]).bind fun heap =>
  match read_result heap game1, read_result heap game2 with
  | some r1, some r2 =>
    if r1.score > r2.score then
      modify_all heap
        [(game1, fun r => { r with wins := r.wins + 1 }),
         (game1, fun r => { r with games := r.games + 1 }),
         (game2, fun r => { r with games := r.games + 1 }),
         (game1, fun r => { r with score := 0 }),
         (game2, fun r => { r with score := 0 })]
    else if r1.score = r2.score then
      modify_all heap
        [(game1, fun r => { r with wins := r.wins + 1 / 2 }),
         (game2, fun r => { r with wins := r.wins + 1 / 2 }),
         (game1, fun r => { r with games := r.games + 1 }),
         (game2, fun r => { r with games := r.games + 1 }),
         (game1, fun r => { r with score := 0 }),
         (game2, fun r => { r with score := 0 })]
    else
      modify_all heap
        [(game2, fun r => { r with wins := r.wins + 1 }),
         (game1, fun r => { r with games := r.games + 1 }),
         (game2, fun r => { r with games := r.games + 1 }),
         (game1, fun r => { r with score := 0 }),
         (game2, fun r => { r with score := 0 })]
  | _, _ => none

/-- The state after the registration of the two players and the battlefield loop of
one matchup line, before the matchup is settled. -/
def play_blotto_score (all_players : gmap CString (List Int)) (battlefields : Nat)
    (weight : Nat → ℚ) (st : play_state) (id1 id2 : CString) : Option play_state :=
  let st := register_player st id1
  let st := register_player st id2
  let arr1 := gmap_get (some all_players) (some id1)
  let arr2 := gmap_get (some all_players) (some id2)
  (play_battlefields st.point_map id1 id2 arr1 arr2 weight (List.range battlefields)
    st.heap).map fun heap => { st with heap := heap }

/-- The body of the matchup loop of `play_blotto` (lines 217-318) for one line
`id1 id2` of the matchup file; there is no state afterwards when the program exits
(a player is not registered) or a null pointer is used. -/
def play_blotto_matchup (all_players : gmap CString (List Int)) (battlefields : Nat)
    (weight : Nat → ℚ) (st : play_state) (id1 id2 : CString) : Option play_state :=
  if gmap_contains_key all_players id1 = true ∧ gmap_contains_key all_players id2 = true then
    (play_blotto_score all_players battlefields weight st id1 id2).bind fun st =>
    (settle_matchup st.point_map id1 id2 st.heap).map fun heap => { st with heap := heap }
  else none

/-- The result struct of an identifier: the struct behind its pointer in
`point_map`. -/
def result_of (st : play_state) (id : CString) : Option result :=
  read_result st.heap (gmap_get (some st.point_map) (some id))

/-- The string in a `char` array: the bytes before the first NUL. -/
def c_str (s : CString) : List Nat := s.takeWhile (fun b => decide (b ≠ 0))

/-- The C library function `strcmp` on two `char` arrays: the difference of the first
bytes in which the strings differ, the end of an array counting as the NUL byte,
and 0 when the strings end without a difference. -/
def strcmp : CString → CString → Int
  | [], [] => 0
  | [], b :: _ => 0 - (b : Int)
  | a :: _, [] => (a : Int) - 0
  | a :: as, b :: bs =>
    if a = b then (if a = 0 then 0 else strcmp as bs) else (a : Int) - (b : Int)

/-- The function `cmpfunc_win`. -/
def cmpfunc_win (r1 r2 : result) : Int :=
  if r1.wins / r1.games > r2.wins / r2.games then -1
  else if r1.wins / r1.games < r2.wins / r2.games then 1
  else strcmp r1.id r2.id

/-- The function `cmpfunc_score`. -/
def cmpfunc_score (r1 r2 : result) : Int :=
  if r1.overall_score / r1.games > r2.overall_score / r2.games then -1
  else if r1.overall_score / r1.games < r2.overall_score / r2.games then 1
  else strcmp r1.id r2.id

/-- The points of battlefield `i` for the player with distribution `d1` against
`d2`: the weight on a strict win, half of it on a tie. -/
def battle_points (weight : Nat → ℚ) (d1 d2 : List Int) (i : Nat) : ℚ :=
  if d1.getD i 0 > d2.getD i 0 then weight i
  else if d1.getD i 0 = d2.getD i 0 then weight i / 2 else 0

/-- The matchup score of the player with distribution `d1` against `d2` as the
claim words it: the sum of the weights of the battlefields it wins plus the sum of
half the weights of the battlefields that are tied. -/
def matchup_score (weight : Nat → ℚ) (d1 d2 : List Int) (battlefields : Nat) : ℚ :=
  (((List.range battlefields).filter (fun i => decide (d1.getD i 0 > d2.getD i 0))).map
    weight).sum +
  (((List.range battlefields).filter (fun i => decide (d1.getD i 0 = d2.getD i 0))).map
    (fun i => weight i / 2)).sum

/-- The struct `r` after those writes of a sequence that go through the pointer
`p`. -/
def writes_through (p : VoidPtr Nat) (ws : List (VoidPtr Nat × (result → result)))
    (r : result) : result :=
  ws.foldl (fun r w => if w.1 = p then w.2 r else r) r

/-- The invariant of the matchup loop of `play_blotto`: `point_map` is a reachable
map, every value in it is the address of an allocated `result`, no two entries
share an address, and every matchup score is 0. -/
structure PointsOK (st : play_state) : Prop where
  reach : Reachable st.point_map
  valid : ∀ e ∈ entries st.point_map, ∃ a, e.value = VoidPtr.addr a ∧ a < st.heap.length
  inj : ∀ e1 ∈ entries st.point_map, ∀ e2 ∈ entries st.point_map,
    e1.value = e2.value → e1 = e2
  zero : ∀ r ∈ st.heap, r.score = 0

/-- The result of a player before a matchup: its struct, or the zeroed struct that
the matchup gives it when it has none yet. -/
def prior_result (st : play_state) (id : CString) : result :=
  (result_of st id).getD { id := id, wins := 0, score := 0, overall_score := 0, games := 0 }

/-- The wins a matchup adds to a player with matchup score `s1` against `s2`. -/
def win_credit (s1 s2 : ℚ) : ℚ :=
  if s1 > s2 then 1 else if s1 = s2 then 1 / 2 else 0

/-! ### Maps with string keys, for examples -/

/-- A hash function for strings: the sum of the bytes of the string. -/
def str_hash (s : CString) : Nat := (c_str s).sum

/-- A copy function for strings that always succeeds. -/
def str_copy (s : CString) : Option CString := some s

/-- The map `gmap_create(str_copy, strcmp, str_hash, free)` returns. -/
def str_map (V : Type) : gmap CString V :=
  { table := List.replicate GMAP_INITIAL_CAPACITY [], capacity := GMAP_INITIAL_CAPACITY,
    size := 0, hash := str_hash, compare := strcmp, copy := str_copy, free := fun _ => () }

/-- The map of the players `A` (the byte 65) with distribution `[3, 1]`, `B` with
`[2, 2]` and `C` with `[0, 4]`. -/
def abc_players : gmap CString (List Int) :=
  { str_map (List Int) with
    table := (((List.replicate GMAP_INITIAL_CAPACITY []).set 65
        [{ key := [65], value := VoidPtr.addr [3, 1] }]).set 66
        [{ key := [66], value := VoidPtr.addr [2, 2] }]).set 67
        [{ key := [67], value := VoidPtr.addr [0, 4] }],
    size := 3 }

/-- The state of `play_blotto` before the first matchup line. -/
def start_state : play_state :=
  { point_map := str_map Nat, heap := [] }

/-- The common shape of `cmpfunc_win` and `cmpfunc_score`: the comparison of two
records by their rates `x1` and `x2`, then by their identifiers. -/
def rate_cmp (x1 x2 : ℚ) (id1 id2 : CString) : Int :=
  if x1 > x2 then -1 else if x1 < x2 then 1 else strcmp id1 id2

/-- The record of player `A` (the byte 65) with 1 win and overall score 3 in 2 games. -/
def record_a : result :=
  { id := [65], wins := 1, score := 0, overall_score := 3, games := 2 }

/-- The record of player `B` (the byte 66) with 1.5 wins and overall score 3 in 3
games. -/
def record_b : result :=
  { id := [66], wins := 3 / 2, score := 0, overall_score := 3, games := 3 }

/-! ### The matchup loop and the ranking array -/

/-- The matchup loop of `play_blotto` (lines 203-318) over the lines `id1 id2` of the
matchup file, in order; there is no state afterwards when a line does not finish. -/
def play_lines (all_players : gmap CString (List Int)) (battlefields : Nat)
    (weight : Nat → ℚ) (st : play_state) : List (CString × CString) → Option play_state
  | [] => some st
  | line :: rest =>
    (play_blotto_matchup all_players battlefields weight st line.1 line.2).bind
      (fun st => play_lines all_players battlefields weight st rest)

/-- The array `stats_arr` that `play_blotto` sorts and prints (lines 344-351): for
every key that `gmap_keys(point_map)` returns, the struct behind the pointer that
`gmap_get(point_map, key)` returns; an element is `none` when there is no such
struct.  The allocations are taken to succeed. -/
def stats_arr (st : play_state) : List (Option result) :=
  ((gmap_keys st.point_map true).getD []).map
    (fun key_ref => key_ref.bind (fun key => result_of st key))

/-- A record that can be ranked: at least one game, and between 0 and `games`
wins. -/
structure GamesOK (r : result) : Prop where
  played : 1 ≤ r.games
  wins_nonneg : 0 ≤ r.wins
  wins_le : r.wins ≤ r.games

/-- The identifier is that of a registered player: `all_players` maps it to a
distribution with one entry for each battlefield. -/
def Registered (all_players : gmap CString (List Int)) (battlefields : Nat)
    (id : CString) : Prop :=
  gmap_contains_key all_players id = true ∧
  ∃ d : List Int, gmap_get (some all_players) (some id) = VoidPtr.addr d ∧
    d.length = battlefields

/-- The state of the records in the middle of a matchup line whose players have
the structs `a1` and `a2`: no struct has more wins than games, and every struct
but these two has a game. -/
def GamesPending (heap : List result) (a1 a2 : Nat) : Prop :=
  ∀ (b : Nat) (r : result), heap[b]? = some r →
    (0 ≤ r.wins ∧ r.wins ≤ r.games) ∧ (b ≠ a1 → b ≠ a2 → 1 ≤ r.games)

/-- A matchup file over the players of `abc_players`: `A B`, then `A A`, a line
that names one player twice, then `C A`. -/
def abc_lines : List (CString × CString) := [([65], [66]), ([65], [65]), ([67], [65])]

/-! ### Chains -/

theorem find_key_loop_some {cmp : K → K → Int} {k : K} {c : List (entry K V)} {e : entry K V}
    (h : find_key_loop cmp k c = some e) :
    ∃ before after, c = before ++ e :: after ∧ (∀ x ∈ before, cmp x.key k ≠ 0) ∧
      cmp e.key k = 0 := by
  induction c with
  | nil => simp [find_key_loop] at h
  | cons a t ih =>
    unfold find_key_loop at h
    by_cases ha : cmp a.key k = 0
    · simp only [ha, ne_eq, not_true_eq_false, if_false, Option.some.injEq] at h
      subst h
      exact ⟨[], t, rfl, by simp, ha⟩
    · simp only [ne_eq, ha, not_false_eq_true, if_true] at h
      obtain ⟨b, r, hc, hb, he⟩ := ih h
      refine ⟨a :: b, r, by simp [hc], ?_, he⟩
      intro x hx
      rcases List.mem_cons.1 hx with rfl | hx
      · exact ha
      · exact hb x hx

theorem find_key_loop_none {cmp : K → K → Int} {k : K} {c : List (entry K V)} :
    find_key_loop cmp k c = none ↔ ∀ x ∈ c, cmp x.key k ≠ 0 := by
  induction c with
  | nil => simp [find_key_loop]
  | cons a t ih =>
    unfold find_key_loop
    by_cases ha : cmp a.key k = 0
    · simp [ha]
    · simp [ha, ih]

theorem find_key_loop_split {cmp : K → K → Int} {k : K} (before after : List (entry K V))
    (e : entry K V) (hb : ∀ x ∈ before, cmp x.key k ≠ 0) (he : cmp e.key k = 0) :
    find_key_loop cmp k (before ++ e :: after) = some e := by
  induction before with
  | nil => simp [find_key_loop, he]
  | cons a t ih =>
    have ha : cmp a.key k ≠ 0 := hb a (List.mem_cons_self _ _)
    simp only [List.cons_append, find_key_loop, ne_eq, ha, not_false_eq_true, if_true]
    exact ih (fun x hx => hb x (List.mem_cons_of_mem _ hx))

theorem store_value_split {cmp : K → K → Int} {k : K} (v : VoidPtr V)
    (before after : List (entry K V))
    (e : entry K V) (hb : ∀ x ∈ before, cmp x.key k ≠ 0) (he : cmp e.key k = 0) :
    store_value cmp k v (before ++ e :: after) = before ++ { e with value := v } :: after := by
  induction before with
  | nil => simp [store_value, he]
  | cons a t ih =>
    have ha : cmp a.key k ≠ 0 := hb a (List.mem_cons_self _ _)
    have h := ih (fun x hx => hb x (List.mem_cons_of_mem _ hx))
    rw [List.cons_append, store_value]
    simp only [ne_eq, ha, not_false_eq_true, if_true, h, List.cons_append]

theorem remove_loop_split {cmp : K → K → Int} {k : K} (before after : List (entry K V))
    (e : entry K V) (hb : ∀ x ∈ before, cmp x.key k ≠ 0) (he : cmp e.key k = 0) :
    remove_loop cmp k (before ++ e :: after) = (before, some (e, after)) := by
  induction before with
  | nil => simp [remove_loop, he]
  | cons a t ih =>
    have ha : cmp a.key k ≠ 0 := hb a (List.mem_cons_self _ _)
    have h := ih (fun x hx => hb x (List.mem_cons_of_mem _ hx))
    rw [List.cons_append, remove_loop]
    simp only [ne_eq, ha, not_false_eq_true, if_true, h]

theorem remove_loop_none {cmp : K → K → Int} {k : K} {c : List (entry K V)}
    (h : ∀ x ∈ c, cmp x.key k ≠ 0) : (remove_loop cmp k c).2 = none := by
  induction c with
  | nil => simp [remove_loop]
  | cons a t ih =>
    have ha : cmp a.key k ≠ 0 := h a (List.mem_cons_self _ _)
    simp only [remove_loop, ne_eq, ha, not_false_eq_true, if_true]
    exact ih (fun x hx => h x (List.mem_cons_of_mem _ hx))

/-! ### Bucket arrays -/

theorem getD_of_getElem? {t : List (List (entry K V))} {i : Nat} {c : List (entry K V)}
    (h : t[i]? = some c) : t.getD i [] = c := by
  simp [List.getD_eq_getElem?_getD, h]

theorem getElem?_getD {t : List (List (entry K V))} {i : Nat} (h : i < t.length) :
    t[i]? = some (t.getD i []) := by
  simp [List.getD_eq_getElem?_getD, List.getElem?_eq_getElem h]

/-- Replacing chain `i` replaces its nodes among all nodes. -/
theorem flatten_set {t : List (List (entry K V))} {i : Nat} {c : List (entry K V)}
    (h : t[i]? = some c) :
    ∃ rest, t.flatten.Perm (c ++ rest) ∧ ∀ c', (t.set i c').flatten.Perm (c' ++ rest) := by
  induction t generalizing i with
  | nil => simp at h
  | cons a t ih =>
    cases i with
    | zero =>
      simp only [List.getElem?_cons_zero, Option.some.injEq] at h
      subst h
      exact ⟨t.flatten, by simp, fun c' => by simp⟩
    | succ j =>
      simp only [List.getElem?_cons_succ] at h
      obtain ⟨rest, h1, h2⟩ := ih h
      refine ⟨a ++ rest, ?_, fun c' => ?_⟩
      · simp only [List.flatten_cons]
        exact ((List.Perm.append_left a h1).trans (by
          rw [← List.append_assoc, ← List.append_assoc]
          exact List.Perm.append_right rest List.perm_append_comm))
      · simp only [List.set_cons_succ, List.flatten_cons]
        exact ((List.Perm.append_left a (h2 c')).trans (by
          rw [← List.append_assoc, ← List.append_assoc]
          exact List.Perm.append_right rest List.perm_append_comm))

theorem mem_entries_of_getElem? {m : gmap K V} {i : Nat} {c : List (entry K V)}
    (h : m.table[i]? = some c) {e : entry K V} (he : e ∈ c) : e ∈ entries m := by
  unfold entries
  exact List.mem_flatten.2 ⟨c, List.getElem?_mem h, he⟩

theorem range_map_getD (t : List (List (entry K V))) :
    (List.range t.length).map (fun i => t.getD i []) = t := by
  apply List.ext_getElem
  · simp
  · intro n h1 h2
    simp [List.getD_eq_getElem?_getD, List.getElem?_eq_getElem h2]

/-- A loop over the chain indices with an inner loop along each chain is one loop
over all nodes. -/
theorem foldl_range_chains {β : Type} (t : List (List (entry K V))) (g : β → entry K V → β)
    (b : β) :
    (List.range t.length).foldl (fun a i => (t.getD i []).foldl g a) b = t.flatten.foldl g b := by
  rw [List.foldl_flatten]
  conv_rhs => rw [← range_map_getD t]
  rw [List.foldl_map]

/-! ### Searching a well-formed table -/

theorem ne_symm_of_lawful {m : gmap K V} (hl : Lawful m) {a b : entry K V}
    (h : m.compare a.key b.key ≠ 0) : m.compare b.key a.key ≠ 0 :=
  fun h' => h (hl.symm _ _ h')

theorem index_lt {m : gmap K V} (hw : WF m) (k : K) :
    gmap_compute_index k m.hash m.capacity < m.table.length := by
  rw [hw.len]
  exact Nat.mod_lt _ hw.cap_pos

theorem mem_chain_of_mem_entries {m : gmap K V} (hw : WF m) (hl : Lawful m) {e : entry K V}
    {k : K} (he : e ∈ entries m) (hk : m.compare e.key k = 0) :
    e ∈ m.table.getD (gmap_compute_index k m.hash m.capacity) [] := by
  obtain ⟨c, hc, hec⟩ := List.mem_flatten.1 he
  obtain ⟨j, hj⟩ := List.mem_iff_getElem?.1 hc
  have hp := hw.placed j c hj e hec
  have hh := hl.hash_eq _ _ hk
  have : gmap_compute_index k m.hash m.capacity = j := by
    unfold gmap_compute_index
    rw [← hh, hp]
  rw [this, getD_of_getElem? hj]
  exact hec

/-- In a well-formed table the chain search finds exactly the stored node with an
equal key. -/
theorem find_iff {m : gmap K V} (hw : WF m) (hl : Lawful m) (k : K) (e : entry K V) :
    gmap_table_find_key m.table k m.hash m.compare m.capacity = some e ↔
      e ∈ entries m ∧ m.compare e.key k = 0 := by
  unfold gmap_table_find_key
  constructor
  · intro h
    obtain ⟨b, a, hc, _, he⟩ := find_key_loop_some h
    refine ⟨?_, he⟩
    apply mem_entries_of_getElem? (getElem?_getD (index_lt hw k))
    rw [hc]
    simp
  · rintro ⟨he, hk⟩
    have hmem := mem_chain_of_mem_entries hw hl he hk
    cases hf : find_key_loop m.compare k
        (m.table.getD (gmap_compute_index k m.hash m.capacity) []) with
    | none => exact absurd hk (find_key_loop_none.1 hf e hmem)
    | some e' =>
      obtain ⟨b, a, hc, _, he'⟩ := find_key_loop_some hf
      have hmem' : e' ∈ entries m := by
        apply mem_entries_of_getElem? (getElem?_getD (index_lt hw k))
        rw [hc]
        simp
      by_cases heq : e' = e
      · simp [heq]
      · exfalso
        have := hw.distinct.forall (fun _ _ h => ne_symm_of_lawful hl h) hmem' he heq
        exact this (hl.trans _ _ _ he' (hl.symm _ _ hk))

theorem find_none_iff {m : gmap K V} (hw : WF m) (hl : Lawful m) (k : K) :
    gmap_table_find_key m.table k m.hash m.compare m.capacity = none ↔
      ∀ e ∈ entries m, m.compare e.key k ≠ 0 := by
  constructor
  · intro h e he hk
    have := (find_iff hw hl k e).2 ⟨he, hk⟩
    rw [h] at this
    cases this
  · intro h
    cases hf : gmap_table_find_key m.table k m.hash m.compare m.capacity with
    | none => rfl
    | some e =>
      have := (find_iff hw hl k e).1 hf
      exact absurd this.2 (h e this.1)

/-- Two well-formed tables with the same functions and the same nodes whose key
equals `k` give the same search result for `k`. -/
theorem find_congr {m m' : gmap K V} (hw : WF m) (hl : Lawful m) (hw' : WF m') (hl' : Lawful m')
    (hcmp : m'.compare = m.compare) (k : K)
    (h : ∀ e, m.compare e.key k = 0 → (e ∈ entries m' ↔ e ∈ entries m)) :
    gmap_table_find_key m'.table k m'.hash m'.compare m'.capacity =
      gmap_table_find_key m.table k m.hash m.compare m.capacity := by
  apply Option.ext
  intro e
  rw [Option.mem_def, Option.mem_def, find_iff hw hl, find_iff hw' hl', hcmp]
  constructor
  · rintro ⟨h1, h2⟩
    exact ⟨(h e h2).1 h1, h2⟩
  · rintro ⟨h1, h2⟩
    exact ⟨(h e h2).2 h1, h2⟩

/-! ### Adding a node -/

theorem table_add_length (t : List (List (entry K V))) (e : entry K V) (h : K → Nat) (n : Nat) :
    (gmap_table_add t e h n).length = t.length := by
  simp [gmap_table_add]

theorem table_add_perm {t : List (List (entry K V))} (e : entry K V) (h : K → Nat) {n : Nat}
    (hlen : t.length = n) (hn : 0 < n) : (gmap_table_add t e h n).flatten.Perm (e :: t.flatten) := by
  unfold gmap_table_add
  have hi : gmap_compute_index e.key h n < t.length := by
    rw [hlen]
    exact Nat.mod_lt _ hn
  obtain ⟨rest, h1, h2⟩ := flatten_set (getElem?_getD hi)
  refine (h2 _).trans ?_
  rw [List.cons_append]
  exact List.Perm.cons e h1.symm

theorem table_add_placed {t : List (List (entry K V))} (e : entry K V) (h : K → Nat) {n : Nat}
    (hp : ∀ i c, t[i]? = some c → ∀ x ∈ c, h x.key % n = i) :
    ∀ i c, (gmap_table_add t e h n)[i]? = some c → ∀ x ∈ c, h x.key % n = i := by
  intro i c hc x hx
  unfold gmap_table_add at hc
  rw [List.getElem?_set] at hc
  by_cases hi : gmap_compute_index e.key h n = i
  · rw [if_pos hi] at hc
    by_cases hlt : gmap_compute_index e.key h n < t.length
    · rw [if_pos hlt, Option.some.injEq] at hc
      subst hc
      rcases List.mem_cons.1 hx with rfl | hx
      · exact hi
      · rw [← hi]
        exact hp _ _ (getElem?_getD hlt) x hx
    · rw [if_neg hlt] at hc
      cases hc
  · rw [if_neg hi] at hc
    exact hp i c hc x hx

/-- The node loop of `gmap_embiggen`. -/
theorem rehash_spec (h : K → Nat) {n : Nat} (hn : 0 < n) (es : List (entry K V))
    (t : List (List (entry K V))) (hlen : t.length = n)
    (hp : ∀ i c, t[i]? = some c → ∀ x ∈ c, h x.key % n = i) :
    (es.foldl (fun t e => gmap_table_add t e h n) t).length = n ∧
    (es.foldl (fun t e => gmap_table_add t e h n) t).flatten.Perm (es ++ t.flatten) ∧
    ∀ i c, (es.foldl (fun t e => gmap_table_add t e h n) t)[i]? = some c →
      ∀ x ∈ c, h x.key % n = i := by
  induction es generalizing t with
  | nil => exact ⟨hlen, List.Perm.refl _, hp⟩
  | cons a es ih =>
    simp only [List.foldl_cons]
    have hlen' : (gmap_table_add t a h n).length = n := by rw [table_add_length, hlen]
    obtain ⟨h1, h2, h3⟩ := ih (gmap_table_add t a h n) hlen' (table_add_placed a h hp)
    refine ⟨h1, ?_, h3⟩
    refine h2.trans ?_
    refine (List.Perm.append_left es (table_add_perm a h hlen hn)).trans ?_
    rw [List.cons_append]
    exact List.perm_middle

theorem embiggen_table {m : gmap K V} (hlen : m.table.length = m.capacity) (n : Nat) :
    (gmap_embiggen m n).table =
      (entries m).foldl (fun t e => gmap_table_add t e m.hash n) (List.replicate n []) := by
  unfold gmap_embiggen entries
  simp only []
  rw [← hlen, foldl_range_chains]

/-! ### The operations on a well-formed table -/

theorem SameFunctions.refl (m : gmap K V) : SameFunctions m m := ⟨rfl, rfl, rfl, rfl⟩

theorem SameFunctions.trans {a b c : gmap K V} (h1 : SameFunctions a b) (h2 : SameFunctions b c) :
    SameFunctions a c :=
  ⟨h2.hash.trans h1.hash, h2.compare.trans h1.compare, h2.copy.trans h1.copy,
    h2.free.trans h1.free⟩

theorem SameFunctions.lawful {m m' : gmap K V} (h : SameFunctions m m') (hl : Lawful m) :
    Lawful m' := by
  constructor
  · rw [h.compare]; exact hl.refl
  · rw [h.compare]; exact hl.symm
  · rw [h.compare]; exact hl.trans
  · rw [h.compare, h.hash]; exact hl.hash_eq
  · rw [h.compare, h.copy]; exact hl.copy_eq

theorem embiggen_spec {m : gmap K V} (hw : WF m) (hl : Lawful m) {n : Nat} (hn : m.capacity ≤ n)
    (hlt : n < SIZE_T_MOD) :
    WF (gmap_embiggen m n) ∧ (entries (gmap_embiggen m n)).Perm (entries m) ∧
      SameFunctions m (gmap_embiggen m n) ∧ (gmap_embiggen m n).size = m.size ∧
      (gmap_embiggen m n).capacity = n := by
  have hpos : 0 < n := Nat.lt_of_lt_of_le hw.cap_pos hn
  have ht := embiggen_table hw.len n
  obtain ⟨h1, h2, h3⟩ := rehash_spec m.hash hpos (entries m) (List.replicate n [])
    (List.length_replicate n _) (by
      intro i c hc x hx
      rw [List.getElem?_replicate] at hc
      split at hc
      · cases hc
        cases hx
      · cases hc)
  rw [← ht] at h1 h2 h3
  have hperm : (entries (gmap_embiggen m n)).Perm (entries m) := by
    have : (gmap_embiggen m n).table.flatten.Perm (entries m) := by
      refine h2.trans ?_
      simp
    exact this
  refine ⟨⟨h1, hpos, hlt, h3, ?_, ?_, ?_⟩, hperm, ⟨rfl, rfl, rfl, rfl⟩, rfl, rfl⟩
  · exact (hperm.pairwise_iff (fun h => ne_symm_of_lawful hl h)).2 hw.distinct
  · show m.size = _
    rw [hw.size_eq, hperm.length_eq]
  · show m.size ≤ n
    exact Nat.le_trans hw.size_le hn

theorem split_perm (before after rest : List (entry K V)) (e : entry K V) :
    ((before ++ e :: after) ++ rest).Perm (e :: (before ++ after ++ rest)) := by
  rw [List.append_assoc, List.cons_append, List.append_assoc]
  exact List.perm_middle

/-- A `gmap_put` of a key that is stored. -/
theorem put_present {m : gmap K V} (hw : WF m) (hl : Lawful m) {k : K} {e0 : entry K V}
    (hf : gmap_table_find_key m.table k m.hash m.compare m.capacity = some e0)
    (v : VoidPtr V) (node : Bool) :
    ∃ m', gmap_put (some m) (some k) v node = (some m', e0.value) ∧ WF m' ∧
      SameFunctions m m' ∧ m'.size = m.size ∧ m'.capacity = m.capacity ∧
      ∃ rest, (entries m).Perm (e0 :: rest) ∧
        (entries m').Perm ({ e0 with value := v } :: rest) := by
  have hf' := hf
  unfold gmap_table_find_key at hf'
  obtain ⟨before, after, hc, hb, he⟩ := find_key_loop_some hf'
  have hi := index_lt hw k
  obtain ⟨rest0, hp1, hp2⟩ := flatten_set (getElem?_getD hi)
  have hnew := store_value_split v before after e0 hb he
  rw [← hc] at hnew
  have hperm : (entries m).Perm (e0 :: (before ++ after ++ rest0)) := by
    refine hp1.trans ?_
    rw [hc]
    exact split_perm _ _ _ _
  refine ⟨{ m with
      table := m.table.set (gmap_compute_index k m.hash m.capacity)
        (store_value m.compare k v (m.table.getD (gmap_compute_index k m.hash m.capacity) [])) },
    ?_, ?_, ⟨rfl, rfl, rfl, rfl⟩, rfl, rfl, before ++ after ++ rest0, hperm, ?_⟩
  · simp only [gmap_put, hf]
  · have hperm' : (entries { m with
        table := m.table.set (gmap_compute_index k m.hash m.capacity)
          (store_value m.compare k v
            (m.table.getD (gmap_compute_index k m.hash m.capacity) [])) }).Perm
        ({ e0 with value := v } :: (before ++ after ++ rest0)) := by
      refine (hp2 _).trans ?_
      rw [hnew]
      exact split_perm _ _ _ _
    refine ⟨?_, hw.cap_pos, hw.cap_lt, ?_, ?_, ?_, hw.size_le⟩
    · show (m.table.set _ _).length = m.capacity
      rw [List.length_set, hw.len]
    · intro i c hci x hx
      change (m.table.set _ _)[i]? = some c at hci
      show m.hash x.key % m.capacity = i
      rw [List.getElem?_set] at hci
      by_cases hii : gmap_compute_index k m.hash m.capacity = i
      · rw [if_pos hii, if_pos hi, Option.some.injEq] at hci
        rw [hnew] at hci
        subst hci
        have hold : ∀ y ∈ m.table.getD (gmap_compute_index k m.hash m.capacity) [],
            m.hash y.key % m.capacity = i := by
          intro y hy
          rw [← hii]
          exact hw.placed _ _ (getElem?_getD hi) y hy
        rw [hc] at hold
        rcases List.mem_append.1 hx with hx | hx
        · exact hold x (List.mem_append_left _ hx)
        · rcases List.mem_cons.1 hx with rfl | hx
          · exact hold e0 (by simp)
          · exact hold x (by simp [hx])
      · rw [if_neg hii] at hci
        exact hw.placed i c hci x hx
    · show (entries _).Pairwise (fun a b => m.compare a.key b.key ≠ 0)
      rw [hperm'.pairwise_iff (fun h => ne_symm_of_lawful hl h)]
      have := (hperm.pairwise_iff (fun h => ne_symm_of_lawful hl h)).1 hw.distinct
      rw [List.pairwise_cons] at this ⊢
      exact this
    · have h1 := hperm.length_eq
      have h2 := hperm'.length_eq
      simp only [List.length_cons] at h1 h2
      exact hw.size_eq.trans (h1.trans h2.symm)
  · refine (hp2 _).trans ?_
    rw [hnew]
    exact split_perm _ _ _ _

/-- The resize step of `gmap_put`. -/
theorem grow_spec {m : gmap K V} (hw : WF m) (hl : Lawful m) (hfit : m.capacity * 2 < SIZE_T_MOD) :
    WF (if m.size ≥ m.capacity then gmap_embiggen m (m.capacity * 2 % SIZE_T_MOD) else m) ∧
    (entries (if m.size ≥ m.capacity then gmap_embiggen m (m.capacity * 2 % SIZE_T_MOD)
      else m)).Perm (entries m) ∧
    SameFunctions m
      (if m.size ≥ m.capacity then gmap_embiggen m (m.capacity * 2 % SIZE_T_MOD) else m) ∧
    (if m.size ≥ m.capacity then gmap_embiggen m (m.capacity * 2 % SIZE_T_MOD) else m).size
      = m.size ∧
    (if m.size ≥ m.capacity then gmap_embiggen m (m.capacity * 2 % SIZE_T_MOD) else m).capacity
      = (if m.size ≥ m.capacity then m.capacity * 2 else m.capacity) ∧
    (if m.size ≥ m.capacity then gmap_embiggen m (m.capacity * 2 % SIZE_T_MOD) else m).size
      < (if m.size ≥ m.capacity then gmap_embiggen m (m.capacity * 2 % SIZE_T_MOD)
          else m).capacity := by
  by_cases h : m.size ≥ m.capacity
  · simp only [if_pos h]
    rw [Nat.mod_eq_of_lt hfit]
    obtain ⟨h1, h2, h3, h4, h5⟩ := embiggen_spec hw hl (Nat.le_mul_of_pos_right _ (by decide)) hfit
    refine ⟨h1, h2, h3, h4, h5, ?_⟩
    rw [h4, h5]
    have := hw.size_le
    have := hw.cap_pos
    omega
  · simp only [if_neg h]
    exact ⟨hw, List.Perm.refl _, SameFunctions.refl m, trivial, trivial, Nat.lt_of_not_ge h⟩

/-- Linking a new node into a table with room. -/
theorem add_node_spec {m : gmap K V} (hw : WF m) (hl : Lawful m) (k k' : K)
    (habs : ∀ e ∈ entries m, m.compare e.key k ≠ 0) (hk : m.compare k' k = 0)
    (hroom : m.size < m.capacity) (v : VoidPtr V) :
    WF { m with
        table := gmap_table_add m.table { key := k', value := v } m.hash m.capacity,
        size := (m.size + 1) % SIZE_T_MOD } ∧
    (entries { m with
        table := gmap_table_add m.table { key := k', value := v } m.hash m.capacity,
        size := (m.size + 1) % SIZE_T_MOD }).Perm ({ key := k', value := v } :: entries m) ∧
    (m.size + 1) % SIZE_T_MOD = m.size + 1 := by
  have hperm : (gmap_table_add m.table { key := k', value := v } m.hash m.capacity).flatten.Perm
      ({ key := k', value := v } :: entries m) := table_add_perm _ _ hw.len hw.cap_pos
  have hsz : (m.size + 1) % SIZE_T_MOD = m.size + 1 := by
    apply Nat.mod_eq_of_lt
    have := hw.cap_lt
    omega
  refine ⟨⟨?_, hw.cap_pos, hw.cap_lt, ?_, ?_, ?_, ?_⟩, hperm, hsz⟩
  · show (gmap_table_add _ _ _ _).length = m.capacity
    rw [table_add_length, hw.len]
  · exact table_add_placed _ _ hw.placed
  · show (gmap_table_add _ _ _ _).flatten.Pairwise (fun a b => m.compare a.key b.key ≠ 0)
    rw [hperm.pairwise_iff (fun h => ne_symm_of_lawful hl h), List.pairwise_cons]
    refine ⟨?_, hw.distinct⟩
    intro x hx h0
    exact habs x hx (hl.trans _ _ _ (hl.symm _ _ h0) hk)
  · show (m.size + 1) % SIZE_T_MOD = (gmap_table_add _ _ _ _).flatten.length
    rw [hsz, hperm.length_eq, List.length_cons, hw.size_eq]
  · show (m.size + 1) % SIZE_T_MOD ≤ m.capacity
    rw [hsz]
    exact hroom

/-- A `gmap_put` of a key that is not stored, when the key copy and the node
allocation succeed. -/
theorem put_absent {m : gmap K V} (hw : WF m) (hl : Lawful m) {k k' : K}
    (hf : gmap_table_find_key m.table k m.hash m.compare m.capacity = none)
    (hcopy : m.copy k = some k') (hfit : m.capacity * 2 < SIZE_T_MOD) (v : VoidPtr V) :
    ∃ m', gmap_put (some m) (some k) v true = (some m', VoidPtr.null) ∧ WF m' ∧
      SameFunctions m m' ∧ m'.size = m.size + 1 ∧
      m'.capacity = (if m.size ≥ m.capacity then m.capacity * 2 else m.capacity) ∧
      (entries m').Perm ({ key := k', value := v } :: entries m) := by
  obtain ⟨g1, g2, g3, g4, g5, g6⟩ := grow_spec hw hl hfit
  have habs := (find_none_iff hw hl k).1 hf
  have hl2 := g3.lawful hl
  obtain ⟨a1, a2, a3⟩ := add_node_spec g1 hl2 k k'
    (by
      intro e he
      rw [g3.compare]
      exact habs e (g2.mem_iff.1 he))
    (by
      rw [g3.compare]
      exact hl.copy_eq _ _ hcopy)
    g6 v
  refine ⟨_, ?_, a1, ?_, ?_, ?_, ?_⟩
  · simp only [gmap_put, hf, hcopy, if_true]
  · exact ⟨g3.hash, g3.compare, g3.copy, g3.free⟩
  · show (_ + 1) % SIZE_T_MOD = m.size + 1
    rw [a3, g4]
  · exact g5
  · exact a2.trans (List.Perm.cons _ g2)

/-- A `gmap_put` of a key that is not stored, when the key copy succeeds and the
node allocation fails: nothing is added, a resize stays. -/
theorem put_absent_no_node {m : gmap K V} (hw : WF m) (hl : Lawful m) {k k' : K}
    (hf : gmap_table_find_key m.table k m.hash m.compare m.capacity = none)
    (hcopy : m.copy k = some k') (hfit : m.capacity * 2 < SIZE_T_MOD) (v : VoidPtr V) :
    ∃ m', gmap_put (some m) (some k) v false = (some m', gmap_error) ∧ WF m' ∧
      SameFunctions m m' ∧ m'.size = m.size ∧
      m'.capacity = (if m.size ≥ m.capacity then m.capacity * 2 else m.capacity) ∧
      (entries m').Perm (entries m) := by
  obtain ⟨g1, g2, g3, g4, g5, _⟩ := grow_spec hw hl hfit
  refine ⟨_, ?_, g1, g3, g4, g5, g2⟩
  simp only [gmap_put, hf, hcopy]
  rfl

/-- A `gmap_put` of a key that is not stored, when the key copy fails. -/
theorem put_copy_fails {m : gmap K V} {k : K}
    (hf : gmap_table_find_key m.table k m.hash m.compare m.capacity = none)
    (hcopy : m.copy k = none) (v : VoidPtr V) (node : Bool) :
    gmap_put (some m) (some k) v node = (some m, gmap_error) := by
  simp only [gmap_put, hf, hcopy]

/-- Unlinking the node found by the search loop of `gmap_remove`. -/
theorem unlink_spec {m : gmap K V} (hw : WF m) (hl : Lawful m) {k : K}
    {before after : List (entry K V)} {e0 : entry K V}
    (hc : m.table.getD (gmap_compute_index k m.hash m.capacity) [] = before ++ e0 :: after) :
    WF { m with
        table := m.table.set (gmap_compute_index k m.hash m.capacity) (before ++ after),
        size := (m.size + SIZE_T_MOD - 1) % SIZE_T_MOD } ∧
    (entries m).Perm (e0 :: entries { m with
        table := m.table.set (gmap_compute_index k m.hash m.capacity) (before ++ after),
        size := (m.size + SIZE_T_MOD - 1) % SIZE_T_MOD }) ∧
    (m.size + SIZE_T_MOD - 1) % SIZE_T_MOD + 1 = m.size := by
  have hi := index_lt hw k
  obtain ⟨rest0, hp1, hp2⟩ := flatten_set (getElem?_getD hi)
  have hperm : (entries m).Perm (e0 :: (before ++ after ++ rest0)) := by
    refine hp1.trans ?_
    rw [hc]
    exact split_perm _ _ _ _
  have hperm' : (m.table.set (gmap_compute_index k m.hash m.capacity)
      (before ++ after)).flatten.Perm (before ++ after ++ rest0) := hp2 _
  have hpos : 0 < m.size := by
    rw [hw.size_eq, hperm.length_eq]
    simp
  have hsz : (m.size + SIZE_T_MOD - 1) % SIZE_T_MOD = m.size - 1 := by
    have h1 := hw.size_le
    have h2 := hw.cap_lt
    have : m.size + SIZE_T_MOD - 1 = (m.size - 1) + SIZE_T_MOD := by omega
    rw [this, Nat.add_mod_right]
    apply Nat.mod_eq_of_lt
    omega
  refine ⟨⟨?_, hw.cap_pos, hw.cap_lt, ?_, ?_, ?_, ?_⟩, hperm.trans (List.Perm.cons _ hperm'.symm),
    by rw [hsz]; omega⟩
  · show (m.table.set _ _).length = m.capacity
    rw [List.length_set, hw.len]
  · intro i c hci x hx
    change (m.table.set _ _)[i]? = some c at hci
    show m.hash x.key % m.capacity = i
    rw [List.getElem?_set] at hci
    by_cases hii : gmap_compute_index k m.hash m.capacity = i
    · rw [if_pos hii, if_pos hi, Option.some.injEq] at hci
      subst hci
      have hold : ∀ y ∈ m.table.getD (gmap_compute_index k m.hash m.capacity) [],
          m.hash y.key % m.capacity = i := by
        intro y hy
        rw [← hii]
        exact hw.placed _ _ (getElem?_getD hi) y hy
      rw [hc] at hold
      rcases List.mem_append.1 hx with hx | hx
      · exact hold x (List.mem_append_left _ hx)
      · exact hold x (by simp [hx])
    · rw [if_neg hii] at hci
      exact hw.placed i c hci x hx
  · show (m.table.set _ _).flatten.Pairwise (fun a b => m.compare a.key b.key ≠ 0)
    rw [hperm'.pairwise_iff (fun h => ne_symm_of_lawful hl h)]
    have := (hperm.pairwise_iff (fun h => ne_symm_of_lawful hl h)).1 hw.distinct
    exact (List.pairwise_cons.1 this).2
  · show (m.size + SIZE_T_MOD - 1) % SIZE_T_MOD = (m.table.set _ _).flatten.length
    have h1 := hperm.length_eq
    have h2 := hperm'.length_eq
    have h3 := hw.size_eq
    rw [List.length_cons] at h1
    rw [hsz, h2]
    omega
  · show (m.size + SIZE_T_MOD - 1) % SIZE_T_MOD ≤ m.capacity
    rw [hsz]
    have := hw.size_le
    omega

/-- A `gmap_remove` of a key that is stored. -/
theorem remove_present {m : gmap K V} (hw : WF m) (hl : Lawful m) {k : K} {e0 : entry K V}
    (hf : gmap_table_find_key m.table k m.hash m.compare m.capacity = some e0) :
    ∃ m', gmap_remove (some m) (some k) = (some m', e0.value) ∧ WF m' ∧
      SameFunctions m m' ∧ m'.size + 1 = m.size ∧ m'.capacity = m.capacity ∧
      (entries m).Perm (e0 :: entries m') := by
  have hf' := hf
  unfold gmap_table_find_key at hf'
  obtain ⟨before, after, hc, hb, he⟩ := find_key_loop_some hf'
  have hrl := remove_loop_split before after e0 hb he
  rw [← hc] at hrl
  obtain ⟨u1, u2, u3⟩ := unlink_spec hw hl hc
  cases before with
  | nil =>
    refine ⟨_, ?_, u1, ⟨rfl, rfl, rfl, rfl⟩, u3, rfl, u2⟩
    simp only [gmap_remove, hrl, List.nil_append]
  | cons b bs =>
    refine ⟨_, ?_, u1, ⟨rfl, rfl, rfl, rfl⟩, u3, rfl, u2⟩
    simp only [gmap_remove, hrl]

/-- A `gmap_remove` of a key that is not stored. -/
theorem remove_absent {m : gmap K V} {k : K}
    (hf : gmap_table_find_key m.table k m.hash m.compare m.capacity = none) :
    gmap_remove (some m) (some k) = (some m, VoidPtr.null) := by
  unfold gmap_table_find_key at hf
  have h := remove_loop_none (find_key_loop_none.1 hf)
  cases hr : remove_loop m.compare k
      (m.table.getD (gmap_compute_index k m.hash m.capacity) []) with
  | mk a b =>
    rw [hr] at h
    simp only [] at h
    subst h
    simp only [gmap_remove, hr]

/-! ### Reachable maps are well-formed -/

theorem create_eq {cp : K → Option K} {comp : K → K → Int} {h : K → Nat} {f : K → Unit}
    {m : gmap K V}
    (hm : gmap_create (some cp) (some comp) (some h) (some f) true true = some m) :
    m = { table := List.replicate GMAP_INITIAL_CAPACITY [], capacity := GMAP_INITIAL_CAPACITY,
          size := 0, hash := h, compare := comp, copy := cp, free := f } := by
  simp only [gmap_create, if_true, Option.some.injEq] at hm
  exact hm.symm

theorem entries_create (n : Nat) : (List.replicate n ([] : List (entry K V))).flatten = [] := by
  induction n with
  | zero => rfl
  | succ n ih => simp [List.replicate_succ, ih]

theorem create_wf {cp : K → Option K} {comp : K → K → Int} {h : K → Nat} {f : K → Unit}
    {m : gmap K V}
    (hm : gmap_create (some cp) (some comp) (some h) (some f) true true = some m) : WF m := by
  rw [create_eq hm]
  refine ⟨by simp, (by decide : 0 < GMAP_INITIAL_CAPACITY),
    (by decide : GMAP_INITIAL_CAPACITY < SIZE_T_MOD), ?_, ?_, ?_, Nat.zero_le _⟩
  · intro i c hc x hx
    simp only [List.getElem?_replicate] at hc
    split at hc
    · cases hc
      cases hx
    · cases hc
  · simp [entries, entries_create]
  · simp [entries, entries_create]

theorem put_wf {m m' : gmap K V} (hw : WF m) (hl : Lawful m) (hfit : m.capacity * 2 < SIZE_T_MOD)
    {key : Option K} {v : VoidPtr V} {node : Bool}
    (h : (gmap_put (some m) key v node).1 = some m') : WF m' ∧ SameFunctions m m' := by
  cases key with
  | none =>
    simp only [gmap_put, Option.some.injEq] at h
    subst h
    exact ⟨hw, SameFunctions.refl m⟩
  | some k =>
    cases hf : gmap_table_find_key m.table k m.hash m.compare m.capacity with
    | some e0 =>
      obtain ⟨m2, h1, h2, h3, _⟩ := put_present hw hl hf v node
      rw [h1] at h
      simp only [Option.some.injEq] at h
      subst h
      exact ⟨h2, h3⟩
    | none =>
      cases hc : m.copy k with
      | none =>
        rw [put_copy_fails hf hc] at h
        simp only [Option.some.injEq] at h
        subst h
        exact ⟨hw, SameFunctions.refl m⟩
      | some k' =>
        cases node with
        | true =>
          obtain ⟨m2, h1, h2, h3, _⟩ := put_absent hw hl hf hc hfit v
          rw [h1] at h
          simp only [Option.some.injEq] at h
          subst h
          exact ⟨h2, h3⟩
        | false =>
          obtain ⟨m2, h1, h2, h3, _⟩ := put_absent_no_node hw hl hf hc hfit v
          rw [h1] at h
          simp only [Option.some.injEq] at h
          subst h
          exact ⟨h2, h3⟩

theorem remove_wf {m m' : gmap K V} (hw : WF m) (hl : Lawful m) {key : Option K}
    (h : (gmap_remove (some m) key).1 = some m') : WF m' ∧ SameFunctions m m' := by
  cases key with
  | none =>
    simp only [gmap_remove, Option.some.injEq] at h
    subst h
    exact ⟨hw, SameFunctions.refl m⟩
  | some k =>
    cases hf : gmap_table_find_key m.table k m.hash m.compare m.capacity with
    | some e0 =>
      obtain ⟨m2, h1, h2, h3, _⟩ := remove_present hw hl hf
      rw [h1] at h
      simp only [Option.some.injEq] at h
      subst h
      exact ⟨h2, h3⟩
    | none =>
      rw [remove_absent hf] at h
      simp only [Option.some.injEq] at h
      subst h
      exact ⟨hw, SameFunctions.refl m⟩

/-- Every reachable map is well-formed and has lawful functions. -/
theorem reachable_wf {m : gmap K V} (hr : Reachable m) : WF m ∧ Lawful m := by
  induction hr with
  | create cp comp h f m hm hl => exact ⟨create_wf hm, hl⟩
  | put m m' key value node _ hfit hput ih =>
    obtain ⟨h1, h2⟩ := put_wf ih.1 ih.2 hfit hput
    exact ⟨h1, h2.lawful ih.2⟩
  | remove m m' key _ hrem ih =>
    obtain ⟨h1, h2⟩ := remove_wf ih.1 ih.2 hrem
    exact ⟨h1, h2.lawful ih.2⟩

/-! ### Lookups -/

theorem get_of_mem {m : gmap K V} (hw : WF m) (hl : Lawful m) {e : entry K V} {k : K}
    (he : e ∈ entries m) (hk : m.compare e.key k = 0) :
    gmap_get (some m) (some k) = e.value ∧ gmap_contains_key m k = true := by
  have := (find_iff hw hl k e).2 ⟨he, hk⟩
  simp [gmap_get, gmap_contains_key, this]

theorem get_of_absent {m : gmap K V} (hw : WF m) (hl : Lawful m) {k : K}
    (h : ∀ e ∈ entries m, m.compare e.key k ≠ 0) :
    gmap_get (some m) (some k) = VoidPtr.null ∧ gmap_contains_key m k = false := by
  have := (find_none_iff hw hl k).2 h
  simp [gmap_get, gmap_contains_key, this]

theorem contains_iff {m : gmap K V} (hw : WF m) (hl : Lawful m) (k : K) :
    gmap_contains_key m k = true ↔ ∃ e ∈ entries m, m.compare e.key k = 0 := by
  constructor
  · intro h
    cases hf : gmap_table_find_key m.table k m.hash m.compare m.capacity with
    | none => simp [gmap_contains_key, hf] at h
    | some e =>
      have := (find_iff hw hl k e).1 hf
      exact ⟨e, this.1, this.2⟩
  · rintro ⟨e, he, hk⟩
    exact (get_of_mem hw hl he hk).2

theorem contains_false_iff {m : gmap K V} (hw : WF m) (hl : Lawful m) (k : K) :
    gmap_contains_key m k = false ↔ ∀ e ∈ entries m, m.compare e.key k ≠ 0 := by
  constructor
  · intro h e he hk
    rw [(get_of_mem hw hl he hk).2] at h
    cases h
  · intro h
    exact (get_of_absent hw hl h).2

theorem find_of_contains_false {m : gmap K V} {k : K} (h : gmap_contains_key m k = false) :
    gmap_table_find_key m.table k m.hash m.compare m.capacity = none := by
  cases hf : gmap_table_find_key m.table k m.hash m.compare m.capacity with
  | none => rfl
  | some e => simp [gmap_contains_key, hf] at h

theorem find_of_contains {m : gmap K V} {k : K} (h : gmap_contains_key m k = true) :
    ∃ e, gmap_table_find_key m.table k m.hash m.compare m.capacity = some e := by
  cases hf : gmap_table_find_key m.table k m.hash m.compare m.capacity with
  | none => simp [gmap_contains_key, hf] at h
  | some e => exact ⟨e, rfl⟩

/-- The search for a key is not affected by a `gmap_put` of a key that is not equal
to it, whatever the outcome of the put. -/
theorem put_find_other {m m' : gmap K V} (hw : WF m) (hl : Lawful m)
    (hfit : m.capacity * 2 < SIZE_T_MOD) {k k2 : K} {v : VoidPtr V} {node : Bool}
    (h : (gmap_put (some m) (some k) v node).1 = some m') (hne : m.compare k k2 ≠ 0) :
    gmap_table_find_key m'.table k2 m'.hash m'.compare m'.capacity =
      gmap_table_find_key m.table k2 m.hash m.compare m.capacity := by
  obtain ⟨hw', hs⟩ := put_wf hw hl hfit h
  have hl' := hs.lawful hl
  apply find_congr hw hl hw' hl' hs.compare
  intro e hek
  cases hf : gmap_table_find_key m.table k m.hash m.compare m.capacity with
  | some e0 =>
    obtain ⟨m2, h1, _, _, _, _, rest, p1, p2⟩ := put_present hw hl hf v node
    rw [h1] at h
    simp only [Option.some.injEq] at h
    subst h
    have he0 := ((find_iff hw hl k e0).1 hf).2
    have hkey : m.compare e0.key k2 ≠ 0 := fun h0 =>
      hne (hl.trans _ _ _ (hl.symm _ _ he0) h0)
    rw [p1.mem_iff, p2.mem_iff, List.mem_cons, List.mem_cons]
    constructor
    · rintro (rfl | hr)
      · exact absurd hek hkey
      · exact Or.inr hr
    · rintro (rfl | hr)
      · exact absurd hek hkey
      · exact Or.inr hr
  | none =>
    cases hc : m.copy k with
    | none =>
      rw [put_copy_fails hf hc] at h
      simp only [Option.some.injEq] at h
      subst h
      exact Iff.rfl
    | some k' =>
      cases node with
      | true =>
        obtain ⟨m2, h1, _, _, _, _, p⟩ := put_absent hw hl hf hc hfit v
        rw [h1] at h
        simp only [Option.some.injEq] at h
        subst h
        rw [p.mem_iff, List.mem_cons]
        constructor
        · rintro (rfl | hr)
          · exfalso
            exact hne (hl.trans _ _ _ (hl.symm _ _ (hl.copy_eq _ _ hc)) hek)
          · exact hr
        · exact Or.inr
      | false =>
        obtain ⟨m2, h1, _, _, _, _, p⟩ := put_absent_no_node hw hl hf hc hfit v
        rw [h1] at h
        simp only [Option.some.injEq] at h
        subst h
        exact p.mem_iff

theorem get_congr_find {m m' : gmap K V} {k : K}
    (h : gmap_table_find_key m'.table k m'.hash m'.compare m'.capacity =
      gmap_table_find_key m.table k m.hash m.compare m.capacity) :
    gmap_get (some m') (some k) = gmap_get (some m) (some k) ∧
      gmap_contains_key m' k = gmap_contains_key m k := by
  simp only [gmap_get, gmap_contains_key, h, and_self]

/-! ### The example maps -/

theorem nat_map_lawful : Lawful nat_map := by
  constructor
  · intro a
    show nat_compare a a = 0
    simp [nat_compare]
  · intro a b h
    change nat_compare a b = 0 at h
    show nat_compare b a = 0
    unfold nat_compare at *
    omega
  · intro a b c h1 h2
    change nat_compare a b = 0 at h1
    change nat_compare b c = 0 at h2
    show nat_compare a c = 0
    unfold nat_compare at *
    omega
  · intro a b h
    change nat_compare a b = 0 at h
    show nat_hash a = nat_hash b
    unfold nat_compare at h
    unfold nat_hash
    omega
  · intro a b h
    change nat_copy a = some b at h
    show nat_compare b a = 0
    unfold nat_copy at h
    cases h
    simp [nat_compare]

theorem nat_map_reachable : Reachable nat_map :=
  Reachable.create nat_copy nat_compare nat_hash nat_free nat_map rfl nat_map_lawful

theorem nat_map3_reachable : Reachable nat_map3 := by
  have h1 : Reachable { nat_map with
      table := (List.replicate GMAP_INITIAL_CAPACITY []).set 1
        [{ key := 1, value := VoidPtr.addr 10 }],
      size := 1 } :=
    Reachable.put nat_map _ (some 1) (VoidPtr.addr 10) true nat_map_reachable (by decide) rfl
  have h2 : Reachable { nat_map with
      table := (List.replicate GMAP_INITIAL_CAPACITY []).set 1
        [{ key := 101, value := VoidPtr.addr 20 }, { key := 1, value := VoidPtr.addr 10 }],
      size := 2 } :=
    Reachable.put _ _ (some 101) (VoidPtr.addr 20) true h1 (by decide) rfl
  exact Reachable.put _ nat_map3 (some 201) (VoidPtr.addr 30) true h2 (by decide) rfl

/-! ### Put and get -/

theorem store_value_keys (cmp : K → K → Int) (k : K) (v : VoidPtr V) (c : List (entry K V)) :
    (store_value cmp k v c).map entry.key = c.map entry.key := by
  induction c with
  | nil => rfl
  | cons a t ih =>
    unfold store_value
    by_cases ha : cmp a.key k = 0
    · simp [ha]
    · simp [ha, ih]

theorem map_set_same {α β : Type} (f : α → β) (d : α) (t : List α) (i : Nat) (c : α)
    (h : f c = f (t.getD i d)) (hi : i < t.length) : (t.set i c).map f = t.map f := by
  induction t generalizing i with
  | nil => rfl
  | cons a t ih =>
    cases i with
    | zero =>
      simp only [List.getD_cons_zero] at h
      simp [h]
    | succ j =>
      simp only [List.getD_cons_succ] at h
      simp only [List.length_cons, Nat.add_lt_add_iff_right] at hi
      simp [ih j h hi]

/-- C1: for a reachable map, a non-null key `k` and a value `v`, when
`gmap_put(m, k, v)` succeeds (the key is stored already, or the key copy and the
node allocation succeed), the put leaves a map and `gmap_get(m, k)` on it returns
`v`; the map may be at any fill level, so also when the put resizes.  The doubled
capacity is taken to be a value of `size_t`, as it is for every table that fits
the address space. -/
theorem put_then_get (m : gmap K V) (k : K) (v : VoidPtr V) (nodeAlloc : Bool)
    (hr : Reachable m) (hfit : m.capacity * 2 < SIZE_T_MOD)
    (hok : gmap_contains_key m k = true ∨ ((m.copy k).isSome = true ∧ nodeAlloc = true)) :
    ∃ m', (gmap_put (some m) (some k) v nodeAlloc).1 = some m' ∧
      gmap_get (some m') (some k) = v := by
  obtain ⟨hw, hl⟩ := reachable_wf hr
  cases hf : gmap_table_find_key m.table k m.hash m.compare m.capacity with
  | some e0 =>
    obtain ⟨m', h1, hw', hs, _, _, rest, _, p2⟩ := put_present hw hl hf v nodeAlloc
    refine ⟨m', by rw [h1], ?_⟩
    have hk := ((find_iff hw hl k e0).1 hf).2
    have hmem : ({ e0 with value := v } : entry K V) ∈ entries m' :=
      p2.mem_iff.2 (List.mem_cons_self _ _)
    exact (get_of_mem hw' (hs.lawful hl) hmem (by rw [hs.compare]; exact hk)).1
  | none =>
    have hnc : gmap_contains_key m k = false := by simp [gmap_contains_key, hf]
    rcases hok with h | ⟨hc, hn⟩
    · rw [hnc] at h
      cases h
    · subst hn
      obtain ⟨k', hk'⟩ := Option.isSome_iff_exists.1 hc
      obtain ⟨m', h1, hw', hs, _, _, p⟩ := put_absent hw hl hf hk' hfit v
      refine ⟨m', by rw [h1], ?_⟩
      have hmem : ({ key := k', value := v } : entry K V) ∈ entries m' :=
        p.mem_iff.2 (List.mem_cons_self _ _)
      exact (get_of_mem hw' (hs.lawful hl) hmem
        (by rw [hs.compare]; exact hl.copy_eq _ _ hk')).1

theorem put_then_get_witness :
    Reachable nat_map3 ∧ nat_map3.capacity * 2 < SIZE_T_MOD ∧
    (gmap_contains_key nat_map3 7 = true ∨
      ((nat_map3.copy 7).isSome = true ∧ true = true)) ∧
    ∃ m', (gmap_put (some nat_map3) (some 7) (VoidPtr.addr 70) true).1 = some m' ∧
      gmap_get (some m') (some 7) = VoidPtr.addr 70 :=
  ⟨nat_map3_reachable, by decide, Or.inr ⟨rfl, rfl⟩,
    put_then_get nat_map3 7 (VoidPtr.addr 70) true nat_map3_reachable (by decide)
      (Or.inr ⟨rfl, rfl⟩)⟩

/-- C2: for a reachable map that stores a key equal to `k`, `gmap_put(m, k, v_new)`
returns the value stored before (what `gmap_get(m, k)` returned), leaves
`gmap_size` and the capacity as they were, at any fill level, keeps every stored
key in its place, and does not depend on the copy function or on the allocator:
with any other copy function the call has the same effect and result. -/
theorem put_existing (m : gmap K V) (k : K) (v_new : VoidPtr V) (nodeAlloc : Bool)
    (hr : Reachable m) (hk : gmap_contains_key m k = true) :
    ∃ m', gmap_put (some m) (some k) v_new nodeAlloc = (some m', gmap_get (some m) (some k)) ∧
      gmap_size (some m') = gmap_size (some m) ∧ m'.capacity = m.capacity ∧
      m'.table.map (List.map entry.key) = m.table.map (List.map entry.key) ∧
      ∀ (cp : K → Option K) (alloc : Bool),
        gmap_put (some { m with copy := cp }) (some k) v_new alloc =
          (some { m' with copy := cp }, gmap_get (some m) (some k)) := by
  obtain ⟨hw, hl⟩ := reachable_wf hr
  obtain ⟨e0, hf⟩ := find_of_contains hk
  have hget : gmap_get (some m) (some k) = e0.value := by simp [gmap_get, hf]
  refine ⟨{ m with
      table := m.table.set (gmap_compute_index k m.hash m.capacity)
        (store_value m.compare k v_new
          (m.table.getD (gmap_compute_index k m.hash m.capacity) [])) }, ?_, rfl, rfl, ?_, ?_⟩
  · rw [hget]
    simp only [gmap_put, hf]
  · exact map_set_same _ [] _ _ _ (store_value_keys _ _ _ _) (index_lt hw k)
  · intro cp alloc
    rw [hget]
    simp only [gmap_put, hf]

theorem put_existing_witness :
    Reachable nat_map3 ∧ gmap_contains_key nat_map3 101 = true ∧
    ∃ m', gmap_put (some nat_map3) (some 101) VoidPtr.null false =
        (some m', gmap_get (some nat_map3) (some 101)) ∧
      gmap_size (some m') = gmap_size (some nat_map3) ∧ m'.capacity = nat_map3.capacity ∧
      m'.table.map (List.map entry.key) = nat_map3.table.map (List.map entry.key) ∧
      ∀ (cp : Nat → Option Nat) (alloc : Bool),
        gmap_put (some { nat_map3 with copy := cp }) (some 101) VoidPtr.null alloc =
          (some { m' with copy := cp }, gmap_get (some nat_map3) (some 101)) :=
  ⟨nat_map3_reachable, by decide,
    put_existing nat_map3 101 VoidPtr.null false nat_map3_reachable (by decide)⟩

/-! ### Runs of puts -/

/-- One successful `gmap_put` on a well-formed map. -/
theorem put_ok_step {m : gmap K V} (hw : WF m) (hl : Lawful m)
    (hfit : m.capacity * 2 < SIZE_T_MOD) {k : K} (hc : (m.copy k).isSome = true)
    (v : VoidPtr V) :
    ∃ m', gmap_put (some m) (some k) v true =
        (some m', if gmap_contains_key m k = true then gmap_get (some m) (some k)
          else VoidPtr.null) ∧
      WF m' ∧ SameFunctions m m' ∧
      m'.size = m.size + (if gmap_contains_key m k = true then 0 else 1) ∧
      m'.capacity = (if gmap_contains_key m k = false ∧ m.size ≥ m.capacity
        then m.capacity * 2 else m.capacity) ∧
      gmap_get (some m') (some k) = v ∧ gmap_contains_key m' k = true := by
  cases hf : gmap_table_find_key m.table k m.hash m.compare m.capacity with
  | some e0 =>
    have hct : gmap_contains_key m k = true := by simp [gmap_contains_key, hf]
    have hget : gmap_get (some m) (some k) = e0.value := by simp [gmap_get, hf]
    obtain ⟨m', h1, hw', hs, h2, h3, rest, _, p2⟩ := put_present hw hl hf v true
    have hk := ((find_iff hw hl k e0).1 hf).2
    have hmem : ({ e0 with value := v } : entry K V) ∈ entries m' :=
      p2.mem_iff.2 (List.mem_cons_self _ _)
    have hg := get_of_mem hw' (hs.lawful hl) hmem (by rw [hs.compare]; exact hk)
    refine ⟨m', ?_, hw', hs, ?_, ?_, hg.1, hg.2⟩
    · rw [h1, if_pos hct, hget]
    · rw [h2, if_pos hct, Nat.add_zero]
    · rw [h3, hct]
      simp
  | none =>
    have hct : gmap_contains_key m k = false := by simp [gmap_contains_key, hf]
    obtain ⟨k', hk'⟩ := Option.isSome_iff_exists.1 hc
    obtain ⟨m', h1, hw', hs, h2, h3, p⟩ := put_absent hw hl hf hk' hfit v
    have hmem : ({ key := k', value := v } : entry K V) ∈ entries m' :=
      p.mem_iff.2 (List.mem_cons_self _ _)
    have hg := get_of_mem hw' (hs.lawful hl) hmem
      (by rw [hs.compare]; exact hl.copy_eq _ _ hk')
    refine ⟨m', ?_, hw', hs, ?_, ?_, hg.1, hg.2⟩
    · rw [h1, hct]
      simp
    · rw [h2, hct]
      simp
    · rw [h3, hct]
      simp

/-- The capacity stays below twice the size once it has left its initial value. -/
theorem put_ok_capacity {m m' : gmap K V} {k : K} (hw : WF m)
    (hb : m.capacity ≤ max GMAP_INITIAL_CAPACITY (2 * m.size))
    (hcap : m'.capacity = (if gmap_contains_key m k = false ∧ m.size ≥ m.capacity
        then m.capacity * 2 else m.capacity))
    (hsz' : m'.size = m.size + (if gmap_contains_key m k = true then 0 else 1)) :
    m'.capacity ≤ max GMAP_INITIAL_CAPACITY (2 * m'.size) := by
  have h1 := hw.size_le
  by_cases h : gmap_contains_key m k = false ∧ m.size ≥ m.capacity
  · rw [if_pos h] at hcap
    have : gmap_contains_key m k ≠ true := by simp [h.1]
    rw [if_neg this] at hsz'
    have := h.2
    rw [hcap, hsz']
    apply Nat.le_trans _ (Nat.le_max_right _ _)
    omega
  · rw [if_neg h] at hcap
    rw [hcap]
    apply Nat.le_trans hb
    apply max_le_max (Nat.le_refl _)
    omega

theorem fit_of_bound {m : gmap K V} (hb : m.capacity ≤ max GMAP_INITIAL_CAPACITY (2 * m.size))
    {n : Nat} (hn : 4 * (m.size + n) < SIZE_T_MOD) : m.capacity * 2 < SIZE_T_MOD := by
  have h200 : GMAP_INITIAL_CAPACITY * 2 < SIZE_T_MOD := by decide
  rcases Nat.le_total GMAP_INITIAL_CAPACITY (2 * m.size) with h | h
  · rw [max_eq_right h] at hb
    omega
  · rw [max_eq_left h] at hb
    omega

theorem contains_congr_key {m : gmap K V} (hw : WF m) (hl : Lawful m) {k k2 : K}
    (h : m.compare k k2 = 0) : gmap_contains_key m k2 = gmap_contains_key m k := by
  have key : ∀ a b, m.compare a b = 0 → gmap_contains_key m a = true →
      gmap_contains_key m b = true := by
    intro a b hab ha
    obtain ⟨e, he, hk⟩ := (contains_iff hw hl a).1 ha
    exact (contains_iff hw hl b).2 ⟨e, he, hl.trans _ _ _ hk hab⟩
  cases h1 : gmap_contains_key m k with
  | true => exact key k k2 h h1
  | false =>
    cases h2 : gmap_contains_key m k2 with
    | false => rfl
    | true =>
      rw [key k2 k (hl.symm _ _ h) h2] at h1
      cases h1

theorem any_seen_iff (cmp : K → K → Int) (seen : List K) (k : K) :
    seen.any (fun s => decide (cmp s k = 0)) = true ↔ ∃ s ∈ seen, cmp s k = 0 := by
  simp [List.any_eq_true]

/-- The size after a run of successful puts. -/
theorem put_all_size (ps : List (K × VoidPtr V)) :
    ∀ (m : gmap K V) (seen : List K), WF m → Lawful m →
      (∀ p ∈ ps, (m.copy p.1).isSome = true) →
      m.capacity ≤ max GMAP_INITIAL_CAPACITY (2 * m.size) →
      4 * (m.size + ps.length) < SIZE_T_MOD →
      (∀ k, gmap_contains_key m k = true ↔ ∃ s ∈ seen, m.compare s k = 0) →
      ∃ m', put_all (some m) ps = some m' ∧
        m'.size = m.size + count_new m.compare seen (ps.map Prod.fst) := by
  induction ps with
  | nil =>
    intro m seen _ _ _ _ _ _
    exact ⟨m, rfl, rfl⟩
  | cons p ps ih =>
    intro m seen hw hl hc hb hn hseen
    have hfit := fit_of_bound hb hn
    obtain ⟨m1, h1, hw1, hs1, hsz1, hcap1, _, hck⟩ :=
      put_ok_step hw hl hfit (hc p (List.mem_cons_self _ _)) p.2
    have hb1 := put_ok_capacity hw hb hcap1 hsz1
    have hle : m1.size ≤ m.size + 1 := by
      rw [hsz1]
      split <;> omega
    obtain ⟨m', h2, hsz2⟩ := ih m1 (p.1 :: seen) hw1 (hs1.lawful hl)
      (by
        intro q hq
        rw [hs1.copy]
        exact hc q (List.mem_cons_of_mem _ hq))
      hb1
      (by
        simp only [List.length_cons] at hn
        omega)
      (by
        intro k2
        rw [hs1.compare]
        by_cases hkk : m.compare p.1 k2 = 0
        · have : gmap_contains_key m1 k2 = true := by
            rw [contains_congr_key hw1 (hs1.lawful hl) (by rw [hs1.compare]; exact hkk)]
            exact hck
          simp only [this, true_iff]
          exact ⟨p.1, List.mem_cons_self _ _, hkk⟩
        · have hfo := put_find_other hw hl hfit (by rw [h1]) hkk
          rw [(get_congr_find hfo).2, hseen k2]
          constructor
          · rintro ⟨s, hs, hsk⟩
            exact ⟨s, List.mem_cons_of_mem _ hs, hsk⟩
          · rintro ⟨s, hs, hsk⟩
            rcases List.mem_cons.1 hs with rfl | hs
            · exact absurd hsk hkk
            · exact ⟨s, hs, hsk⟩)
    refine ⟨m', ?_, ?_⟩
    · simp only [put_all, h1]
      exact h2
    · rw [hsz2, hsz1, hs1.compare]
      simp only [List.map_cons, count_new]
      have : (seen.any (fun s => decide (m.compare s p.1 = 0)) = true) ↔
          gmap_contains_key m p.1 = true := by
        rw [any_seen_iff, hseen]
      by_cases hcon : gmap_contains_key m p.1 = true
      · rw [if_pos hcon, if_pos (this.2 hcon)]
        omega
      · rw [if_neg hcon, if_neg (fun h => hcon (this.1 h))]
        omega

/-- A run of successful puts of pairwise non-equal keys none of which is stored. -/
theorem put_all_distinct (ps : List (K × VoidPtr V)) :
    ∀ (m : gmap K V), WF m → Lawful m →
      (∀ p ∈ ps, (m.copy p.1).isSome = true) →
      m.capacity ≤ max GMAP_INITIAL_CAPACITY (2 * m.size) →
      4 * (m.size + ps.length) < SIZE_T_MOD →
      ps.Pairwise (fun a b => m.compare a.1 b.1 ≠ 0) →
      (∀ p ∈ ps, gmap_contains_key m p.1 = false) →
      ∃ m', put_all (some m) ps = some m' ∧ WF m' ∧ SameFunctions m m' ∧
        m'.size = m.size + ps.length ∧
        (∀ p ∈ ps, gmap_get (some m') (some p.1) = p.2) ∧
        (∀ k, (∀ p ∈ ps, m.compare p.1 k ≠ 0) →
          gmap_table_find_key m'.table k m'.hash m'.compare m'.capacity =
            gmap_table_find_key m.table k m.hash m.compare m.capacity) := by
  induction ps with
  | nil =>
    intro m hw _ _ _ _ _ _
    exact ⟨m, rfl, hw, SameFunctions.refl m, rfl, by simp, fun _ _ => rfl⟩
  | cons p ps ih =>
    intro m hw hl hc hb hn hpw habs
    have hfit := fit_of_bound hb hn
    obtain ⟨m1, h1, hw1, hs1, hsz1, hcap1, hget1, hck⟩ :=
      put_ok_step hw hl hfit (hc p (List.mem_cons_self _ _)) p.2
    have hb1 := put_ok_capacity hw hb hcap1 hsz1
    have hpabs := habs p (List.mem_cons_self _ _)
    have hsz1' : m1.size = m.size + 1 := by
      rw [hsz1, hpabs]
      simp
    rw [List.pairwise_cons] at hpw
    obtain ⟨m', h2, hw', hs', hsz', hget', hframe⟩ := ih m1 hw1 (hs1.lawful hl)
      (by
        intro q hq
        rw [hs1.copy]
        exact hc q (List.mem_cons_of_mem _ hq))
      hb1
      (by
        simp only [List.length_cons] at hn
        omega)
      (by
        rw [hs1.compare]
        exact hpw.2)
      (by
        intro q hq
        have hne := hpw.1 q hq
        have hfo := put_find_other hw hl hfit (by rw [h1]) hne
        rw [(get_congr_find hfo).2]
        exact habs q (List.mem_cons_of_mem _ hq))
    refine ⟨m', ?_, hw', hs1.trans hs', ?_, ?_, ?_⟩
    · simp only [put_all, h1]
      exact h2
    · rw [hsz', hsz1', List.length_cons]
      omega
    · intro q hq
      rcases List.mem_cons.1 hq with rfl | hq
      · have := hframe q.1 (by
          intro r hr
          rw [hs1.compare]
          exact fun h0 => hpw.1 r hr (hl.symm _ _ h0))
        rw [(get_congr_find this).1]
        exact hget1
      · exact hget' q hq
    · intro k hk
      rw [hframe k (by
        intro r hr
        rw [hs1.compare]
        exact hk r (List.mem_cons_of_mem _ hr))]
      exact put_find_other hw hl hfit (by rw [h1]) (hk p (List.mem_cons_self _ _))

theorem create_contains_false {cp : K → Option K} {comp : K → K → Int} {h : K → Nat}
    {f : K → Unit} {m : gmap K V}
    (hm : gmap_create (some cp) (some comp) (some h) (some f) true true = some m) (hl : Lawful m)
    (k : K) : gmap_contains_key m k = false := by
  apply (contains_false_iff (create_wf hm) hl k).2
  intro e he
  rw [create_eq hm] at he
  simp [entries, entries_create] at he

theorem create_bound {cp : K → Option K} {comp : K → K → Int} {h : K → Nat}
    {f : K → Unit} {m : gmap K V}
    (hm : gmap_create (some cp) (some comp) (some h) (some f) true true = some m) :
    m.capacity ≤ max GMAP_INITIAL_CAPACITY (2 * m.size) ∧ m.size = 0 ∧
      m.copy = cp ∧ m.compare = comp := by
  rw [create_eq hm]
  exact ⟨Nat.le_max_left _ _, rfl, rfl, rfl⟩

/-- C3: after a run of successful `gmap_put` calls on a freshly created map (fewer
than `2 ^ 62` calls, so that no doubling of the capacity leaves `size_t`),
`gmap_size` is the number of pairwise non-equal keys of the run; and on every
reachable map a successful put of a key that is not stored returns null and raises
`gmap_size` by exactly 1, at any fill level. -/
theorem size_counts_distinct_keys (cp : K → Option K) (comp : K → K → Int) (h : K → Nat)
    (f : K → Unit) (m0 : gmap K V) (ps : List (K × VoidPtr V))
    (hm0 : gmap_create (some cp) (some comp) (some h) (some f) true true = some m0)
    (hl : Lawful m0) (hcopy : ∀ p ∈ ps, (cp p.1).isSome = true)
    (hlen : 4 * ps.length < SIZE_T_MOD) :
    gmap_size (put_all (some m0) ps) = count_distinct comp (ps.map Prod.fst) ∧
    ∀ (m : gmap K V) (k : K) (v : VoidPtr V), Reachable m → m.capacity * 2 < SIZE_T_MOD →
      gmap_contains_key m k = false → (m.copy k).isSome = true →
      (gmap_put (some m) (some k) v true).2 = VoidPtr.null ∧
      gmap_size (gmap_put (some m) (some k) v true).1 = gmap_size (some m) + 1 := by
  obtain ⟨hb, hz, hcp, hcm⟩ := create_bound hm0
  constructor
  · obtain ⟨m', h1, h2⟩ := put_all_size ps m0 [] (create_wf hm0) hl
      (by rw [hcp]; exact hcopy) hb (by rw [hz]; omega)
      (by
        intro k
        rw [create_contains_false hm0 hl k]
        simp)
    rw [h1]
    show m'.size = _
    rw [h2, hz, hcm, Nat.zero_add]
    rfl
  · intro m k v hr hfit hk hc
    obtain ⟨hw, hlm⟩ := reachable_wf hr
    obtain ⟨m', h1, _, _, h2, _⟩ := put_ok_step hw hlm hfit hc v
    rw [h1]
    refine ⟨by simp [hk], ?_⟩
    show m'.size = m.size + 1
    rw [h2, hk]
    simp

theorem size_counts_distinct_keys_witness :
    gmap_create (some nat_copy) (some nat_compare) (some nat_hash) (some nat_free) true true
      = some nat_map ∧
    Lawful nat_map ∧
    (∀ p ∈ [(1, VoidPtr.addr 10), (101, VoidPtr.addr 20), (1, VoidPtr.addr 30)],
      (nat_copy p.1).isSome = true) ∧
    4 * [(1, VoidPtr.addr 10), (101, VoidPtr.addr 20), (1, VoidPtr.addr (30 : Nat))].length
      < SIZE_T_MOD ∧
    count_distinct nat_compare [1, 101, 1] = 2 ∧
    (gmap_size (put_all (some nat_map)
        [(1, VoidPtr.addr 10), (101, VoidPtr.addr 20), (1, VoidPtr.addr 30)]) =
      count_distinct nat_compare
        ([(1, VoidPtr.addr 10), (101, VoidPtr.addr 20), (1, VoidPtr.addr (30 : Nat))].map
          Prod.fst) ∧
    ∀ (m : gmap Nat Nat) (k : Nat) (v : VoidPtr Nat), Reachable m →
      m.capacity * 2 < SIZE_T_MOD →
      gmap_contains_key m k = false → (m.copy k).isSome = true →
      (gmap_put (some m) (some k) v true).2 = VoidPtr.null ∧
      gmap_size (gmap_put (some m) (some k) v true).1 = gmap_size (some m) + 1) :=
  ⟨rfl, nat_map_lawful, fun _ _ => rfl, by decide, by decide,
    size_counts_distinct_keys nat_copy nat_compare nat_hash nat_free nat_map
      [(1, VoidPtr.addr 10), (101, VoidPtr.addr 20), (1, VoidPtr.addr 30)] rfl nat_map_lawful
      (fun _ _ => rfl) (by decide)⟩

/-- C6: for `N` pairwise non-equal keys put with values `v_1 .. v_N` into a freshly
created map (`N` below `2 ^ 62`, all key copies and node allocations succeeding),
after all puts `gmap_get` of the `i`-th key returns `v_i` for every `i` and
`gmap_size` is `N`; the capacity is at least `N`, so with `N = 250` it is larger
than the initial 100: a resize has happened and all 250 mappings are retrievable. -/
theorem distinct_puts_retrievable (cp : K → Option K) (comp : K → K → Int) (h : K → Nat)
    (f : K → Unit) (m0 : gmap K V) (ps : List (K × VoidPtr V))
    (hm0 : gmap_create (some cp) (some comp) (some h) (some f) true true = some m0)
    (hl : Lawful m0) (hcopy : ∀ p ∈ ps, (cp p.1).isSome = true)
    (hlen : 4 * ps.length < SIZE_T_MOD)
    (hdist : ps.Pairwise (fun a b => comp a.1 b.1 ≠ 0)) :
    ∃ m', put_all (some m0) ps = some m' ∧ gmap_size (some m') = ps.length ∧
      (∀ (i : Nat) (hi : i < ps.length),
        gmap_get (some m') (some (ps.get ⟨i, hi⟩).1) = (ps.get ⟨i, hi⟩).2) ∧
      ps.length ≤ m'.capacity ∧
      (ps.length = 250 → GMAP_INITIAL_CAPACITY < m'.capacity) := by
  obtain ⟨hb, hz, hcp, hcm⟩ := create_bound hm0
  obtain ⟨m', h1, hw', _, hsz, hget, _⟩ := put_all_distinct ps m0 (create_wf hm0) hl
    (by rw [hcp]; exact hcopy) hb (by rw [hz]; omega) (by rw [hcm]; exact hdist)
    (fun p _ => create_contains_false hm0 hl p.1)
  rw [hz, Nat.zero_add] at hsz
  have hle : ps.length ≤ m'.capacity := by
    rw [← hsz]
    exact hw'.size_le
  refine ⟨m', h1, hsz, ?_, hle, ?_⟩
  · intro i hi
    exact hget _ (List.get_mem ps i hi)
  · intro h250
    rw [h250] at hle
    exact Nat.lt_of_lt_of_le (by decide) hle

theorem nat_pairs_distinct (n : Nat) :
    (nat_pairs n).Pairwise (fun a b => nat_compare a.1 b.1 ≠ 0) := by
  unfold nat_pairs
  rw [List.pairwise_map]
  refine (List.pairwise_lt_range n).imp ?_
  intro a b hab
  simp only [nat_compare]
  omega

theorem distinct_puts_retrievable_witness :
    gmap_create (some nat_copy) (some nat_compare) (some nat_hash) (some nat_free) true true
      = some nat_map ∧
    Lawful nat_map ∧ (∀ p ∈ nat_pairs 250, (nat_copy p.1).isSome = true) ∧
    4 * (nat_pairs 250).length < SIZE_T_MOD ∧
    (nat_pairs 250).Pairwise (fun a b => nat_compare a.1 b.1 ≠ 0) ∧
    ∃ m', put_all (some nat_map) (nat_pairs 250) = some m' ∧
      gmap_size (some m') = (nat_pairs 250).length ∧
      (∀ (i : Nat) (hi : i < (nat_pairs 250).length),
        gmap_get (some m') (some ((nat_pairs 250).get ⟨i, hi⟩).1) =
          ((nat_pairs 250).get ⟨i, hi⟩).2) ∧
      (nat_pairs 250).length ≤ m'.capacity ∧
      ((nat_pairs 250).length = 250 → GMAP_INITIAL_CAPACITY < m'.capacity) :=
  ⟨rfl, nat_map_lawful, fun _ _ => rfl, by simp [nat_pairs, SIZE_T_MOD],
    nat_pairs_distinct 250,
    distinct_puts_retrievable nat_copy nat_compare nat_hash nat_free nat_map (nat_pairs 250)
      rfl nat_map_lawful (fun _ _ => rfl) (by simp [nat_pairs, SIZE_T_MOD])
      (nat_pairs_distinct 250)⟩

/-! ### Remove -/

/-- C4: for a reachable map and a key `k` stored with value `v`, `gmap_remove(m, k)`
returns `v`; afterwards `gmap_get(m, k)` returns null, `gmap_contains_key(m, k)` is
false and `gmap_size` is exactly one less than before, wherever in its chain the
entry was. -/
theorem remove_stored (m : gmap K V) (k : K) (v : VoidPtr V) (hr : Reachable m)
    (hk : gmap_contains_key m k = true) (hv : gmap_get (some m) (some k) = v) :
    ∃ m', gmap_remove (some m) (some k) = (some m', v) ∧
      gmap_get (some m') (some k) = VoidPtr.null ∧ gmap_contains_key m' k = false ∧
      gmap_size (some m') + 1 = gmap_size (some m) := by
  obtain ⟨hw, hl⟩ := reachable_wf hr
  obtain ⟨e0, hf⟩ := find_of_contains hk
  have hget : gmap_get (some m) (some k) = e0.value := by simp [gmap_get, hf]
  obtain ⟨m', h1, hw', hs, hsz, _, p⟩ := remove_present hw hl hf
  have he0 := ((find_iff hw hl k e0).1 hf).2
  have hd := (p.pairwise_iff (fun h => ne_symm_of_lawful hl h)).1 hw.distinct
  rw [List.pairwise_cons] at hd
  have habs : ∀ e ∈ entries m', m'.compare e.key k ≠ 0 := by
    intro e he h0
    rw [hs.compare] at h0
    exact hd.1 e he (hl.trans _ _ _ he0 (hl.symm _ _ h0))
  have hg := get_of_absent hw' (hs.lawful hl) habs
  refine ⟨m', ?_, hg.1, hg.2, hsz⟩
  rw [h1, ← hv, hget]

theorem remove_stored_witness :
    Reachable nat_map3 ∧ gmap_contains_key nat_map3 101 = true ∧
    gmap_get (some nat_map3) (some 101) = VoidPtr.addr 20 ∧
    ∃ m', gmap_remove (some nat_map3) (some 101) = (some m', VoidPtr.addr 20) ∧
      gmap_get (some m') (some 101) = VoidPtr.null ∧ gmap_contains_key m' 101 = false ∧
      gmap_size (some m') + 1 = gmap_size (some nat_map3) :=
  ⟨nat_map3_reachable, by decide, by decide,
    remove_stored nat_map3 101 (VoidPtr.addr 20) nat_map3_reachable (by decide) (by decide)⟩

/-- C5: for a reachable map and a key `k` to which no stored key is equal,
`gmap_remove(m, k)` returns null and leaves the map as it was: the same table,
size and capacity, so `gmap_size` and every `gmap_get` are as before. -/
theorem remove_absent_noop (m : gmap K V) (k : K) (hr : Reachable m)
    (hk : ∀ e ∈ entries m, m.compare e.key k ≠ 0) :
    gmap_remove (some m) (some k) = (some m, VoidPtr.null) ∧
    (∀ m', (gmap_remove (some m) (some k)).1 = some m' →
      m'.table = m.table ∧ m'.size = m.size ∧ m'.capacity = m.capacity) ∧
    gmap_size (gmap_remove (some m) (some k)).1 = gmap_size (some m) ∧
    ∀ k2, gmap_get (gmap_remove (some m) (some k)).1 k2 = gmap_get (some m) k2 := by
  obtain ⟨hw, hl⟩ := reachable_wf hr
  have h := remove_absent ((find_none_iff hw hl k).2 hk)
  rw [h]
  refine ⟨rfl, ?_, rfl, fun _ => rfl⟩
  intro m' hm'
  simp only [Option.some.injEq] at hm'
  subst hm'
  exact ⟨rfl, rfl, rfl⟩

theorem remove_absent_noop_witness :
    Reachable nat_map3 ∧ (∀ e ∈ entries nat_map3, nat_map3.compare e.key 301 ≠ 0) ∧
    (gmap_remove (some nat_map3) (some 301) = (some nat_map3, VoidPtr.null) ∧
    (∀ m', (gmap_remove (some nat_map3) (some 301)).1 = some m' →
      m'.table = nat_map3.table ∧ m'.size = nat_map3.size ∧
        m'.capacity = nat_map3.capacity) ∧
    gmap_size (gmap_remove (some nat_map3) (some 301)).1 = gmap_size (some nat_map3) ∧
    ∀ k2, gmap_get (gmap_remove (some nat_map3) (some 301)).1 k2 =
      gmap_get (some nat_map3) k2) :=
  ⟨nat_map3_reachable, by decide,
    remove_absent_noop nat_map3 301 nat_map3_reachable (by decide)⟩

/-! ### Traversal -/

theorem for_each_eq {σ : Type} {m : gmap K V} (hlen : m.table.length = m.capacity)
    (f : K → VoidPtr V → σ → σ) (a : σ) :
    gmap_for_each (some m) (some f) a = (entries m).foldl (fun a e => f e.key e.value a) a := by
  unfold gmap_for_each entries
  simp only []
  rw [← hlen, foldl_range_chains]

theorem set_length_append {α : Type} (l t : List α) (a b : α) :
    (l ++ a :: t).set l.length b = l ++ b :: t := by
  induction l with
  | nil => rfl
  | cons x l ih => simp [ih]

/-- The array and index after `gmap_store_key_in_array` has visited the nodes `es`,
when the first `done.length` slots are written and `es.length + r` slots are left. -/
theorem store_fold (es : List (entry K V)) :
    ∀ (done : List K) (r : Nat),
      es.foldl (fun s e => gmap_store_key_in_array e.key e.value s)
        { arr := done.map some ++ List.replicate (es.length + r) none, index := done.length } =
      { arr := (done ++ es.map entry.key).map some ++ List.replicate r none,
        index := done.length + es.length } := by
  induction es with
  | nil =>
    intro done r
    simp
  | cons e es ih =>
    intro done r
    have hrep : List.replicate (es.length + 1 + r) (none : Option K) =
        none :: List.replicate (es.length + r) none := by
      rw [show es.length + 1 + r = (es.length + r) + 1 by omega, List.replicate_succ]
    have hset : (List.map some done ++ List.replicate (es.length + 1 + r) none).set
        done.length (some e.key) =
        List.map some (done ++ [e.key]) ++ List.replicate (es.length + r) none := by
      rw [hrep]
      have := set_length_append (List.map some done) (List.replicate (es.length + r) none)
        none (some e.key)
      rw [List.length_map] at this
      rw [this]
      simp
    have hstep : gmap_store_key_in_array e.key e.value
        ({ arr := List.map some done ++ List.replicate (es.length + 1 + r) none,
           index := done.length } : gmap_store_location K) =
        { arr := List.map some (done ++ [e.key]) ++ List.replicate (es.length + r) none,
          index := (done ++ [e.key]).length } := by
      simp only [gmap_store_key_in_array, hset, List.length_append, List.length_singleton]
    rw [List.foldl_cons, List.length_cons, hstep, ih (done ++ [e.key]) r]
    simp [Nat.add_assoc, Nat.add_comm 1]

/-- The logging visitor writes like `gmap_store_key_in_array` and logs consecutive
indices. -/
theorem logged_fold (es : List (entry K V)) :
    ∀ (loc : gmap_store_location K) (log : List Nat),
      es.foldl (fun s e => store_key_logged e.key e.value s) (loc, log) =
      (es.foldl (fun s e => gmap_store_key_in_array e.key e.value s) loc,
        log ++ List.range' loc.index es.length) := by
  induction es with
  | nil =>
    intro loc log
    simp
  | cons e es ih =>
    intro loc log
    have hstep : store_key_logged e.key e.value (loc, log) =
        (gmap_store_key_in_array e.key e.value loc, log ++ [loc.index]) := rfl
    rw [List.foldl_cons, List.foldl_cons, hstep, ih, List.length_cons]
    simp [gmap_store_key_in_array, List.range'_succ]

/-- C7: for a reachable map, when the array allocation succeeds, `gmap_keys` returns
an array of exactly `gmap_size(m)` key references, written at the indices
`0 .. size - 1` in this order and nowhere else; the keys are the keys of the stored
entries, no two of them equal, and a key is in the map exactly when a key equal to
it is in the array. -/
theorem keys_spec (m : gmap K V) (hr : Reachable m) :
    ∃ ks : List K, gmap_keys m true = some (ks.map some) ∧
      ks.length = gmap_size (some m) ∧
      ks = (entries m).map entry.key ∧
      (gmap_for_each (some m) (some store_key_logged)
        (({ arr := List.replicate m.size none, index := 0 } : gmap_store_location K),
          ([] : List Nat))).2 = List.range m.size ∧
      ks.Pairwise (fun a b => m.compare a b ≠ 0) ∧
      ∀ k, gmap_contains_key m k = true ↔ ∃ k' ∈ ks, m.compare k' k = 0 := by
  obtain ⟨hw, hl⟩ := reachable_wf hr
  have hfold := store_fold (entries m) [] 0
  simp only [List.map_nil, List.nil_append, Nat.add_zero, List.length_nil, Nat.zero_add,
    List.replicate_zero, List.append_nil] at hfold
  refine ⟨(entries m).map entry.key, ?_, ?_, rfl, ?_, ?_, ?_⟩
  · simp only [gmap_keys, if_true]
    rw [for_each_eq hw.len, hw.size_eq, hfold]
  · simp only [List.length_map, gmap_size]
    exact hw.size_eq.symm
  · rw [for_each_eq hw.len, logged_fold]
    simp [List.range_eq_range', hw.size_eq]
  · rw [List.pairwise_map]
    exact hw.distinct
  · intro k
    rw [contains_iff hw hl k]
    simp

theorem keys_spec_witness :
    Reachable nat_map3 ∧
    ∃ ks : List Nat, gmap_keys nat_map3 true = some (ks.map some) ∧
      ks.length = gmap_size (some nat_map3) ∧
      ks = (entries nat_map3).map entry.key ∧
      (gmap_for_each (some nat_map3) (some store_key_logged)
        (({ arr := List.replicate nat_map3.size none, index := 0 } : gmap_store_location Nat),
          ([] : List Nat))).2 = List.range nat_map3.size ∧
      ks.Pairwise (fun a b => nat_map3.compare a b ≠ 0) ∧
      ∀ k, gmap_contains_key nat_map3 k = true ↔ ∃ k' ∈ ks, nat_map3.compare k' k = 0 :=
  ⟨nat_map3_reachable, keys_spec nat_map3 nat_map3_reachable⟩

theorem record_fold (es : List (entry K V)) :
    ∀ seen : List (K × VoidPtr V),
      es.foldl (fun s e => record_visit e.key e.value s) seen =
        seen ++ es.map (fun e => (e.key, e.value)) := by
  induction es with
  | nil =>
    intro seen
    simp
  | cons e es ih =>
    intro seen
    rw [List.foldl_cons, ih]
    simp [record_visit]

/-- C8: for a reachable map, `gmap_for_each` with any visitor (one that works on its
own state and not on the map) is one pass over the stored entries: the visitor is
called on each node of each chain once.  The sequence of visited pairs is the
sequence of stored entries, its length is `gmap_size(m)`, `gmap_get(m, key)` is the
visited value for each visited pair, no two visited keys are equal, and every key
in the map is visited, whatever chains the entries lie in. -/
theorem for_each_visits (m : gmap K V) (hr : Reachable m) :
    (∀ (σ : Type) (f : K → VoidPtr V → σ → σ) (a : σ),
      gmap_for_each (some m) (some f) a =
        (entries m).foldl (fun a e => f e.key e.value a) a) ∧
    gmap_for_each (some m) (some record_visit) [] =
      (entries m).map (fun e => (e.key, e.value)) ∧
    (gmap_for_each (some m) (some record_visit) []).length = gmap_size (some m) ∧
    (∀ p ∈ gmap_for_each (some m) (some record_visit) [],
      gmap_get (some m) (some p.1) = p.2) ∧
    (gmap_for_each (some m) (some record_visit) []).Pairwise
      (fun a b => m.compare a.1 b.1 ≠ 0) ∧
    ∀ k, gmap_contains_key m k = true →
      ∃ p ∈ gmap_for_each (some m) (some record_visit) [],
        m.compare p.1 k = 0 ∧ p.2 = gmap_get (some m) (some k) := by
  obtain ⟨hw, hl⟩ := reachable_wf hr
  have hrec : gmap_for_each (some m) (some record_visit) [] =
      (entries m).map (fun e => (e.key, e.value)) := by
    rw [for_each_eq hw.len, record_fold, List.nil_append]
  rw [hrec]
  refine ⟨fun σ f a => for_each_eq hw.len f a, rfl, ?_, ?_, ?_, ?_⟩
  · rw [List.length_map]
    exact hw.size_eq.symm
  · intro p hp
    obtain ⟨e, he, rfl⟩ := List.mem_map.1 hp
    exact (get_of_mem hw hl he (hl.refl _)).1
  · rw [List.pairwise_map]
    exact hw.distinct
  · intro k hk
    obtain ⟨e, he, hek⟩ := (contains_iff hw hl k).1 hk
    exact ⟨(e.key, e.value), List.mem_map.2 ⟨e, he, rfl⟩, hek, (get_of_mem hw hl he hek).1.symm⟩

theorem for_each_visits_witness :
    Reachable nat_map3 ∧
    ((∀ (σ : Type) (f : Nat → VoidPtr Nat → σ → σ) (a : σ),
      gmap_for_each (some nat_map3) (some f) a =
        (entries nat_map3).foldl (fun a e => f e.key e.value a) a) ∧
    gmap_for_each (some nat_map3) (some record_visit) [] =
      (entries nat_map3).map (fun e => (e.key, e.value)) ∧
    (gmap_for_each (some nat_map3) (some record_visit) []).length =
      gmap_size (some nat_map3) ∧
    (∀ p ∈ gmap_for_each (some nat_map3) (some record_visit) [],
      gmap_get (some nat_map3) (some p.1) = p.2) ∧
    (gmap_for_each (some nat_map3) (some record_visit) []).Pairwise
      (fun a b => nat_map3.compare a.1 b.1 ≠ 0) ∧
    ∀ k, gmap_contains_key nat_map3 k = true →
      ∃ p ∈ gmap_for_each (some nat_map3) (some record_visit) [],
        nat_map3.compare p.1 k = 0 ∧ p.2 = gmap_get (some nat_map3) (some k)) :=
  ⟨nat_map3_reachable, for_each_visits nat_map3 nat_map3_reachable⟩

/-! ### Presence of a key, and creation -/

/-- C9: for a reachable map and a key `k`, `gmap_contains_key(m, k)` is true exactly
when an entry with a key equal to `k` is stored.  After a successful
`gmap_put(m, k, NULL)` it is true although `gmap_get(m, k)` returns null; and
unless `k` is stored with a null value, it is true exactly when `gmap_get(m, k)` is
not null. -/
theorem contains_key_spec (m : gmap K V) (k : K) (hr : Reachable m) :
    (gmap_contains_key m k = true ↔ ∃ e ∈ entries m, m.compare e.key k = 0) ∧
    (m.capacity * 2 < SIZE_T_MOD → (m.copy k).isSome = true →
      ∃ m', (gmap_put (some m) (some k) VoidPtr.null true).1 = some m' ∧
        gmap_contains_key m' k = true ∧ gmap_get (some m') (some k) = VoidPtr.null) ∧
    ((∀ e ∈ entries m, m.compare e.key k = 0 → e.value ≠ VoidPtr.null) →
      (gmap_contains_key m k = true ↔ gmap_get (some m) (some k) ≠ VoidPtr.null)) := by
  obtain ⟨hw, hl⟩ := reachable_wf hr
  refine ⟨contains_iff hw hl k, ?_, ?_⟩
  · intro hfit hc
    obtain ⟨m', h1, _, _, _, _, hg, hck⟩ := put_ok_step hw hl hfit hc VoidPtr.null
    exact ⟨m', by rw [h1], hck, hg⟩
  · intro hnn
    cases hf : gmap_table_find_key m.table k m.hash m.compare m.capacity with
    | none => simp [gmap_contains_key, gmap_get, hf]
    | some e =>
      have he := (find_iff hw hl k e).1 hf
      have := hnn e he.1 he.2
      simp [gmap_contains_key, gmap_get, hf, this]

theorem contains_key_spec_witness :
    Reachable nat_map3 ∧
    ((gmap_contains_key nat_map3 101 = true ↔
      ∃ e ∈ entries nat_map3, nat_map3.compare e.key 101 = 0) ∧
    (nat_map3.capacity * 2 < SIZE_T_MOD → (nat_map3.copy 101).isSome = true →
      ∃ m', (gmap_put (some nat_map3) (some 101) VoidPtr.null true).1 = some m' ∧
        gmap_contains_key m' 101 = true ∧ gmap_get (some m') (some 101) = VoidPtr.null) ∧
    ((∀ e ∈ entries nat_map3, nat_map3.compare e.key 101 = 0 → e.value ≠ VoidPtr.null) →
      (gmap_contains_key nat_map3 101 = true ↔
        gmap_get (some nat_map3) (some 101) ≠ VoidPtr.null))) :=
  ⟨nat_map3_reachable, contains_key_spec nat_map3 101 nat_map3_reachable⟩

/-- C10: `gmap_create` returns null when any of the four functions is null,
whatever the allocator does; with all four functions and both allocations
succeeding it returns a map of size 0 and capacity 100 whose 100 buckets are all
empty, on which `gmap_size` is 0, `gmap_get` returns null and `gmap_contains_key`
is false for every key. -/
theorem create_spec (cp : Option (K → Option K)) (comp : Option (K → K → Int))
    (h : Option (K → Nat)) (f : Option (K → Unit)) (a b : Bool)
    (cp' : K → Option K) (comp' : K → K → Int) (h' : K → Nat) (f' : K → Unit) :
    (gmap_create none comp h f a b : Option (gmap K V)) = none ∧
    (gmap_create cp none h f a b : Option (gmap K V)) = none ∧
    (gmap_create cp comp none f a b : Option (gmap K V)) = none ∧
    (gmap_create cp comp h none a b : Option (gmap K V)) = none ∧
    ∃ m : gmap K V, gmap_create (some cp') (some comp') (some h') (some f') true true = some m ∧
      m.size = 0 ∧ m.capacity = 100 ∧ m.table = List.replicate 100 [] ∧
      m.table.length = 100 ∧ (∀ c ∈ m.table, c = []) ∧
      gmap_size (some m) = 0 ∧
      ∀ k : K, gmap_get (some m) (some k) = VoidPtr.null ∧ gmap_contains_key m k = false := by
  refine ⟨by simp [gmap_create], ?_, ?_, ?_, ?_⟩
  · cases cp <;> simp [gmap_create]
  · cases cp <;> cases comp <;> simp [gmap_create]
  · cases cp <;> cases comp <;> cases h <;> simp [gmap_create]
  · refine ⟨{ table := List.replicate GMAP_INITIAL_CAPACITY [],
              capacity := GMAP_INITIAL_CAPACITY, size := 0, hash := h', compare := comp',
              copy := cp', free := f' }, rfl, rfl, rfl, rfl, ?_, ?_, rfl, ?_⟩
    · simp [GMAP_INITIAL_CAPACITY]
    · intro c hc
      exact (List.mem_replicate.1 hc).2
    · intro k
      have hfind : gmap_table_find_key (List.replicate GMAP_INITIAL_CAPACITY [])
          k h' comp' GMAP_INITIAL_CAPACITY = (none : Option (entry K V)) := by
        unfold gmap_table_find_key
        simp only []
        have : (List.replicate GMAP_INITIAL_CAPACITY ([] : List (entry K V))).getD
            (gmap_compute_index k h' GMAP_INITIAL_CAPACITY) [] = [] := by
          rw [List.getD_eq_getElem?_getD, List.getElem?_replicate]
          split <;> rfl
        rw [this]
        rfl
      simp only [gmap_get, gmap_contains_key, hfind, and_self]

/-! ### Failures of allocation -/

/-- C11 as stated fails: with all four functions given, the map object allocated and
the allocation of the bucket array failing, `gmap_create` returns a map object (of
capacity 0) and not null. -/
theorem create_table_failure_not_null :
    (gmap_create (some nat_copy) (some nat_compare) (some nat_hash) (some nat_free) true false :
      Option (gmap Nat Nat)).isSome = true ∧
    (gmap_create (some nat_copy) (some nat_compare) (some nat_hash) (some nat_free) true false :
      Option (gmap Nat Nat)) ≠ none ∧
    (gmap_create (some nat_copy) (some nat_compare) (some nat_hash) (some nat_free) true false :
      Option (gmap Nat Nat)).map gmap.capacity = some 0 := by
  refine ⟨rfl, ?_, rfl⟩
  intro h
  cases h

/-- C11, amended: with all four functions given, `gmap_create` returns null when the
allocation of the map object fails; when the map object is allocated and the
allocation of the bucket array fails, it returns a map object with the four
functions, capacity 0, size 0 and no bucket, on which `gmap_size` is 0. -/
theorem create_table_failure (cp : K → Option K) (comp : K → K → Int) (h : K → Nat)
    (f : K → Unit) (tableAlloc : Bool) :
    (gmap_create (some cp) (some comp) (some h) (some f) false tableAlloc :
      Option (gmap K V)) = none ∧
    (gmap_create (some cp) (some comp) (some h) (some f) true false : Option (gmap K V)) =
      some { table := [], capacity := 0, size := 0, hash := h, compare := comp, copy := cp,
             free := f } ∧
    gmap_size (gmap_create (some cp) (some comp) (some h) (some f) true false :
      Option (gmap K V)) = 0 := by
  refine ⟨?_, rfl, rfl⟩
  simp [gmap_create]

/-- C13: for a reachable map and a key `k` to which no stored key is equal, when the
copy function returns null for `k`, `gmap_put` returns `gmap_error`, which is not
null, and leaves the map as it was: the same table, size and capacity, whatever the
fill level and the allocator. -/
theorem put_copy_failure (m : gmap K V) (k : K) (v : VoidPtr V) (nodeAlloc : Bool)
    (hr : Reachable m) (hk : ∀ e ∈ entries m, m.compare e.key k ≠ 0)
    (hc : m.copy k = none) :
    gmap_put (some m) (some k) v nodeAlloc = (some m, gmap_error) ∧
    (gmap_error : VoidPtr V) ≠ VoidPtr.null ∧
    ∀ m', (gmap_put (some m) (some k) v nodeAlloc).1 = some m' →
      m'.table = m.table ∧ m'.size = m.size ∧ m'.capacity = m.capacity := by
  obtain ⟨hw, hl⟩ := reachable_wf hr
  have h := put_copy_fails ((find_none_iff hw hl k).2 hk) hc v nodeAlloc
  rw [h]
  refine ⟨rfl, ?_, ?_⟩
  · intro he
    cases he
  · intro m' hm'
    simp only [Option.some.injEq] at hm'
    subst hm'
    exact ⟨rfl, rfl, rfl⟩

/-! ### Capacity -/

/-- A run of successful puts on a reachable map ends in a reachable map. -/
theorem put_all_reachable (ps : List (K × VoidPtr V)) :
    ∀ (m : gmap K V), Reachable m →
      (∀ p ∈ ps, (m.copy p.1).isSome = true) →
      m.capacity ≤ max GMAP_INITIAL_CAPACITY (2 * m.size) →
      4 * (m.size + ps.length) < SIZE_T_MOD →
      ∃ m', put_all (some m) ps = some m' ∧ Reachable m' := by
  induction ps with
  | nil =>
    intro m hr _ _ _
    exact ⟨m, rfl, hr⟩
  | cons p ps ih =>
    intro m hr hc hb hn
    obtain ⟨hw, hl⟩ := reachable_wf hr
    have hfit := fit_of_bound hb hn
    obtain ⟨m1, h1, hw1, hs1, hsz1, hcap1, _, _⟩ :=
      put_ok_step hw hl hfit (hc p (List.mem_cons_self _ _)) p.2
    have hb1 := put_ok_capacity hw hb hcap1 hsz1
    have hr1 : Reachable m1 := Reachable.put m m1 (some p.1) p.2 true hr hfit (by rw [h1])
    have hle : m1.size ≤ m.size + 1 := by
      rw [hsz1]
      split <;> omega
    obtain ⟨m', h2, hr'⟩ := ih m1 hr1
      (by
        intro q hq
        rw [hs1.copy]
        exact hc q (List.mem_cons_of_mem _ hq))
      hb1
      (by
        simp only [List.length_cons] at hn
        omega)
    refine ⟨m', ?_, hr'⟩
    simp only [put_all, h1]
    exact h2

theorem picky_map_lawful : Lawful picky_map := by
  refine ⟨nat_map_lawful.refl, nat_map_lawful.symm, nat_map_lawful.trans,
    nat_map_lawful.hash_eq, ?_⟩
  intro a b h
  change picky_copy a = some b at h
  show nat_compare b a = 0
  unfold picky_copy at h
  split at h
  · cases h
    simp [nat_compare]
  · cases h

theorem picky_map_reachable : Reachable picky_map :=
  Reachable.create picky_copy nat_compare nat_hash nat_free picky_map rfl picky_map_lawful

set_option maxRecDepth 100000 in
theorem picky_full_eq : put_all (some picky_map) (nat_pairs 100) = some picky_full := by
  rfl

theorem picky_full_reachable : Reachable picky_full := by
  obtain ⟨m', h1, h2⟩ := put_all_reachable (nat_pairs 100) picky_map picky_map_reachable
    (by
      intro p hp
      simp only [nat_pairs, List.mem_map, List.mem_range] at hp
      obtain ⟨i, hi, rfl⟩ := hp
      show (picky_copy i).isSome = true
      simp [picky_copy, hi])
    (Nat.le_max_left _ _)
    (by simp [nat_pairs, SIZE_T_MOD, picky_map, nat_map])
  rw [picky_full_eq] at h1
  cases h1
  exact h2

/-- The capacity after a `gmap_put`, whatever its outcome: it doubles exactly when
the key is not stored, its copy succeeds and the table is full. -/
theorem put_capacity {m m' : gmap K V} (hw : WF m) (hl : Lawful m)
    (hfit : m.capacity * 2 < SIZE_T_MOD) {k : K} {v : VoidPtr V} {node : Bool}
    (h : (gmap_put (some m) (some k) v node).1 = some m') :
    m'.capacity = (if gmap_contains_key m k = false ∧ (m.copy k).isSome = true ∧
      m.size ≥ m.capacity then m.capacity * 2 else m.capacity) := by
  cases hf : gmap_table_find_key m.table k m.hash m.compare m.capacity with
  | some e0 =>
    have hct : gmap_contains_key m k = true := by simp [gmap_contains_key, hf]
    obtain ⟨m2, h1, _, _, _, h3, _⟩ := put_present hw hl hf v node
    rw [h1] at h
    simp only [Option.some.injEq] at h
    subst h
    rw [h3, hct]
    simp
  | none =>
    have hct : gmap_contains_key m k = false := by simp [gmap_contains_key, hf]
    cases hc : m.copy k with
    | none =>
      rw [put_copy_fails hf hc] at h
      simp only [Option.some.injEq] at h
      subst h
      simp
    | some k' =>
      cases node with
      | true =>
        obtain ⟨m2, h1, _, _, _, h3, _⟩ := put_absent hw hl hf hc hfit v
        rw [h1] at h
        simp only [Option.some.injEq] at h
        subst h
        rw [h3, hct]
        simp
      | false =>
        obtain ⟨m2, h1, _, _, _, h3, _⟩ := put_absent_no_node hw hl hf hc hfit v
        rw [h1] at h
        simp only [Option.some.injEq] at h
        subst h
        rw [h3, hct]
        simp

theorem remove_capacity {m m' : gmap K V} (hw : WF m) (hl : Lawful m) {key : Option K}
    (h : (gmap_remove (some m) key).1 = some m') : m'.capacity = m.capacity := by
  cases key with
  | none =>
    simp only [gmap_remove, Option.some.injEq] at h
    subst h
    rfl
  | some k =>
    cases hf : gmap_table_find_key m.table k m.hash m.compare m.capacity with
    | some e0 =>
      obtain ⟨m2, h1, _, _, _, h3, _⟩ := remove_present hw hl hf
      rw [h1] at h
      simp only [Option.some.injEq] at h
      subst h
      exact h3
    | none =>
      rw [remove_absent hf] at h
      simp only [Option.some.injEq] at h
      subst h
      rfl

theorem put_some_map (m : gmap K V) (key : Option K) (v : VoidPtr V) (node : Bool) :
    ∃ m', (gmap_put (some m) key v node).1 = some m' := by
  cases key with
  | none => exact ⟨m, rfl⟩
  | some k =>
    unfold gmap_put
    simp only []
    split
    · exact ⟨_, rfl⟩
    · split
      · split
        · exact ⟨_, rfl⟩
        · exact ⟨_, rfl⟩
      · exact ⟨_, rfl⟩

theorem remove_some_map (m : gmap K V) (key : Option K) :
    ∃ m', (gmap_remove (some m) key).1 = some m' := by
  cases key with
  | none => exact ⟨m, rfl⟩
  | some k =>
    unfold gmap_remove
    simp only []
    split
    · exact ⟨_, rfl⟩
    · exact ⟨_, rfl⟩
    · exact ⟨_, rfl⟩

set_option maxRecDepth 100000 in
/-- C12 as stated fails: `picky_full` is a reachable full table (size 100, capacity
100) and the key 100 is not stored, yet `gmap_put` of it, whose key copy fails,
leaves the capacity at 100 and not at 200. -/
theorem capacity_kept_on_copy_failure :
    Reachable picky_full ∧ gmap_contains_key picky_full 100 = false ∧
    picky_full.size ≥ picky_full.capacity ∧
    (gmap_put (some picky_full) (some 100) VoidPtr.null true).1.map gmap.capacity = some 100 ∧
    (gmap_put (some picky_full) (some 100) VoidPtr.null true).1.map gmap.capacity ≠
      some (2 * picky_full.capacity) :=
  ⟨picky_full_reachable, by decide, by decide, by decide, by decide⟩

/-- C12, amended: for a reachable map (the doubled capacity being a value of
`size_t`), a `gmap_put` of a key that is not stored and whose copy succeeds, while
size >= capacity, leaves the capacity at exactly 2 times the old capacity; a
`gmap_put` in every other case (null key, key stored, copy failing, or
size < capacity) and every `gmap_remove` leave the capacity unchanged; so the
capacity never decreases. -/
theorem capacity_changes (m : gmap K V) (hr : Reachable m)
    (hfit : m.capacity * 2 < SIZE_T_MOD) :
    (∀ (k : K) (v : VoidPtr V) (node : Bool),
      ∃ m', (gmap_put (some m) (some k) v node).1 = some m' ∧
        m'.capacity = (if gmap_contains_key m k = false ∧ (m.copy k).isSome = true ∧
          m.size ≥ m.capacity then 2 * m.capacity else m.capacity)) ∧
    (∀ (v : VoidPtr V) (node : Bool),
      ∃ m', (gmap_put (some m) none v node).1 = some m' ∧ m'.capacity = m.capacity) ∧
    (∀ key : Option K,
      ∃ m', (gmap_remove (some m) key).1 = some m' ∧ m'.capacity = m.capacity) ∧
    (∀ (key : Option K) (v : VoidPtr V) (node : Bool) (m' : gmap K V),
      (gmap_put (some m) key v node).1 = some m' → m.capacity ≤ m'.capacity) := by
  obtain ⟨hw, hl⟩ := reachable_wf hr
  refine ⟨?_, ?_, ?_, ?_⟩
  · intro k v node
    obtain ⟨m', hm'⟩ := put_some_map m (some k) v node
    refine ⟨m', hm', ?_⟩
    rw [put_capacity hw hl hfit hm', Nat.mul_comm]
  · intro v node
    exact ⟨m, rfl, rfl⟩
  · intro key
    obtain ⟨m', hm'⟩ := remove_some_map m key
    exact ⟨m', hm', remove_capacity hw hl hm'⟩
  · intro key v node m' hm'
    cases key with
    | none =>
      simp only [gmap_put, Option.some.injEq] at hm'
      subst hm'
      exact Nat.le_refl _
    | some k =>
      rw [put_capacity hw hl hfit hm']
      split <;> omega

set_option maxRecDepth 100000 in
theorem capacity_changes_witness :
    Reachable picky_full ∧ picky_full.capacity * 2 < SIZE_T_MOD ∧
    ((∀ (k : Nat) (v : VoidPtr Nat) (node : Bool),
      ∃ m', (gmap_put (some picky_full) (some k) v node).1 = some m' ∧
        m'.capacity = (if gmap_contains_key picky_full k = false ∧
          (picky_full.copy k).isSome = true ∧
          picky_full.size ≥ picky_full.capacity then 2 * picky_full.capacity
          else picky_full.capacity)) ∧
    (∀ (v : VoidPtr Nat) (node : Bool),
      ∃ m', (gmap_put (some picky_full) none v node).1 = some m' ∧
        m'.capacity = picky_full.capacity) ∧
    (∀ key : Option Nat,
      ∃ m', (gmap_remove (some picky_full) key).1 = some m' ∧
        m'.capacity = picky_full.capacity) ∧
    (∀ (key : Option Nat) (v : VoidPtr Nat) (node : Bool) (m' : gmap Nat Nat),
      (gmap_put (some picky_full) key v node).1 = some m' →
        picky_full.capacity ≤ m'.capacity)) :=
  ⟨picky_full_reachable, by decide,
    capacity_changes picky_full picky_full_reachable (by decide)⟩

set_option maxRecDepth 100000 in
theorem put_copy_failure_witness :
    Reachable picky_full ∧ (∀ e ∈ entries picky_full, picky_full.compare e.key 100 ≠ 0) ∧
    picky_full.copy 100 = none ∧
    (gmap_put (some picky_full) (some 100) (VoidPtr.addr 7) true = (some picky_full, gmap_error) ∧
    (gmap_error : VoidPtr Nat) ≠ VoidPtr.null ∧
    ∀ m', (gmap_put (some picky_full) (some 100) (VoidPtr.addr 7) true).1 = some m' →
      m'.table = picky_full.table ∧ m'.size = picky_full.size ∧
        m'.capacity = picky_full.capacity) :=
  ⟨picky_full_reachable, by decide, rfl,
    put_copy_failure picky_full 100 (VoidPtr.addr 7) true picky_full_reachable (by decide) rfl⟩

/-! ### The frame of a put -/

/-- C17: a `gmap_put(m, k, v)` on a reachable map changes the mapping of `k` only: for
every key `k2` that does not compare equal to `k`, `gmap_get(m, k2)` and
`gmap_contains_key(m, k2)` are the same after the put as before, whether the put
adds an entry, replaces a value, resizes or fails.  On a fresh map, after
`put(a, v1)`, `put(b, v2)`, `put(a, v3)` with `a` and `b` not equal, the size is 2,
`get(a)` is `v3` and `get(b)` is still `v2`. -/
theorem put_frame (m : gmap K V) (k k2 : K) (v : VoidPtr V) (nodeAlloc : Bool)
    (hr : Reachable m) (hfit : m.capacity * 2 < SIZE_T_MOD) (hne : m.compare k k2 ≠ 0) :
    (∃ m', (gmap_put (some m) (some k) v nodeAlloc).1 = some m' ∧
      gmap_get (some m') (some k2) = gmap_get (some m) (some k2) ∧
      gmap_contains_key m' k2 = gmap_contains_key m k2) ∧
    ∀ (cp : K → Option K) (comp : K → K → Int) (h : K → Nat) (f : K → Unit) (m0 : gmap K V)
      (a b : K) (v1 v2 v3 : VoidPtr V),
      gmap_create (some cp) (some comp) (some h) (some f) true true = some m0 → Lawful m0 →
      comp a b ≠ 0 → (cp a).isSome = true → (cp b).isSome = true →
      ∃ m3, put_all (some m0) [(a, v1), (b, v2), (a, v3)] = some m3 ∧
        gmap_size (some m3) = 2 ∧ gmap_get (some m3) (some a) = v3 ∧
        gmap_get (some m3) (some b) = v2 := by
  obtain ⟨hw, hl⟩ := reachable_wf hr
  constructor
  · obtain ⟨m', hm'⟩ := put_some_map m (some k) v nodeAlloc
    have := get_congr_find (put_find_other hw hl hfit hm' hne)
    exact ⟨m', hm', this.1, this.2⟩
  · intro cp comp h f m0 a b v1 v2 v3 hm0 hl0 hab ha hb
    obtain ⟨hb0, hz, hcp, hcm⟩ := create_bound hm0
    have hw0 := create_wf hm0
    subst hcp hcm
    have hcap0 : m0.capacity = GMAP_INITIAL_CAPACITY := by
      rw [create_eq hm0]
    have hfit0 : m0.capacity * 2 < SIZE_T_MOD := by
      rw [hcap0]
      decide
    have hc0 := create_contains_false hm0 hl0
    -- first put
    obtain ⟨m1, h1, hw1, hs1, hsz1, hcap1, hg1, hck1⟩ := put_ok_step hw0 hl0 hfit0 ha v1
    have hl1 := hs1.lawful hl0
    have hcap1' : m1.capacity = GMAP_INITIAL_CAPACITY := by
      rw [hcap1, if_neg, hcap0]
      rintro ⟨_, hge⟩
      rw [hz, hcap0] at hge
      exact absurd hge (by decide)
    have hfit1 : m1.capacity * 2 < SIZE_T_MOD := by
      rw [hcap1']
      decide
    have hsz1' : m1.size = 1 := by
      rw [hsz1, hc0 a, hz]
      rfl
    -- second put
    have hb1 : (m1.copy b).isSome = true := by rw [hs1.copy]; exact hb
    have hfo1 := get_congr_find (put_find_other hw0 hl0 hfit0 (by rw [h1]) hab)
    have hcb1 : gmap_contains_key m1 b = false := by rw [hfo1.2]; exact hc0 b
    obtain ⟨m2, h2, hw2, hs2, hsz2, hcap2, hg2, hck2⟩ := put_ok_step hw1 hl1 hfit1 hb1 v2
    have hl2 := hs2.lawful hl1
    have hsz2' : m2.size = 2 := by
      rw [hsz2, hcb1, hsz1']
      rfl
    have hcap2' : m2.capacity = m1.capacity := by
      rw [hcap2, if_neg]
      rintro ⟨_, hge⟩
      rw [hsz1', hcap1'] at hge
      exact absurd hge (by decide)
    have hfit2 : m2.capacity * 2 < SIZE_T_MOD := by rw [hcap2']; exact hfit1
    have hba1 : m1.compare b a ≠ 0 := by
      rw [hs1.compare]
      exact fun h0 => hab (hl0.symm _ _ h0)
    have hfo2 := get_congr_find (put_find_other hw1 hl1 hfit1 (by rw [h2]) hba1)
    have hca2 : gmap_contains_key m2 a = true := by rw [hfo2.2]; exact hck1
    -- third put
    have ha2 : (m2.copy a).isSome = true := by rw [hs2.copy, hs1.copy]; exact ha
    obtain ⟨m3, h3, hw3, hs3, hsz3, _, hg3, _⟩ := put_ok_step hw2 hl2 hfit2 ha2 v3
    have hab2 : m2.compare a b ≠ 0 := by rw [hs2.compare, hs1.compare]; exact hab
    have hfo3 := get_congr_find (put_find_other hw2 hl2 hfit2 (by rw [h3]) hab2)
    refine ⟨m3, ?_, ?_, hg3, ?_⟩
    · simp only [put_all, h1, h2, h3]
    · show m3.size = 2
      rw [hsz3, hca2, hsz2']
      rfl
    · rw [hfo3.1]
      exact hg2

theorem put_frame_witness :
    Reachable nat_map3 ∧ nat_map3.capacity * 2 < SIZE_T_MOD ∧ nat_map3.compare 101 201 ≠ 0 ∧
    ((∃ m', (gmap_put (some nat_map3) (some 101) (VoidPtr.addr 5) true).1 = some m' ∧
      gmap_get (some m') (some 201) = gmap_get (some nat_map3) (some 201) ∧
      gmap_contains_key m' 201 = gmap_contains_key nat_map3 201) ∧
    ∀ (cp : Nat → Option Nat) (comp : Nat → Nat → Int) (h : Nat → Nat) (f : Nat → Unit)
      (m0 : gmap Nat Nat) (a b : Nat) (v1 v2 v3 : VoidPtr Nat),
      gmap_create (some cp) (some comp) (some h) (some f) true true = some m0 → Lawful m0 →
      comp a b ≠ 0 → (cp a).isSome = true → (cp b).isSome = true →
      ∃ m3, put_all (some m0) [(a, v1), (b, v2), (a, v3)] = some m3 ∧
        gmap_size (some m3) = 2 ∧ gmap_get (some m3) (some a) = v3 ∧
        gmap_get (some m3) (some b) = v2) :=
  ⟨nat_map3_reachable, by decide, by decide,
    put_frame nat_map3 101 201 (VoidPtr.addr 5) true nat_map3_reachable (by decide)
      (by decide)⟩

/-! ### Invariants of reachable maps -/

theorem reachable_capacity_pow {m : gmap K V} (hr : Reachable m) :
    ∃ j : Nat, m.capacity = GMAP_INITIAL_CAPACITY * 2 ^ j := by
  induction hr with
  | create cp comp h f m hm hl =>
    refine ⟨0, ?_⟩
    rw [create_eq hm]
    rfl
  | put m m' key value node hrm hfit hput ih =>
    obtain ⟨hw, hl⟩ := reachable_wf hrm
    obtain ⟨j, hj⟩ := ih
    cases key with
    | none =>
      simp only [gmap_put, Option.some.injEq] at hput
      subst hput
      exact ⟨j, hj⟩
    | some k =>
      rw [put_capacity hw hl hfit hput]
      split
      · refine ⟨j + 1, ?_⟩
        rw [hj, Nat.pow_succ, Nat.mul_assoc]
      · exact ⟨j, hj⟩
  | remove m m' key hrm hrem ih =>
    obtain ⟨hw, hl⟩ := reachable_wf hrm
    rw [remove_capacity hw hl hrem]
    exact ih

/-- C19: in every reachable state the size does not exceed the capacity, which is
positive, so the load factor size / capacity is at most 1; a successful put of a
key that is not stored at size = capacity doubles the capacity and adds the entry,
and the size is within the new capacity. -/
theorem size_le_capacity (m : gmap K V) (hr : Reachable m) :
    0 ≤ gmap_size (some m) ∧ gmap_size (some m) ≤ m.capacity ∧ 0 < m.capacity ∧
    (gmap_size (some m) : ℚ) / (m.capacity : ℚ) ≤ 1 ∧
    ∀ (k : K) (v : VoidPtr V), m.capacity * 2 < SIZE_T_MOD →
      gmap_contains_key m k = false → (m.copy k).isSome = true → m.size = m.capacity →
      ∃ m', gmap_put (some m) (some k) v true = (some m', VoidPtr.null) ∧
        m'.capacity = 2 * m.capacity ∧ m'.size = m.size + 1 ∧ m'.size ≤ m'.capacity := by
  obtain ⟨hw, hl⟩ := reachable_wf hr
  refine ⟨Nat.zero_le _, hw.size_le, hw.cap_pos, ?_, ?_⟩
  · have hpos : (0 : ℚ) < (m.capacity : ℚ) := by exact_mod_cast hw.cap_pos
    rw [div_le_one hpos]
    exact_mod_cast hw.size_le
  · intro k v hfit hk hc hfull
    obtain ⟨m', h1, hw', _, hsz, hcap, _, _⟩ := put_ok_step hw hl hfit hc v
    refine ⟨m', ?_, ?_, ?_, hw'.size_le⟩
    · rw [h1, hk]
      simp
    · rw [hcap, if_pos ⟨hk, Nat.le_of_eq hfull.symm⟩, Nat.mul_comm]
    · rw [hsz, hk]
      simp

theorem size_le_capacity_witness :
    Reachable picky_full ∧
    (0 ≤ gmap_size (some picky_full) ∧ gmap_size (some picky_full) ≤ picky_full.capacity ∧
    0 < picky_full.capacity ∧
    (gmap_size (some picky_full) : ℚ) / (picky_full.capacity : ℚ) ≤ 1 ∧
    ∀ (k : Nat) (v : VoidPtr Nat), picky_full.capacity * 2 < SIZE_T_MOD →
      gmap_contains_key picky_full k = false → (picky_full.copy k).isSome = true →
      picky_full.size = picky_full.capacity →
      ∃ m', gmap_put (some picky_full) (some k) v true = (some m', VoidPtr.null) ∧
        m'.capacity = 2 * picky_full.capacity ∧ m'.size = picky_full.size + 1 ∧
        m'.size ≤ m'.capacity) :=
  ⟨picky_full_reachable, size_le_capacity picky_full picky_full_reachable⟩

/-- C20: every reachable map is well-formed: (1) the capacity is 100 times a power of
two, hence positive, the table has that many buckets and every index
`hash(key) % capacity` is the index of one of them; (2) every entry lies in the
chain of bucket `hash(key) % capacity`; (3) no two stored entries have equal keys;
(4) the size field is the total number of entries over all chains.  The same holds
for the map `gmap_embiggen` makes of it when it doubles the capacity. -/
theorem table_well_formed (m : gmap K V) (hr : Reachable m) :
    ((∃ j : Nat, m.capacity = 100 * 2 ^ j) ∧ 0 < m.capacity ∧
      m.table.length = m.capacity ∧
      ∀ k, gmap_compute_index k m.hash m.capacity < m.table.length) ∧
    (∀ i c, m.table[i]? = some c → ∀ e ∈ c, gmap_compute_index e.key m.hash m.capacity = i) ∧
    (entries m).Pairwise (fun a b => m.compare a.key b.key ≠ 0) ∧
    m.size = (m.table.map List.length).sum ∧
    (m.capacity * 2 < SIZE_T_MOD →
      (gmap_embiggen m (m.capacity * 2 % SIZE_T_MOD)).capacity = 2 * m.capacity ∧
      (gmap_embiggen m (m.capacity * 2 % SIZE_T_MOD)).table.length = 2 * m.capacity ∧
      (∀ i c, (gmap_embiggen m (m.capacity * 2 % SIZE_T_MOD)).table[i]? = some c →
        ∀ e ∈ c, gmap_compute_index e.key m.hash (2 * m.capacity) = i) ∧
      (entries (gmap_embiggen m (m.capacity * 2 % SIZE_T_MOD))).Pairwise
        (fun a b => m.compare a.key b.key ≠ 0) ∧
      (gmap_embiggen m (m.capacity * 2 % SIZE_T_MOD)).size =
        ((gmap_embiggen m (m.capacity * 2 % SIZE_T_MOD)).table.map List.length).sum ∧
      (entries (gmap_embiggen m (m.capacity * 2 % SIZE_T_MOD))).Perm (entries m)) := by
  obtain ⟨hw, hl⟩ := reachable_wf hr
  refine ⟨⟨reachable_capacity_pow hr, hw.cap_pos, hw.len, index_lt hw⟩, hw.placed, hw.distinct,
    ?_, ?_⟩
  · rw [hw.size_eq]
    unfold entries
    rw [List.length_flatten]
  · intro hfit
    rw [Nat.mod_eq_of_lt hfit]
    obtain ⟨h1, h2, _, _, h5⟩ :=
      embiggen_spec hw hl (Nat.le_mul_of_pos_right m.capacity (by decide : 0 < 2)) hfit
    refine ⟨?_, ?_, ?_, h1.distinct, ?_, h2⟩
    · rw [h5, Nat.mul_comm]
    · rw [h1.len, h5, Nat.mul_comm]
    · intro i c hc e he
      have := h1.placed i c hc e he
      rw [h5, Nat.mul_comm] at this
      exact this
    · rw [h1.size_eq]
      unfold entries
      rw [List.length_flatten]

theorem table_well_formed_witness :
    Reachable nat_map3 ∧
    (((∃ j : Nat, nat_map3.capacity = 100 * 2 ^ j) ∧ 0 < nat_map3.capacity ∧
      nat_map3.table.length = nat_map3.capacity ∧
      ∀ k, gmap_compute_index k nat_map3.hash nat_map3.capacity < nat_map3.table.length) ∧
    (∀ i c, nat_map3.table[i]? = some c →
      ∀ e ∈ c, gmap_compute_index e.key nat_map3.hash nat_map3.capacity = i) ∧
    (entries nat_map3).Pairwise (fun a b => nat_map3.compare a.key b.key ≠ 0) ∧
    nat_map3.size = (nat_map3.table.map List.length).sum ∧
    (nat_map3.capacity * 2 < SIZE_T_MOD →
      (gmap_embiggen nat_map3 (nat_map3.capacity * 2 % SIZE_T_MOD)).capacity =
        2 * nat_map3.capacity ∧
      (gmap_embiggen nat_map3 (nat_map3.capacity * 2 % SIZE_T_MOD)).table.length =
        2 * nat_map3.capacity ∧
      (∀ i c, (gmap_embiggen nat_map3 (nat_map3.capacity * 2 % SIZE_T_MOD)).table[i]? = some c →
        ∀ e ∈ c, gmap_compute_index e.key nat_map3.hash (2 * nat_map3.capacity) = i) ∧
      (entries (gmap_embiggen nat_map3 (nat_map3.capacity * 2 % SIZE_T_MOD))).Pairwise
        (fun a b => nat_map3.compare a.key b.key ≠ 0) ∧
      (gmap_embiggen nat_map3 (nat_map3.capacity * 2 % SIZE_T_MOD)).size =
        ((gmap_embiggen nat_map3 (nat_map3.capacity * 2 % SIZE_T_MOD)).table.map
          List.length).sum ∧
      (entries (gmap_embiggen nat_map3 (nat_map3.capacity * 2 % SIZE_T_MOD))).Perm
        (entries nat_map3))) :=
  ⟨nat_map3_reachable, table_well_formed nat_map3 nat_map3_reachable⟩

/-! ### The order of a traversal -/

theorem visits_eq {m : gmap K V} (hlen : m.table.length = m.capacity) :
    visits m = (entries m).map (fun e => (e.key, e.value)) := by
  unfold visits
  rw [for_each_eq hlen, record_fold, List.nil_append]

/-- The nodes of a table whose chain `j` holds nodes of bucket `j + off` come in
ascending order of their buckets. -/
theorem flatten_bucket_sorted (b : entry K V → Nat) (t : List (List (entry K V))) :
    ∀ off : Nat, (∀ j c, t[j]? = some c → ∀ e ∈ c, b e = j + off) →
      (t.flatten.map b).Pairwise (fun x y => x ≤ y) ∧ ∀ e ∈ t.flatten, off ≤ b e := by
  induction t with
  | nil =>
    intro off _
    simp
  | cons c t ih =>
    intro off h
    have hc : ∀ e ∈ c, b e = off := by
      intro e he
      have := h 0 c (List.getElem?_cons_zero) e he
      omega
    obtain ⟨h1, h2⟩ := ih (off + 1) (by
      intro j c' hj e he
      have := h (j + 1) c' (by simpa using hj) e he
      omega)
    constructor
    · rw [List.flatten_cons, List.map_append, List.pairwise_append]
      refine ⟨?_, h1, ?_⟩
      · rw [List.pairwise_map]
        apply List.pairwise_of_forall_mem_list
        intro x hx y hy
        rw [hc x hx, hc y hy]
      · intro x hx y hy
        obtain ⟨e, he, rfl⟩ := List.mem_map.1 hx
        obtain ⟨e', he', rfl⟩ := List.mem_map.1 hy
        rw [hc e he]
        exact Nat.le_of_succ_le (h2 e' he')
    · intro e he
      rw [List.flatten_cons, List.mem_append] at he
      rcases he with he | he
      · rw [hc e he]
      · exact Nat.le_of_succ_le (h2 e he)

/-- The nodes of bucket `i + off` among all nodes are the chain `i`. -/
theorem flatten_filter_bucket (b : entry K V → Nat) (t : List (List (entry K V))) :
    ∀ off : Nat, (∀ j c, t[j]? = some c → ∀ e ∈ c, b e = j + off) →
      ∀ i, t.flatten.filter (fun e => decide (b e = i + off)) = t.getD i [] := by
  induction t with
  | nil =>
    intro off _ i
    simp
  | cons c t ih =>
    intro off h i
    have hc : ∀ e ∈ c, b e = off := by
      intro e he
      have := h 0 c (List.getElem?_cons_zero) e he
      omega
    have ht : ∀ j c', t[j]? = some c' → ∀ e ∈ c', b e = j + (off + 1) := by
      intro j c' hj e he
      have := h (j + 1) c' (by simpa using hj) e he
      omega
    rw [List.flatten_cons, List.filter_append]
    cases i with
    | zero =>
      have h1 : c.filter (fun e => decide (b e = 0 + off)) = c := by
        rw [List.filter_eq_self]
        intro e he
        simp [hc e he]
      have h2 : t.flatten.filter (fun e => decide (b e = 0 + off)) = [] := by
        rw [List.filter_eq_nil_iff]
        intro e he
        have := (flatten_bucket_sorted b t (off + 1) ht).2 e he
        simp only [decide_eq_true_eq]
        omega
      rw [h1, h2]
      simp
    | succ i =>
      have h1 : c.filter (fun e => decide (b e = i + 1 + off)) = [] := by
        rw [List.filter_eq_nil_iff]
        intro e he
        simp only [decide_eq_true_eq, hc e he]
        omega
      have h2 := ih (off + 1) ht i
      have h3 : (fun e => decide (b e = i + 1 + off)) = (fun e => decide (b e = i + (off + 1))) := by
        funext e
        congr 1
        rw [Nat.add_assoc, Nat.add_comm 1 off]
      rw [h1, h3, h2]
      simp

/-- In a chain without two equal keys the write of `gmap_put` changes every node
with an equal key, there being at most one. -/
theorem store_value_eq_map {m : gmap K V} (hl : Lawful m) (k : K) (v : VoidPtr V)
    (c : List (entry K V)) (hd : c.Pairwise (fun a b => m.compare a.key b.key ≠ 0)) :
    store_value m.compare k v c =
      c.map (fun e => if m.compare e.key k = 0 then { e with value := v } else e) := by
  induction c with
  | nil => rfl
  | cons a t ih =>
    rw [List.pairwise_cons] at hd
    unfold store_value
    by_cases ha : m.compare a.key k = 0
    · simp only [ha, ne_eq, not_true_eq_false, if_false, List.map_cons, if_true]
      congr 1
      symm
      conv_rhs => rw [← List.map_id t]
      apply List.map_congr_left
      intro x hx
      have : m.compare x.key k ≠ 0 := fun h0 =>
        hd.1 x hx (hl.trans _ _ _ ha (hl.symm _ _ h0))
      simp [this]
    · simp only [ne_eq, ha, not_false_eq_true, if_true, List.map_cons, if_false]
      rw [ih hd.2]

theorem chain_pairwise {m : gmap K V} (hw : WF m) {i : Nat} {c : List (entry K V)}
    (h : m.table[i]? = some c) : c.Pairwise (fun a b => m.compare a.key b.key ≠ 0) :=
  (List.pairwise_flatten.1 hw.distinct).1 c (List.getElem?_mem h)

theorem mem_of_in_order {m : gmap K V} (hw : WF m) {l : List (entry K V)}
    (ho : ChainsInOrder m l) {e : entry K V} (he : e ∈ l) : e ∈ entries m := by
  have hi : gmap_compute_index e.key m.hash m.capacity < m.capacity :=
    Nat.mod_lt _ hw.cap_pos
  apply mem_entries_of_getElem? (ho _ hi)
  rw [List.mem_filter]
  exact ⟨he, by simp⟩

theorem same_bucket_of_equal {m : gmap K V} (hl : Lawful m) {a k : K}
    (h : m.compare a k = 0) :
    gmap_compute_index a m.hash m.capacity = gmap_compute_index k m.hash m.capacity := by
  unfold gmap_compute_index
  rw [hl.hash_eq _ _ h]

/-- A put on a stored key keeps every chain in the order of insertion. -/
theorem in_order_put_present {m m' : gmap K V} (hw : WF m) (hl : Lawful m)
    {l : List (entry K V)} (ho : ChainsInOrder m l) {k : K} {e0 : entry K V}
    (hf : gmap_table_find_key m.table k m.hash m.compare m.capacity = some e0)
    (v : VoidPtr V) (copied : Option K)
    (ht : m'.table = m.table.set (gmap_compute_index k m.hash m.capacity)
      (store_value m.compare k v (m.table.getD (gmap_compute_index k m.hash m.capacity) [])))
    (hh : m'.hash = m.hash) (hc : m'.capacity = m.capacity) :
    ChainsInOrder m' (recency_put m.compare copied k v l) := by
  have hk := (find_iff hw hl k e0).1 hf
  have hi := index_lt hw k
  have hik : gmap_compute_index k m.hash m.capacity < m.capacity := Nat.mod_lt _ hw.cap_pos
  have hchain := ho _ hik
  have he0l : e0 ∈ l := by
    have := mem_chain_of_mem_entries hw hl hk.1 hk.2
    rw [getD_of_getElem? hchain] at this
    exact (List.mem_filter.1 this).1
  have hany : l.any (fun e => decide (m.compare e.key k = 0)) = true := by
    rw [List.any_eq_true]
    exact ⟨e0, he0l, by simp [hk.2]⟩
  unfold recency_put
  rw [if_pos hany]
  intro i hilt
  rw [hc] at hilt
  rw [ht, hh, hc, List.getElem?_set, List.filter_map]
  have hcomp : ((fun e : entry K V => decide (gmap_compute_index e.key m.hash m.capacity = i)) ∘
      fun e => if m.compare e.key k = 0 then { e with value := v } else e) =
      (fun e : entry K V => decide (gmap_compute_index e.key m.hash m.capacity = i)) := by
    funext e
    simp only [Function.comp]
    split <;> rfl
  rw [hcomp]
  by_cases hii : gmap_compute_index k m.hash m.capacity = i
  · rw [if_pos hii, if_pos hi]
    subst hii
    rw [getD_of_getElem? hchain, store_value_eq_map hl k v _ (chain_pairwise hw hchain)]
  · rw [if_neg hii, ho i hilt]
    congr 1
    conv_lhs => rw [← List.map_id (List.filter _ l)]
    apply List.map_congr_left
    intro x hx
    have hbx := (List.mem_filter.1 hx).2
    simp only [decide_eq_true_eq] at hbx
    have : m.compare x.key k ≠ 0 := by
      intro h0
      apply hii
      rw [← same_bucket_of_equal hl h0, hbx]
    simp [this]

/-- A put that links a new node into its chain keeps every chain in the order of
insertion, the new entry being the most recent one. -/
theorem in_order_put_absent {m m' : gmap K V} (hw : WF m)
    {l : List (entry K V)} (ho : ChainsInOrder m l) (n : entry K V)
    (ht : m'.table = gmap_table_add m.table n m.hash m.capacity)
    (hh : m'.hash = m.hash) (hc : m'.capacity = m.capacity) :
    ChainsInOrder m' (n :: l) := by
  intro i hilt
  rw [hc] at hilt
  have hin : gmap_compute_index n.key m.hash m.capacity < m.capacity :=
    Nat.mod_lt _ hw.cap_pos
  rw [ht, hh, hc]
  unfold gmap_table_add
  simp only []
  rw [List.getElem?_set, List.filter_cons]
  by_cases hii : gmap_compute_index n.key m.hash m.capacity = i
  · rw [if_pos hii, if_pos (by rw [hw.len]; exact hin), getD_of_getElem? (ho _ hin)]
    subst hii
    simp
  · rw [if_neg hii, ho i hilt]
    simp [hii]

/-- Unlinking a node keeps every chain in the order of insertion. -/
theorem in_order_remove {m m' : gmap K V} (hw : WF m) (hl : Lawful m)
    {l : List (entry K V)} (ho : ChainsInOrder m l) {k : K}
    {before after : List (entry K V)} {e0 : entry K V}
    (hch : m.table.getD (gmap_compute_index k m.hash m.capacity) [] = before ++ e0 :: after)
    (hb : ∀ x ∈ before, m.compare x.key k ≠ 0) (he : m.compare e0.key k = 0)
    (ht : m'.table = m.table.set (gmap_compute_index k m.hash m.capacity) (before ++ after))
    (hh : m'.hash = m.hash) (hc : m'.capacity = m.capacity) :
    ChainsInOrder m' (recency_remove m.compare k l) := by
  have hi := index_lt hw k
  have hik : gmap_compute_index k m.hash m.capacity < m.capacity := Nat.mod_lt _ hw.cap_pos
  have hchain := ho _ hik
  have hpw := chain_pairwise hw (getElem?_getD hi)
  rw [hch, List.pairwise_append] at hpw
  have hafter : ∀ x ∈ after, m.compare x.key k ≠ 0 := by
    intro x hx h0
    exact (List.pairwise_cons.1 hpw.2.1).1 x hx (hl.trans _ _ _ he (hl.symm _ _ h0))
  unfold recency_remove
  intro i hilt
  rw [hc] at hilt
  rw [ht, hh, hc, List.getElem?_set, List.filter_filter]
  have hswap : l.filter (fun a => decide (gmap_compute_index a.key m.hash m.capacity = i) &&
      decide (m.compare a.key k ≠ 0)) =
      (l.filter (fun e => decide (gmap_compute_index e.key m.hash m.capacity = i))).filter
        (fun e => decide (m.compare e.key k ≠ 0)) := by
    rw [List.filter_filter]
    apply List.filter_congr
    intro x _
    exact Bool.and_comm _ _
  rw [hswap]
  by_cases hii : gmap_compute_index k m.hash m.capacity = i
  · rw [if_pos hii, if_pos hi]
    subst hii
    have hcl := getD_of_getElem? hchain
    rw [hch] at hcl
    rw [← hcl, List.filter_append, List.filter_cons]
    have h1 : before.filter (fun e => decide (m.compare e.key k ≠ 0)) = before := by
      rw [List.filter_eq_self]
      intro x hx
      simp [hb x hx]
    have h2 : after.filter (fun e => decide (m.compare e.key k ≠ 0)) = after := by
      rw [List.filter_eq_self]
      intro x hx
      simp [hafter x hx]
    rw [h1, h2]
    simp [he]
  · rw [if_neg hii, ho i hilt]
    congr 1
    symm
    rw [List.filter_eq_self]
    intro x hx
    have hbx := (List.mem_filter.1 hx).2
    simp only [decide_eq_true_eq] at hbx
    have : m.compare x.key k ≠ 0 := by
      intro h0
      apply hii
      rw [← same_bucket_of_equal hl h0, hbx]
    simp [this]

theorem in_order_create (n : Nat) (h : K → Nat) (i : Nat) (hi : i < n) :
    (List.replicate n ([] : List (entry K V)))[i]? =
      some (([] : List (entry K V)).filter
        (fun e => decide (gmap_compute_index e.key h n = i))) := by
  rw [List.getElem?_replicate, if_pos hi]
  rfl

/-- A map reached without a resize is reachable, has the initial capacity, and its
chains are in the order of insertion. -/
theorem unresized_spec {m : gmap K V} {l : List (entry K V)} (h : ReachedUnresized m l) :
    Reachable m ∧ m.capacity = GMAP_INITIAL_CAPACITY ∧ ChainsInOrder m l := by
  induction h with
  | create cp comp h f m hm hl =>
    refine ⟨Reachable.create cp comp h f m hm hl, ?_, ?_⟩
    · rw [create_eq hm]
    · rw [create_eq hm]
      intro i hi
      exact in_order_create _ _ i hi
  | put m m' l k v _ hcond hput ih =>
    obtain ⟨hr, hcap, ho⟩ := ih
    obtain ⟨hw, hl⟩ := reachable_wf hr
    have hfit : m.capacity * 2 < SIZE_T_MOD := by
      rw [hcap]
      decide
    refine ⟨Reachable.put m m' (some k) v true hr hfit hput, ?_, ?_⟩
    · rw [put_capacity hw hl hfit hput, if_neg, hcap]
      rintro ⟨h1, h2, h3⟩
      rcases hcond with hc | ⟨_, hc⟩
      · rw [h1] at hc
        cases hc
      · omega
    · cases hf : gmap_table_find_key m.table k m.hash m.compare m.capacity with
      | some e0 =>
        simp only [gmap_put, hf, Option.some.injEq] at hput
        subst hput
        exact in_order_put_present hw hl ho hf v (m.copy k) rfl rfl rfl
      | none =>
        have hct : gmap_contains_key m k = false := by simp [gmap_contains_key, hf]
        rcases hcond with hc | ⟨hc, hroom⟩
        · rw [hct] at hc
          cases hc
        · obtain ⟨kc, hkc⟩ := Option.isSome_iff_exists.1 hc
          have hno : ¬ m.size ≥ m.capacity := Nat.not_le.2 hroom
          simp only [gmap_put, hf, hkc, if_neg hno, if_true, Option.some.injEq] at hput
          subst hput
          have habs := (find_none_iff hw hl k).1 hf
          have hany : l.any (fun e => decide (m.compare e.key k = 0)) = false := by
            rw [List.any_eq_false]
            intro x hx
            simp [habs x (mem_of_in_order hw ho hx)]
          have hrec : recency_put m.compare (m.copy k) k v l = { key := kc, value := v } :: l := by
            unfold recency_put
            rw [hany, hkc]
            simp
          rw [hrec]
          exact in_order_put_absent hw ho _ rfl rfl rfl
  | remove m m' l k _ hrem ih =>
    obtain ⟨hr, hcap, ho⟩ := ih
    obtain ⟨hw, hl⟩ := reachable_wf hr
    refine ⟨Reachable.remove m m' (some k) hr hrem, ?_, ?_⟩
    · rw [remove_capacity hw hl hrem, hcap]
    · cases hf : gmap_table_find_key m.table k m.hash m.compare m.capacity with
      | some e0 =>
        have hf' := hf
        unfold gmap_table_find_key at hf'
        obtain ⟨before, after, hc, hb, he⟩ := find_key_loop_some hf'
        have hrl := remove_loop_split before after e0 hb he
        rw [← hc] at hrl
        cases before with
        | nil =>
          simp only [gmap_remove, hrl, Option.some.injEq] at hrem
          subst hrem
          exact in_order_remove hw hl ho hc hb he rfl rfl rfl
        | cons b bs =>
          simp only [gmap_remove, hrl, Option.some.injEq] at hrem
          subst hrem
          exact in_order_remove hw hl ho hc hb he rfl rfl rfl
      | none =>
        rw [remove_absent hf] at hrem
        simp only [Option.some.injEq] at hrem
        subst hrem
        have habs := (find_none_iff hw hl k).1 hf
        have : recency_remove m.compare k l = l := by
          unfold recency_remove
          rw [List.filter_eq_self]
          intro x hx
          simp [habs x (mem_of_in_order hw ho hx)]
        rw [this]
        exact ho

theorem visits_sorted {m : gmap K V} (hw : WF m) :
    ((visits m).map (fun p => gmap_compute_index p.1 m.hash m.capacity)).Pairwise
      (fun x y => x ≤ y) := by
  rw [visits_eq hw.len, List.map_map]
  exact (flatten_bucket_sorted (fun e => gmap_compute_index e.key m.hash m.capacity)
    m.table 0 (fun j c hj e he => hw.placed j c hj e he)).1

/-- C18, amended: `gmap_for_each` visits the entries of every reachable map in
ascending bucket index `hash(key) mod capacity`; and for every map reached from a
fresh map by successful puts and by removes none of which resized the table, it
visits the entries of one bucket in the order most recently inserted first, where
an entry is inserted by the put that creates it and keeps its place when its value
is replaced. -/
theorem for_each_order (m : gmap K V) (l : List (entry K V)) (h : ReachedUnresized m l) :
    ((visits m).map (fun p => gmap_compute_index p.1 m.hash m.capacity)).Pairwise
      (fun x y => x ≤ y) ∧
    (∀ i, (visits m).filter (fun p => decide (gmap_compute_index p.1 m.hash m.capacity = i)) =
      (l.filter (fun e => decide (gmap_compute_index e.key m.hash m.capacity = i))).map
        (fun e => (e.key, e.value))) ∧
    (∀ e, e ∈ l ↔ e ∈ entries m) ∧
    ∀ m2 : gmap K V, Reachable m2 →
      ((visits m2).map (fun p => gmap_compute_index p.1 m2.hash m2.capacity)).Pairwise
        (fun x y => x ≤ y) := by
  obtain ⟨hr, _, ho⟩ := unresized_spec h
  obtain ⟨hw, hl⟩ := reachable_wf hr
  refine ⟨visits_sorted hw, ?_, ?_, fun m2 hr2 => visits_sorted (reachable_wf hr2).1⟩
  · intro i
    rw [visits_eq hw.len, List.filter_map]
    congr 1
    have hfl := flatten_filter_bucket (fun e => gmap_compute_index e.key m.hash m.capacity)
      m.table 0 (fun j c hj e he => hw.placed j c hj e he) i
    simp only [Nat.add_zero] at hfl
    by_cases hi : i < m.capacity
    · rw [← getD_of_getElem? (ho i hi), ← hfl]
      rfl
    · have h1 : m.table.getD i [] = [] := by
        rw [List.getD_eq_getElem?_getD, List.getElem?_eq_none (by rw [hw.len]; omega)]
        rfl
      have h2 : l.filter (fun e => decide (gmap_compute_index e.key m.hash m.capacity = i))
          = [] := by
        rw [List.filter_eq_nil_iff]
        intro e _
        have : gmap_compute_index e.key m.hash m.capacity < m.capacity :=
          Nat.mod_lt _ hw.cap_pos
        simp only [decide_eq_true_eq]
        omega
      rw [h2, ← h1, ← hfl]
      rfl
  · intro e
    constructor
    · exact mem_of_in_order hw ho
    · intro he
      obtain ⟨c, hc, hec⟩ := List.mem_flatten.1 he
      obtain ⟨j, hj⟩ := List.mem_iff_getElem?.1 hc
      have hjlt : j < m.capacity := by
        rw [← hw.len]
        exact (List.getElem?_eq_some.1 hj).1
      rw [ho j hjlt, Option.some.injEq] at hj
      rw [← hj] at hec
      exact (List.mem_filter.1 hec).1

theorem resized_map_reachable : Reachable resized_map := by
  obtain ⟨m', h1, h2⟩ := put_all_reachable resize_run nat_map nat_map_reachable
    (fun _ _ => rfl) (Nat.le_max_left _ _)
    (by simp [resize_run, SIZE_T_MOD, nat_map])
  have : resized_map = m' := by
    unfold resized_map
    rw [h1]
    rfl
  rw [this]
  exact h2

set_option maxRecDepth 100000 in
/-- C18 as stated fails: in the run `resize_run` on a fresh map the key 1 is inserted
before the key 201, neither is replaced or removed, and the last put resizes the
table to 200 buckets; both keys lie in bucket 1, and `gmap_for_each` visits the key
1 before the key 201, the earlier insertion first. -/
theorem for_each_order_after_resize :
    Reachable resized_map ∧ resized_map.capacity = 200 ∧
    ((visits resized_map).map Prod.fst).filter
      (fun k => decide (gmap_compute_index k nat_hash 200 = 1)) = [1, 201] ∧
    ((recency_all nat_compare nat_copy [] resize_run).map entry.key).filter
      (fun k => decide (gmap_compute_index k nat_hash 200 = 1)) = [201, 1] :=
  ⟨resized_map_reachable, by decide, by decide, by decide⟩

theorem nat_map3_unresized :
    ReachedUnresized nat_map3
      [{ key := 201, value := VoidPtr.addr 30 }, { key := 101, value := VoidPtr.addr 20 },
       { key := 1, value := VoidPtr.addr 10 }] := by
  have h0 : ReachedUnresized nat_map [] :=
    ReachedUnresized.create nat_copy nat_compare nat_hash nat_free nat_map rfl nat_map_lawful
  have h1 : ReachedUnresized nat_map1 [{ key := 1, value := VoidPtr.addr 10 }] :=
    ReachedUnresized.put nat_map nat_map1 [] 1 (VoidPtr.addr 10) h0 (by decide) rfl
  have h2 : ReachedUnresized nat_map2
      [{ key := 101, value := VoidPtr.addr 20 }, { key := 1, value := VoidPtr.addr 10 }] :=
    ReachedUnresized.put nat_map1 nat_map2 _ 101 (VoidPtr.addr 20) h1 (by decide) rfl
  exact ReachedUnresized.put nat_map2 nat_map3 _ 201 (VoidPtr.addr 30) h2 (by decide) rfl

theorem for_each_order_witness :
    ReachedUnresized nat_map3
      [{ key := 201, value := VoidPtr.addr 30 }, { key := 101, value := VoidPtr.addr 20 },
       { key := 1, value := VoidPtr.addr 10 }] ∧
    (((visits nat_map3).map
      (fun p => gmap_compute_index p.1 nat_map3.hash nat_map3.capacity)).Pairwise
      (fun x y => x ≤ y) ∧
    (∀ i, (visits nat_map3).filter
        (fun p => decide (gmap_compute_index p.1 nat_map3.hash nat_map3.capacity = i)) =
      (([{ key := 201, value := VoidPtr.addr 30 }, { key := 101, value := VoidPtr.addr 20 },
        { key := 1, value := VoidPtr.addr 10 }] : List (entry Nat Nat)).filter
        (fun e => decide (gmap_compute_index e.key nat_map3.hash nat_map3.capacity = i))).map
        (fun e => (e.key, e.value))) ∧
    (∀ e, e ∈ ([{ key := 201, value := VoidPtr.addr 30 }, { key := 101, value := VoidPtr.addr 20 },
        { key := 1, value := VoidPtr.addr 10 }] : List (entry Nat Nat)) ↔ e ∈ entries nat_map3) ∧
    ∀ m2 : gmap Nat Nat, Reachable m2 →
      ((visits m2).map (fun p => gmap_compute_index p.1 m2.hash m2.capacity)).Pairwise
        (fun x y => x ≤ y)) :=
  ⟨nat_map3_unresized, for_each_order nat_map3 _ nat_map3_unresized⟩

/-! ### Writes through result pointers -/

theorem modify_result_addr {heap : List result} {a : Nat} {r : result}
    (h : heap[a]? = some r) (f : result → result) :
    modify_result heap (VoidPtr.addr a) f = some (heap.set a (f r)) := by
  simp only [modify_result, h]

/-- A sequence of writes through two pointers to different structs changes these two
structs and nothing else. -/
theorem modify_all_two {a1 a2 : Nat} (hne : a1 ≠ a2)
    (ws : List (VoidPtr Nat × (result → result)))
    (hws : ∀ w ∈ ws, w.1 = VoidPtr.addr a1 ∨ w.1 = VoidPtr.addr a2) :
    ∀ (heap : List result) (r1 r2 : result), heap[a1]? = some r1 → heap[a2]? = some r2 →
      ∃ heap', modify_all heap ws = some heap' ∧ heap'.length = heap.length ∧
        heap'[a1]? = some (writes_through (VoidPtr.addr a1) ws r1) ∧
        heap'[a2]? = some (writes_through (VoidPtr.addr a2) ws r2) ∧
        ∀ a, a ≠ a1 → a ≠ a2 → heap'[a]? = heap[a]? := by
  induction ws with
  | nil =>
    intro heap r1 r2 h1 h2
    exact ⟨heap, rfl, rfl, h1, h2, fun _ _ _ => rfl⟩
  | cons w ws ih =>
    intro heap r1 r2 h1 h2
    have hlt1 : a1 < heap.length := (List.getElem?_eq_some.1 h1).1
    have hlt2 : a2 < heap.length := (List.getElem?_eq_some.1 h2).1
    have hws' : ∀ w ∈ ws, w.1 = VoidPtr.addr a1 ∨ w.1 = VoidPtr.addr a2 :=
      fun x hx => hws x (List.mem_cons_of_mem _ hx)
    rcases hws w (List.mem_cons_self _ _) with hw | hw
    · have hstep := modify_result_addr h1 w.2
      have g1 : (heap.set a1 (w.2 r1))[a1]? = some (w.2 r1) := by
        rw [List.getElem?_set, if_pos rfl, if_pos hlt1]
      have g2 : (heap.set a1 (w.2 r1))[a2]? = some r2 := by
        rw [List.getElem?_set, if_neg hne, h2]
      obtain ⟨heap', e1, e2, e3, e4, e5⟩ := ih hws' _ _ _ g1 g2
      refine ⟨heap', ?_, ?_, ?_, ?_, ?_⟩
      · rw [modify_all, hw, hstep]
        exact e1
      · rw [e2, List.length_set]
      · rw [e3]
        simp [writes_through, hw]
      · rw [e4]
        have : (VoidPtr.addr a1 : VoidPtr Nat) ≠ VoidPtr.addr a2 := fun h => hne (by cases h; rfl)
        simp [writes_through, hw, this]
      · intro a ha1 ha2
        rw [e5 a ha1 ha2, List.getElem?_set, if_neg (Ne.symm ha1)]
    · have hstep := modify_result_addr h2 w.2
      have g1 : (heap.set a2 (w.2 r2))[a1]? = some r1 := by
        rw [List.getElem?_set, if_neg (Ne.symm hne), h1]
      have g2 : (heap.set a2 (w.2 r2))[a2]? = some (w.2 r2) := by
        rw [List.getElem?_set, if_pos rfl, if_pos hlt2]
      obtain ⟨heap', e1, e2, e3, e4, e5⟩ := ih hws' _ _ _ g1 g2
      refine ⟨heap', ?_, ?_, ?_, ?_, ?_⟩
      · rw [modify_all, hw, hstep]
        exact e1
      · rw [e2, List.length_set]
      · rw [e3]
        have : (VoidPtr.addr a2 : VoidPtr Nat) ≠ VoidPtr.addr a1 :=
          fun h => hne (by cases h; rfl)
        simp [writes_through, hw, this]
      · rw [e4]
        simp [writes_through, hw]
      · intro a ha1 ha2
        rw [e5 a ha1 ha2, List.getElem?_set, if_neg (Ne.symm ha2)]

theorem modify_all_single (heap : List result) (p : VoidPtr Nat) (f : result → result) :
    modify_all heap [(p, f)] = modify_result heap p f := by
  simp only [modify_all]
  cases modify_result heap p f <;> rfl

theorem addr_ne {a1 a2 : Nat} (hne : a1 ≠ a2) :
    (VoidPtr.addr a1 : VoidPtr Nat) ≠ VoidPtr.addr a2 :=
  fun h => hne (by cases h; rfl)

/-- One battlefield adds its points to the matchup scores of the two players. -/
theorem play_battlefield_spec {pm : gmap CString Nat} {id1 id2 : CString} {a1 a2 : Nat}
    (hne : a1 ≠ a2) (hg1 : gmap_get (some pm) (some id1) = VoidPtr.addr a1)
    (hg2 : gmap_get (some pm) (some id2) = VoidPtr.addr a2) (d1 d2 : List Int)
    (w : Nat → ℚ) (heap : List result) (r1 r2 : result)
    (h1 : heap[a1]? = some r1) (h2 : heap[a2]? = some r2) (i : Nat)
    (hi1 : i < d1.length) (hi2 : i < d2.length) :
    ∃ heap', play_battlefield pm id1 id2 (VoidPtr.addr d1) (VoidPtr.addr d2) w heap i
        = some heap' ∧
      heap'.length = heap.length ∧
      heap'[a1]? = some { r1 with score := r1.score + battle_points w d1 d2 i } ∧
      heap'[a2]? = some { r2 with score := r2.score + battle_points w d2 d1 i } ∧
      ∀ a, a ≠ a1 → a ≠ a2 → heap'[a]? = heap[a]? := by
  have e1 : d1[i]? = some (d1.getD i 0) := by
    simp [List.getD_eq_getElem?_getD, List.getElem?_eq_getElem hi1]
  have e2 : d2[i]? = some (d2.getD i 0) := by
    simp [List.getD_eq_getElem?_getD, List.getElem?_eq_getElem hi2]
  have hn12 := addr_ne hne
  have hn21 := addr_ne (Ne.symm hne)
  unfold play_battlefield
  simp only [read_int, e1, e2, hg1, hg2]
  rcases lt_trichotomy (d1.getD i 0) (d2.getD i 0) with hlt | heq | hgt
  · have n1 : ¬ d1.getD i 0 > d2.getD i 0 := not_lt.2 (le_of_lt hlt)
    have n2 : ¬ d1.getD i 0 = d2.getD i 0 := ne_of_lt hlt
    have b12 : battle_points w d1 d2 i = 0 := by
      unfold battle_points
      rw [if_neg n1, if_neg n2]
    have b21 : battle_points w d2 d1 i = w i := by
      unfold battle_points
      rw [if_pos hlt]
    obtain ⟨heap', k1, k2, k3, k4, k5⟩ := modify_all_two hne
      [(VoidPtr.addr a2, fun game2 : result => { game2 with score := game2.score + w i })]
      (by simp) heap r1 r2 h1 h2
    rw [modify_all_single] at k1
    refine ⟨heap', ?_, k2, ?_, ?_, k5⟩
    · simp only [if_neg n1, if_neg n2, if_pos hlt, Option.some_bind, k1]
    · rw [k3, b12]
      simp [writes_through, hn21]
    · rw [k4, b21]
      simp [writes_through]
  · have n1 : ¬ d1.getD i 0 > d2.getD i 0 := by rw [heq]; exact lt_irrefl _
    have n2 : ¬ d1.getD i 0 < d2.getD i 0 := by rw [heq]; exact lt_irrefl _
    have b12 : battle_points w d1 d2 i = w i / 2 := by
      unfold battle_points
      rw [if_neg n1, if_pos heq]
    have b21 : battle_points w d2 d1 i = w i / 2 := by
      unfold battle_points
      rw [if_neg n2, if_pos heq.symm]
    obtain ⟨heap', k1, k2, k3, k4, k5⟩ := modify_all_two hne
      [(VoidPtr.addr a1, fun game1 : result => { game1 with score := game1.score + w i / 2 }),
       (VoidPtr.addr a2, fun game2 : result => { game2 with score := game2.score + w i / 2 })]
      (by simp) heap r1 r2 h1 h2
    refine ⟨heap', ?_, k2, ?_, ?_, k5⟩
    · simp only [if_neg n1, if_pos heq, if_neg n2, Option.some_bind, k1]
    · rw [k3, b12]
      simp [writes_through, hn21]
    · rw [k4, b21]
      simp [writes_through, hn12]
  · have n2 : ¬ d1.getD i 0 = d2.getD i 0 := ne_of_gt hgt
    have n3 : ¬ d1.getD i 0 < d2.getD i 0 := not_lt.2 (le_of_lt hgt)
    have b12 : battle_points w d1 d2 i = w i := by
      unfold battle_points
      rw [if_pos hgt]
    have b21 : battle_points w d2 d1 i = 0 := by
      unfold battle_points
      rw [if_neg n3, if_neg (fun h => n2 h.symm)]
    obtain ⟨heap', k1, k2, k3, k4, k5⟩ := modify_all_two hne
      [(VoidPtr.addr a1, fun game1 : result => { game1 with score := game1.score + w i })]
      (by simp) heap r1 r2 h1 h2
    rw [modify_all_single] at k1
    refine ⟨heap', ?_, k2, ?_, ?_, k5⟩
    · simp only [if_pos hgt, if_neg n2, if_neg n3, k1, Option.some_bind]
    · rw [k3, b12]
      simp [writes_through]
    · rw [k4, b21]
      simp [writes_through, hn12]

/-- The battlefield loop adds the points of its battlefields to the matchup scores. -/
theorem play_battlefields_spec {pm : gmap CString Nat} {id1 id2 : CString} {a1 a2 : Nat}
    (hne : a1 ≠ a2) (hg1 : gmap_get (some pm) (some id1) = VoidPtr.addr a1)
    (hg2 : gmap_get (some pm) (some id2) = VoidPtr.addr a2) (d1 d2 : List Int)
    (w : Nat → ℚ) (is : List Nat) (his : ∀ i ∈ is, i < d1.length ∧ i < d2.length) :
    ∀ (heap : List result) (r1 r2 : result), heap[a1]? = some r1 → heap[a2]? = some r2 →
      ∃ heap', play_battlefields pm id1 id2 (VoidPtr.addr d1) (VoidPtr.addr d2) w is heap
          = some heap' ∧
        heap'.length = heap.length ∧
        heap'[a1]? = some { r1 with score := r1.score + (is.map (battle_points w d1 d2)).sum } ∧
        heap'[a2]? = some { r2 with score := r2.score + (is.map (battle_points w d2 d1)).sum } ∧
        ∀ a, a ≠ a1 → a ≠ a2 → heap'[a]? = heap[a]? := by
  induction is with
  | nil =>
    intro heap r1 r2 h1 h2
    refine ⟨heap, rfl, rfl, ?_, ?_, fun _ _ _ => rfl⟩
    · rw [h1]
      simp
    · rw [h2]
      simp
  | cons i is ih =>
    intro heap r1 r2 h1 h2
    obtain ⟨hi1, hi2⟩ := his i (List.mem_cons_self _ _)
    obtain ⟨hp, k1, k2, k3, k4, k5⟩ :=
      play_battlefield_spec hne hg1 hg2 d1 d2 w heap r1 r2 h1 h2 i hi1 hi2
    obtain ⟨heap', j1, j2, j3, j4, j5⟩ :=
      ih (fun x hx => his x (List.mem_cons_of_mem _ hx)) hp _ _ k3 k4
    refine ⟨heap', ?_, ?_, ?_, ?_, ?_⟩
    · rw [play_battlefields, k1]
      exact j1
    · rw [j2, k2]
    · rw [j3]
      simp [add_assoc]
    · rw [j4]
      simp [add_assoc]
    · intro a ha1 ha2
      rw [j5 a ha1 ha2, k5 a ha1 ha2]

theorem battle_points_sum (w : Nat → ℚ) (d1 d2 : List Int) (is : List Nat) :
    (is.map (battle_points w d1 d2)).sum =
      ((is.filter (fun i => decide (d1.getD i 0 > d2.getD i 0))).map w).sum +
      ((is.filter (fun i => decide (d1.getD i 0 = d2.getD i 0))).map
        (fun i => w i / 2)).sum := by
  induction is with
  | nil => simp
  | cons i is ih =>
    rw [List.map_cons, List.sum_cons, ih, List.filter_cons, List.filter_cons]
    rcases lt_trichotomy (d1.getD i 0) (d2.getD i 0) with hlt | heq | hgt
    · have n1 : ¬ d1.getD i 0 > d2.getD i 0 := not_lt.2 (le_of_lt hlt)
      have n2 : ¬ d1.getD i 0 = d2.getD i 0 := ne_of_lt hlt
      have b : battle_points w d1 d2 i = 0 := by
        unfold battle_points
        rw [if_neg n1, if_neg n2]
      rw [b, if_neg (by simpa using n1), if_neg (by simpa using n2), zero_add]
    · have n1 : ¬ d1.getD i 0 > d2.getD i 0 := by rw [heq]; exact lt_irrefl _
      have b : battle_points w d1 d2 i = w i / 2 := by
        unfold battle_points
        rw [if_neg n1, if_pos heq]
      rw [b, if_neg (by simpa using n1), if_pos (by simpa using heq), List.map_cons,
        List.sum_cons]
      ring
    · have n2 : ¬ d1.getD i 0 = d2.getD i 0 := ne_of_gt hgt
      have b : battle_points w d1 d2 i = w i := by
        unfold battle_points
        rw [if_pos hgt]
      rw [b, if_pos (by simpa using hgt), if_neg (by simpa using n2), List.map_cons,
        List.sum_cons]
      ring

theorem matchup_score_eq (w : Nat → ℚ) (d1 d2 : List Int) (n : Nat) :
    ((List.range n).map (battle_points w d1 d2)).sum = matchup_score w d1 d2 n :=
  battle_points_sum w d1 d2 (List.range n)

/-- The end of a matchup for two players with different structs. -/
theorem settle_matchup_spec {pm : gmap CString Nat} {id1 id2 : CString} {a1 a2 : Nat}
    (hne : a1 ≠ a2) (hg1 : gmap_get (some pm) (some id1) = VoidPtr.addr a1)
    (hg2 : gmap_get (some pm) (some id2) = VoidPtr.addr a2)
    (heap : List result) (r1 r2 : result)
    (h1 : heap[a1]? = some r1) (h2 : heap[a2]? = some r2) :
    ∃ heap', settle_matchup pm id1 id2 heap = some heap' ∧ heap'.length = heap.length ∧
      heap'[a1]? = some { r1 with overall_score := r1.overall_score + r1.score,
                                  wins := r1.wins + win_credit r1.score r2.score,
                                  games := r1.games + 1, score := 0 } ∧
      heap'[a2]? = some { r2 with overall_score := r2.overall_score + r2.score,
                                  wins := r2.wins + win_credit r2.score r1.score,
                                  games := r2.games + 1, score := 0 } ∧
      ∀ a, a ≠ a1 → a ≠ a2 → heap'[a]? = heap[a]? := by
  have hn12 := addr_ne hne
  have hn21 := addr_ne (Ne.symm hne)
  obtain ⟨hA, k1, k2, k3, k4, k5⟩ := modify_all_two hne
    [(VoidPtr.addr a1, fun r : result => { r with overall_score := r.overall_score + r.score }),
     (VoidPtr.addr a2, fun r : result => { r with overall_score := r.overall_score + r.score })]
    (by simp) heap r1 r2 h1 h2
  have k3' : hA[a1]? = some { r1 with overall_score := r1.overall_score + r1.score } := by
    rw [k3]
    simp [writes_through, hn21]
  have k4' : hA[a2]? = some { r2 with overall_score := r2.overall_score + r2.score } := by
    rw [k4]
    simp [writes_through, hn12]
  unfold settle_matchup
  simp only [hg1, hg2, k1, Option.some_bind, read_result, k3', k4']
  rcases lt_trichotomy r1.score r2.score with hlt | heq | hgt
  · have n1 : ¬ r1.score > r2.score := not_lt.2 (le_of_lt hlt)
    have n2 : ¬ r1.score = r2.score := ne_of_lt hlt
    have c12 : win_credit r1.score r2.score = 0 := by
      unfold win_credit
      rw [if_neg n1, if_neg n2]
    have c21 : win_credit r2.score r1.score = 1 := by
      unfold win_credit
      rw [if_pos hlt]
    obtain ⟨hB, j1, j2, j3, j4, j5⟩ := modify_all_two hne
      [(VoidPtr.addr a2, fun r : result => { r with wins := r.wins + 1 }),
       (VoidPtr.addr a1, fun r : result => { r with games := r.games + 1 }),
       (VoidPtr.addr a2, fun r : result => { r with games := r.games + 1 }),
       (VoidPtr.addr a1, fun r : result => { r with score := 0 }),
       (VoidPtr.addr a2, fun r : result => { r with score := 0 })]
      (by simp) hA _ _ k3' k4'
    refine ⟨hB, ?_, ?_, ?_, ?_, ?_⟩
    · rw [if_neg n1, if_neg n2]
      exact j1
    · rw [j2, k2]
    · rw [j3, c12]
      simp [writes_through, hn21]
    · rw [j4, c21]
      simp [writes_through, hn12]
    · intro a ha1 ha2
      rw [j5 a ha1 ha2, k5 a ha1 ha2]
  · have n1 : ¬ r1.score > r2.score := by rw [heq]; exact lt_irrefl _
    have c12 : win_credit r1.score r2.score = 1 / 2 := by
      unfold win_credit
      rw [if_neg n1, if_pos heq]
    have c21 : win_credit r2.score r1.score = 1 / 2 := by
      unfold win_credit
      rw [if_neg (by rw [heq]; exact lt_irrefl _), if_pos heq.symm]
    obtain ⟨hB, j1, j2, j3, j4, j5⟩ := modify_all_two hne
      [(VoidPtr.addr a1, fun r : result => { r with wins := r.wins + 1 / 2 }),
       (VoidPtr.addr a2, fun r : result => { r with wins := r.wins + 1 / 2 }),
       (VoidPtr.addr a1, fun r : result => { r with games := r.games + 1 }),
       (VoidPtr.addr a2, fun r : result => { r with games := r.games + 1 }),
       (VoidPtr.addr a1, fun r : result => { r with score := 0 }),
       (VoidPtr.addr a2, fun r : result => { r with score := 0 })]
      (by simp) hA _ _ k3' k4'
    refine ⟨hB, ?_, ?_, ?_, ?_, ?_⟩
    · rw [if_neg n1, if_pos heq]
      exact j1
    · rw [j2, k2]
    · rw [j3, c12]
      simp [writes_through, hn21]
    · rw [j4, c21]
      simp [writes_through, hn12]
    · intro a ha1 ha2
      rw [j5 a ha1 ha2, k5 a ha1 ha2]
  · have n2 : ¬ r1.score = r2.score := ne_of_gt hgt
    have n3 : ¬ r1.score < r2.score := not_lt.2 (le_of_lt hgt)
    have c12 : win_credit r1.score r2.score = 1 := by
      unfold win_credit
      rw [if_pos hgt]
    have c21 : win_credit r2.score r1.score = 0 := by
      unfold win_credit
      rw [if_neg n3, if_neg (fun h => n2 h.symm)]
    obtain ⟨hB, j1, j2, j3, j4, j5⟩ := modify_all_two hne
      [(VoidPtr.addr a1, fun r : result => { r with wins := r.wins + 1 }),
       (VoidPtr.addr a1, fun r : result => { r with games := r.games + 1 }),
       (VoidPtr.addr a2, fun r : result => { r with games := r.games + 1 }),
       (VoidPtr.addr a1, fun r : result => { r with score := 0 }),
       (VoidPtr.addr a2, fun r : result => { r with score := 0 })]
      (by simp) hA _ _ k3' k4'
    refine ⟨hB, ?_, ?_, ?_, ?_, ?_⟩
    · rw [if_pos hgt]
      exact j1
    · rw [j2, k2]
    · rw [j3, c12]
      simp [writes_through, hn21]
    · rw [j4, c21]
      simp [writes_through, hn12]
    · intro a ha1 ha2
      rw [j5 a ha1 ha2, k5 a ha1 ha2]

/-! ### The registration of a player -/

theorem result_of_present {st : play_state} (hok : PointsOK st) {id : CString}
    (hc : gmap_contains_key st.point_map id = true) :
    ∃ a r, gmap_get (some st.point_map) (some id) = VoidPtr.addr a ∧ st.heap[a]? = some r ∧
      result_of st id = some r ∧ prior_result st id = r := by
  obtain ⟨hw, hl⟩ := reachable_wf hok.reach
  obtain ⟨e, he, hek⟩ := (contains_iff hw hl id).1 hc
  obtain ⟨a, hva, halt⟩ := hok.valid e he
  have hget : gmap_get (some st.point_map) (some id) = VoidPtr.addr a := by
    rw [(get_of_mem hw hl he hek).1, hva]
  have hr : st.heap[a]? = some (st.heap[a]) := List.getElem?_eq_getElem halt
  have hres : result_of st id = some (st.heap[a]) := by
    unfold result_of
    rw [hget]
    exact hr
  refine ⟨a, st.heap[a], hget, hr, hres, ?_⟩
  unfold prior_result
  rw [hres]
  rfl

theorem result_of_absent {st : play_state} (hok : PointsOK st) {id : CString}
    (hc : gmap_contains_key st.point_map id = false) :
    result_of st id = none ∧
      prior_result st id =
        { id := id, wins := 0, score := 0, overall_score := 0, games := 0 } := by
  obtain ⟨hw, hl⟩ := reachable_wf hok.reach
  have habs := (contains_false_iff hw hl id).1 hc
  have hget := (get_of_absent hw hl habs).1
  have hres : result_of st id = none := by
    unfold result_of
    rw [hget]
    rfl
  refine ⟨hres, ?_⟩
  unfold prior_result
  rw [hres]
  rfl

/-- The registration block keeps the invariant of the loop, gives the player a
struct (the one it had, or a zeroed one) and leaves the other players alone. -/
theorem register_player_spec {st : play_state} (hok : PointsOK st)
    (hfit : st.point_map.capacity * 2 < SIZE_T_MOD) {id : CString}
    (hcopy : (st.point_map.copy id).isSome = true) :
    PointsOK (register_player st id) ∧
    SameFunctions st.point_map (register_player st id).point_map ∧
    (register_player st id).point_map.capacity ≤ st.point_map.capacity * 2 ∧
    (∃ a, gmap_get (some (register_player st id).point_map) (some id) = VoidPtr.addr a ∧
      (register_player st id).heap[a]? = some (prior_result st id)) ∧
    (∀ (a : Nat) (r : result), st.heap[a]? = some r →
      (register_player st id).heap[a]? = some r) ∧
    (∀ id2, st.point_map.compare id id2 ≠ 0 →
      gmap_contains_key (register_player st id).point_map id2 =
        gmap_contains_key st.point_map id2 ∧
      gmap_get (some (register_player st id).point_map) (some id2) =
        gmap_get (some st.point_map) (some id2) ∧
      prior_result (register_player st id) id2 = prior_result st id2) := by
  obtain ⟨hw, hl⟩ := reachable_wf hok.reach
  cases hc : gmap_contains_key st.point_map id with
  | true =>
    have hst : register_player st id = st := by
      unfold register_player
      rw [hc]
      simp
    rw [hst]
    obtain ⟨a, r, hget, hr, _, hpr⟩ := result_of_present hok hc
    refine ⟨hok, SameFunctions.refl _, by omega, ⟨a, hget, by rw [hpr]; exact hr⟩,
      fun (a : Nat) (r : result) (h : st.heap[a]? = some r) => h,
      fun _ _ => ⟨rfl, rfl, rfl⟩⟩
  | false =>
    have hf := find_of_contains_false hc
    obtain ⟨kc, hkc⟩ := Option.isSome_iff_exists.1 hcopy
    obtain ⟨m', h1, hw', hs, _, hcap, hp⟩ :=
      put_absent hw hl hf hkc hfit (VoidPtr.addr st.heap.length)
    have hst : register_player st id =
        { point_map := m',
          heap := st.heap ++
            [{ id := id, wins := 0, score := 0, overall_score := 0, games := 0 }] } := by
      unfold register_player
      rw [hc, h1]
      rfl
    rw [hst]
    have hl' := hs.lawful hl
    have hnew : ({ key := kc, value := VoidPtr.addr st.heap.length } : entry CString Nat) ∈
        entries m' := hp.mem_iff.2 (List.mem_cons_self _ _)
    have hframe : ∀ id2, st.point_map.compare id id2 ≠ 0 →
        gmap_contains_key m' id2 = gmap_contains_key st.point_map id2 ∧
        gmap_get (some m') (some id2) = gmap_get (some st.point_map) (some id2) := by
      intro id2 hne
      have := get_congr_find (put_find_other hw hl hfit (by rw [h1]) hne)
      exact ⟨this.2, this.1⟩
    refine ⟨⟨?_, ?_, ?_, ?_⟩, hs, ?_, ⟨st.heap.length, ?_, ?_⟩, ?_, ?_⟩
    · exact Reachable.put st.point_map m' (some id) _ true hok.reach hfit (by rw [h1])
    · intro e he
      rcases List.mem_cons.1 (hp.mem_iff.1 he) with rfl | he
      · exact ⟨st.heap.length, rfl, by simp⟩
      · obtain ⟨a, ha, hlt⟩ := hok.valid e he
        exact ⟨a, ha, by simp; omega⟩
    · intro e1 he1 e2 he2 hv
      rcases List.mem_cons.1 (hp.mem_iff.1 he1) with rfl | he1
      · rcases List.mem_cons.1 (hp.mem_iff.1 he2) with rfl | he2
        · rfl
        · obtain ⟨a, ha, hlt⟩ := hok.valid e2 he2
          rw [ha] at hv
          simp only [VoidPtr.addr.injEq] at hv
          omega
      · rcases List.mem_cons.1 (hp.mem_iff.1 he2) with rfl | he2
        · obtain ⟨a, ha, hlt⟩ := hok.valid e1 he1
          rw [ha] at hv
          simp only [VoidPtr.addr.injEq] at hv
          omega
        · exact hok.inj e1 he1 e2 he2 hv
    · intro r hr
      rcases List.mem_append.1 hr with hr | hr
      · exact hok.zero r hr
      · rw [List.mem_singleton.1 hr]
    · rw [hcap]
      split <;> omega
    · exact (get_of_mem hw' hl' hnew (by rw [hs.compare]; exact hl.copy_eq _ _ hkc)).1
    · rw [(result_of_absent hok hc).2]
      simp
    · intro a r har
      have hlt : a < st.heap.length := (List.getElem?_eq_some.1 har).1
      show (st.heap ++ _)[a]? = some r
      rw [List.getElem?_append_left hlt]
      exact har
    · intro id2 hne
      obtain ⟨f1, f2⟩ := hframe id2 hne
      refine ⟨f1, f2, ?_⟩
      cases hc2 : gmap_contains_key st.point_map id2 with
      | true =>
        obtain ⟨a, r, hget, hr, _, hpr⟩ := result_of_present hok hc2
        rw [hpr]
        unfold prior_result result_of
        show (read_result (st.heap ++ _) (gmap_get (some m') (some id2))).getD _ = r
        rw [f2, hget]
        have hlt : a < st.heap.length := (List.getElem?_eq_some.1 hr).1
        simp only [read_result]
        rw [List.getElem?_append_left hlt, hr]
        rfl
      | false =>
        rw [(result_of_absent hok hc2).2]
        have habs := (contains_false_iff hw hl id2).1 hc2
        unfold prior_result result_of
        show (read_result (st.heap ++ _) (gmap_get (some m') (some id2))).getD _ = _
        rw [f2, (get_of_absent hw hl habs).1]
        rfl

/-! ### One matchup -/

theorem entry_of_get_addr {m : gmap CString Nat} (hw : WF m) (hl : Lawful m) {k : CString}
    {a : Nat} (h : gmap_get (some m) (some k) = VoidPtr.addr a) :
    ∃ e ∈ entries m, m.compare e.key k = 0 ∧ e.value = VoidPtr.addr a := by
  cases hf : gmap_table_find_key m.table k m.hash m.compare m.capacity with
  | none =>
    simp only [gmap_get, hf] at h
    cases h
  | some e =>
    simp only [gmap_get, hf] at h
    have := (find_iff hw hl k e).1 hf
    exact ⟨e, this.1, this.2, h⟩

theorem prior_score_zero {st : play_state} (hok : PointsOK st) (id : CString) :
    (prior_result st id).score = 0 := by
  cases hc : gmap_contains_key st.point_map id with
  | true =>
    obtain ⟨a, r, _, hr, _, hpr⟩ := result_of_present hok hc
    rw [hpr]
    exact hok.zero r (List.getElem?_mem hr)
  | false =>
    rw [(result_of_absent hok hc).2]

/-- One matchup line with two registered players of different identifiers. -/
theorem matchup_spec {all_players : gmap CString (List Int)} {battlefields : Nat}
    (w : Nat → ℚ) {st : play_state} {id1 id2 : CString} {d1 d2 : List Int}
    (hok : PointsOK st) (hfit : st.point_map.capacity * 4 < SIZE_T_MOD)
    (hc1 : (st.point_map.copy id1).isSome = true) (hc2 : (st.point_map.copy id2).isSome = true)
    (hne : st.point_map.compare id1 id2 ≠ 0)
    (hp1 : gmap_contains_key all_players id1 = true)
    (hp2 : gmap_contains_key all_players id2 = true)
    (hd1 : gmap_get (some all_players) (some id1) = VoidPtr.addr d1)
    (hd2 : gmap_get (some all_players) (some id2) = VoidPtr.addr d2)
    (hl1 : d1.length = battlefields) (hl2 : d2.length = battlefields) :
    ∃ mid st', play_blotto_score all_players battlefields w st id1 id2 = some mid ∧
      result_of mid id1 = some { prior_result st id1 with
        score := matchup_score w d1 d2 battlefields } ∧
      result_of mid id2 = some { prior_result st id2 with
        score := matchup_score w d2 d1 battlefields } ∧
      play_blotto_matchup all_players battlefields w st id1 id2 = some st' ∧
      result_of st' id1 = some { prior_result st id1 with
        score := 0,
        overall_score := (prior_result st id1).overall_score +
          matchup_score w d1 d2 battlefields,
        wins := (prior_result st id1).wins +
          win_credit (matchup_score w d1 d2 battlefields) (matchup_score w d2 d1 battlefields),
        games := (prior_result st id1).games + 1 } ∧
      result_of st' id2 = some { prior_result st id2 with
        score := 0,
        overall_score := (prior_result st id2).overall_score +
          matchup_score w d2 d1 battlefields,
        wins := (prior_result st id2).wins +
          win_credit (matchup_score w d2 d1 battlefields) (matchup_score w d1 d2 battlefields),
        games := (prior_result st id2).games + 1 } ∧
      PointsOK st' := by
  obtain ⟨hw, hl⟩ := reachable_wf hok.reach
  -- the two registrations
  obtain ⟨ok1, s1, cap1, ⟨a1, g1, r1⟩, _, fr1⟩ :=
    register_player_spec hok (by omega) hc1
  have hne1 : (register_player st id1).point_map.compare id2 id1 ≠ 0 := by
    rw [s1.compare]
    exact fun h0 => hne (hl.symm _ _ h0)
  obtain ⟨ok2, s2, _, ⟨a2, g2, r2⟩, pre2, fr2⟩ :=
    @register_player_spec _ ok1 (by omega) id2 (by rw [s1.copy]; exact hc2)
  obtain ⟨_, g1', _⟩ := fr2 id1 hne1
  rw [g1] at g1'
  have r1' := pre2 a1 _ r1
  rw [(fr1 id2 hne).2.2] at r2
  obtain ⟨hw2, hl2'⟩ := reachable_wf ok2.reach
  -- the two structs are different
  have hane : a1 ≠ a2 := by
    intro heq
    obtain ⟨e1, he1, hk1, hv1⟩ := entry_of_get_addr hw2 hl2' g1'
    obtain ⟨e2, he2, hk2, hv2⟩ := entry_of_get_addr hw2 hl2' g2
    have := ok2.inj e1 he1 e2 he2 (by rw [hv1, hv2, heq])
    rw [this] at hk1
    have h0 := hl2'.trans _ _ _ (hl2'.symm _ _ hk1) hk2
    rw [s2.compare, s1.compare] at h0
    exact hne h0
  -- the battlefield loop
  obtain ⟨hm, k1, k2, k3, k4, k5⟩ := play_battlefields_spec hane g1' g2 d1 d2 w
    (List.range battlefields)
    (by
      intro i hi
      rw [List.mem_range] at hi
      omega)
    _ _ _ r1' r2
  rw [matchup_score_eq, prior_score_zero hok, zero_add] at k3 k4
  -- the end of the matchup
  obtain ⟨hf, j1, j2, j3, j4, j5⟩ := settle_matchup_spec hane g1' g2 hm _ _ k3 k4
  have hscore : play_blotto_score all_players battlefields w st id1 id2 =
      some { register_player (register_player st id1) id2 with heap := hm } := by
    unfold play_blotto_score
    simp only [hd1, hd2, k1, Option.map_some']
  refine ⟨_, { register_player (register_player st id1) id2 with heap := hf }, hscore, ?_, ?_,
    ?_, ?_, ?_, ?_⟩
  · show read_result hm (gmap_get _ _) = _
    rw [g1']
    exact k3
  · show read_result hm (gmap_get _ _) = _
    rw [g2]
    exact k4
  · unfold play_blotto_matchup
    rw [if_pos ⟨hp1, hp2⟩, hscore]
    simp only [Option.some_bind, j1, Option.map_some']
  · show read_result hf (gmap_get _ _) = _
    rw [g1']
    exact j3
  · show read_result hf (gmap_get _ _) = _
    rw [g2]
    exact j4
  · refine ⟨ok2.reach, ?_, ok2.inj, ?_⟩
    · intro e he
      obtain ⟨a, ha, hlt⟩ := ok2.valid e he
      refine ⟨a, ha, ?_⟩
      show a < hf.length
      rw [j2, k2]
      exact hlt
    · intro r hr
      obtain ⟨a, ha⟩ := List.mem_iff_getElem?.1 hr
      by_cases h1 : a = a1
      · rw [h1, j3] at ha
        cases ha
        rfl
      · by_cases h2 : a = a2
        · rw [h2, j4] at ha
          cases ha
          rfl
        · rw [j5 a h1 h2, k5 a h1 h2] at ha
          exact ok2.zero r (List.getElem?_mem ha)

/-! ### The order of `strcmp` -/

theorem c_str_cons (a : Nat) (s : CString) :
    c_str (a :: s) = if a = 0 then [] else a :: c_str s := by
  unfold c_str
  rw [List.takeWhile_cons]
  by_cases h : a = 0
  · simp [h]
  · simp [h]

theorem strcmp_swap (a : CString) : ∀ b : CString, strcmp b a = - strcmp a b := by
  induction a with
  | nil =>
    intro b
    cases b with
    | nil => simp [strcmp]
    | cons y ys => simp [strcmp]
  | cons x xs ih =>
    intro b
    cases b with
    | nil => simp [strcmp]
    | cons y ys =>
      by_cases h : x = y
      · subst h
        by_cases h0 : x = 0
        · simp [strcmp, h0]
        · simp [strcmp, h0, ih ys]
      · have h' : ¬ y = x := fun e => h e.symm
        simp [strcmp, h, h']

theorem strcmp_eq_zero_iff (a : CString) :
    ∀ b : CString, strcmp a b = 0 ↔ c_str a = c_str b := by
  induction a with
  | nil =>
    intro b
    cases b with
    | nil => simp [strcmp]
    | cons y ys =>
      rw [c_str_cons]
      by_cases h0 : y = 0
      · simp [strcmp, h0, c_str]
      · simp only [strcmp, h0, if_false, c_str, List.takeWhile_nil]
        constructor
        · intro h
          omega
        · intro h
          cases h
  | cons x xs ih =>
    intro b
    cases b with
    | nil =>
      rw [c_str_cons]
      by_cases h0 : x = 0
      · simp [strcmp, h0, c_str]
      · simp only [strcmp, h0, if_false, c_str, List.takeWhile_nil]
        constructor
        · intro h
          omega
        · intro h
          cases h
    | cons y ys =>
      rw [c_str_cons, c_str_cons]
      by_cases h : x = y
      · subst h
        by_cases h0 : x = 0
        · simp [strcmp, h0]
        · simp [strcmp, h0, ih ys]
      · by_cases hx : x = 0
        · have hy : ¬ y = 0 := fun e => h (hx.trans e.symm)
          simp only [strcmp, h, if_false, hx, hy, if_true]
          constructor
          · intro e
            omega
          · intro e
            cases e
        · by_cases hy : y = 0
          · simp only [strcmp, h, if_false, hx, hy, if_true]
            constructor
            · intro e
              omega
            · intro e
              cases e
          · simp only [strcmp, h, if_false, hx, hy]
            constructor
            · intro e
              omega
            · intro e
              exact absurd (List.cons.inj e).1 h

/-- The result of `strcmp` is negative exactly when the first string is smaller in
the lexicographic order of the bytes. -/
theorem strcmp_neg_iff (a : CString) :
    ∀ b : CString, strcmp a b < 0 ↔ List.Lex (fun x y : Nat => x < y) (c_str a) (c_str b) := by
  induction a with
  | nil =>
    intro b
    cases b with
    | nil => simp [strcmp, c_str]
    | cons y ys =>
      rw [c_str_cons]
      by_cases h0 : y = 0
      · simp [strcmp, h0, c_str]
      · simp only [strcmp, h0, if_false, c_str, List.takeWhile_nil]
        constructor
        · intro _
          exact List.Lex.nil
        · intro _
          omega
  | cons x xs ih =>
    intro b
    cases b with
    | nil =>
      rw [c_str_cons]
      have : ¬ ((x : Int) - 0 < 0) := by omega
      simp only [strcmp, this, false_iff]
      exact List.Lex.not_nil_right _ _
    | cons y ys =>
      rw [c_str_cons, c_str_cons]
      by_cases h : x = y
      · subst h
        by_cases h0 : x = 0
        · simp [strcmp, h0]
        · simp only [strcmp, if_true, h0, if_false]
          rw [ih ys, List.Lex.cons_iff]
      · by_cases hx : x = 0
        · have hy : ¬ y = 0 := fun e => h (hx.trans e.symm)
          simp only [strcmp, h, if_false, hx, hy, if_true]
          constructor
          · intro _
            exact List.Lex.nil
          · intro _
            omega
        · by_cases hy : y = 0
          · simp only [strcmp, h, if_false, hx, hy, if_true]
            constructor
            · intro e
              omega
            · intro e
              exact absurd e (List.Lex.not_nil_right _ _)
          · simp only [strcmp, h, if_false, hx, hy]
            constructor
            · intro e
              exact List.Lex.rel (by omega)
            · intro e
              cases e with
              | rel hlt => omega
              | cons _ => exact absurd rfl h

theorem str_map_lawful (V : Type) : Lawful (str_map V) := by
  constructor
  · intro a
    show strcmp a a = 0
    rw [strcmp_eq_zero_iff]
  · intro a b h
    change strcmp a b = 0 at h
    show strcmp b a = 0
    rw [strcmp_eq_zero_iff] at h ⊢
    exact h.symm
  · intro a b c h1 h2
    change strcmp a b = 0 at h1
    change strcmp b c = 0 at h2
    show strcmp a c = 0
    rw [strcmp_eq_zero_iff] at h1 h2 ⊢
    exact h1.trans h2
  · intro a b h
    change strcmp a b = 0 at h
    show str_hash a = str_hash b
    rw [strcmp_eq_zero_iff] at h
    unfold str_hash
    rw [h]
  · intro a b h
    change str_copy a = some b at h
    show strcmp b a = 0
    unfold str_copy at h
    cases h
    rw [strcmp_eq_zero_iff]

/-! ### The comparators of the ranking -/

theorem cmpfunc_win_eq (r1 r2 : result) :
    cmpfunc_win r1 r2 = rate_cmp (r1.wins / r1.games) (r2.wins / r2.games) r1.id r2.id := rfl

theorem cmpfunc_score_eq (r1 r2 : result) :
    cmpfunc_score r1 r2 =
      rate_cmp (r1.overall_score / r1.games) (r2.overall_score / r2.games) r1.id r2.id := rfl

theorem rate_cmp_neg_iff (x1 x2 : ℚ) (id1 id2 : CString) :
    rate_cmp x1 x2 id1 id2 < 0 ↔
      x1 > x2 ∨ (x1 = x2 ∧ List.Lex (fun x y : Nat => x < y) (c_str id1) (c_str id2)) := by
  unfold rate_cmp
  rcases lt_trichotomy x1 x2 with hlt | heq | hgt
  · have n1 : ¬ x1 > x2 := not_lt.2 (le_of_lt hlt)
    have n2 : ¬ x1 = x2 := ne_of_lt hlt
    rw [if_neg n1, if_pos hlt]
    constructor
    · intro h
      omega
    · rintro (h | ⟨h, _⟩)
      · exact absurd h n1
      · exact absurd h n2
  · have n1 : ¬ x1 > x2 := by rw [heq]; exact lt_irrefl _
    have n2 : ¬ x1 < x2 := by rw [heq]; exact lt_irrefl _
    rw [if_neg n1, if_neg n2, strcmp_neg_iff]
    constructor
    · intro h
      exact Or.inr ⟨heq, h⟩
    · rintro (h | ⟨_, h⟩)
      · exact absurd h n1
      · exact h
  · rw [if_pos hgt]
    constructor
    · intro _
      exact Or.inl hgt
    · intro _
      decide

theorem rate_cmp_zero_iff (x1 x2 : ℚ) (id1 id2 : CString) :
    rate_cmp x1 x2 id1 id2 = 0 ↔ x1 = x2 ∧ c_str id1 = c_str id2 := by
  unfold rate_cmp
  rcases lt_trichotomy x1 x2 with hlt | heq | hgt
  · have n1 : ¬ x1 > x2 := not_lt.2 (le_of_lt hlt)
    have n2 : ¬ x1 = x2 := ne_of_lt hlt
    rw [if_neg n1, if_pos hlt]
    constructor
    · intro h
      cases h
    · rintro ⟨h, _⟩
      exact absurd h n2
  · have n1 : ¬ x1 > x2 := by rw [heq]; exact lt_irrefl _
    have n2 : ¬ x1 < x2 := by rw [heq]; exact lt_irrefl _
    rw [if_neg n1, if_neg n2, strcmp_eq_zero_iff]
    constructor
    · intro h
      exact ⟨heq, h⟩
    · rintro ⟨_, h⟩
      exact h
  · have n2 : ¬ x1 = x2 := ne_of_gt hgt
    rw [if_pos hgt]
    constructor
    · intro h
      cases h
    · rintro ⟨h, _⟩
      exact absurd h n2

theorem rate_cmp_swap (x1 x2 : ℚ) (id1 id2 : CString) :
    rate_cmp x2 x1 id2 id1 = - rate_cmp x1 x2 id1 id2 := by
  unfold rate_cmp
  simp only [gt_iff_lt]
  rcases lt_trichotomy x1 x2 with hlt | heq | hgt
  · have n1 : ¬ x2 < x1 := not_lt.2 (le_of_lt hlt)
    rw [if_pos hlt, if_neg n1, if_pos hlt]
  · have n1 : ¬ x2 < x1 := by rw [heq]; exact lt_irrefl _
    have n2 : ¬ x1 < x2 := by rw [heq]; exact lt_irrefl _
    rw [if_neg n2, if_neg n1, if_neg n1, if_neg n2, strcmp_swap]
  · have n3 : ¬ x1 < x2 := not_lt.2 (le_of_lt hgt)
    rw [if_neg n3, if_pos hgt, if_pos hgt]
    rfl

theorem rate_cmp_trans (x1 x2 x3 : ℚ) (id1 id2 id3 : CString)
    (h12 : rate_cmp x1 x2 id1 id2 < 0) (h23 : rate_cmp x2 x3 id2 id3 < 0) :
    rate_cmp x1 x3 id1 id3 < 0 := by
  rw [rate_cmp_neg_iff] at h12 h23 ⊢
  rcases h12 with h | ⟨h, l12⟩
  · rcases h23 with h' | ⟨h', _⟩
    · exact Or.inl (lt_trans h' h)
    · exact Or.inl (by rw [← h']; exact h)
  · rcases h23 with h' | ⟨h', l23⟩
    · exact Or.inl (by rw [h]; exact h')
    · exact Or.inr ⟨h.trans h', IsTrans.trans _ _ _ l12 l23⟩

/-- C16: for result records (with games > 0, the rates being exact rationals),
`cmpfunc_win(r1, r2)` is negative exactly when the win rate wins / games of `r1` is
strictly greater than that of `r2`, or the rates are equal and the id of `r1` is
smaller than the id of `r2` in the lexicographic order of the bytes, and it is
zero exactly when the rates are equal and the ids are the same string;
`cmpfunc_score` is the same with overall_score / games.  Both are antisymmetric
and transitive, and not zero on records with different ids. -/
theorem cmpfunc_order (r1 r2 r3 : result) (_hg1 : 0 < r1.games) (_hg2 : 0 < r2.games)
    (_hg3 : 0 < r3.games) :
    (cmpfunc_win r1 r2 < 0 ↔
      r1.wins / r1.games > r2.wins / r2.games ∨
      (r1.wins / r1.games = r2.wins / r2.games ∧
        List.Lex (fun x y : Nat => x < y) (c_str r1.id) (c_str r2.id))) ∧
    (cmpfunc_win r1 r2 = 0 ↔
      r1.wins / r1.games = r2.wins / r2.games ∧ c_str r1.id = c_str r2.id) ∧
    (cmpfunc_score r1 r2 < 0 ↔
      r1.overall_score / r1.games > r2.overall_score / r2.games ∨
      (r1.overall_score / r1.games = r2.overall_score / r2.games ∧
        List.Lex (fun x y : Nat => x < y) (c_str r1.id) (c_str r2.id))) ∧
    (cmpfunc_score r1 r2 = 0 ↔
      r1.overall_score / r1.games = r2.overall_score / r2.games ∧
        c_str r1.id = c_str r2.id) ∧
    (cmpfunc_win r2 r1 = - cmpfunc_win r1 r2 ∧ cmpfunc_score r2 r1 = - cmpfunc_score r1 r2) ∧
    (cmpfunc_win r1 r2 < 0 → cmpfunc_win r2 r3 < 0 → cmpfunc_win r1 r3 < 0) ∧
    (cmpfunc_score r1 r2 < 0 → cmpfunc_score r2 r3 < 0 → cmpfunc_score r1 r3 < 0) ∧
    (c_str r1.id ≠ c_str r2.id → cmpfunc_win r1 r2 ≠ 0 ∧ cmpfunc_score r1 r2 ≠ 0) := by
  simp only [cmpfunc_win_eq, cmpfunc_score_eq]
  refine ⟨rate_cmp_neg_iff _ _ _ _, rate_cmp_zero_iff _ _ _ _, rate_cmp_neg_iff _ _ _ _,
    rate_cmp_zero_iff _ _ _ _, ⟨rate_cmp_swap _ _ _ _, rate_cmp_swap _ _ _ _⟩,
    rate_cmp_trans _ _ _ _ _ _, rate_cmp_trans _ _ _ _ _ _, ?_⟩
  intro hid
  constructor
  · intro h0
    exact hid ((rate_cmp_zero_iff _ _ _ _).1 h0).2
  · intro h0
    exact hid ((rate_cmp_zero_iff _ _ _ _).1 h0).2

theorem cmpfunc_order_witness :
    0 < record_a.games ∧ 0 < record_b.games ∧ 0 < record_a.games ∧
    ((cmpfunc_win record_a record_b < 0 ↔
      record_a.wins / record_a.games > record_b.wins / record_b.games ∨
      (record_a.wins / record_a.games = record_b.wins / record_b.games ∧
        List.Lex (fun x y : Nat => x < y) (c_str record_a.id) (c_str record_b.id))) ∧
    (cmpfunc_win record_a record_b = 0 ↔
      record_a.wins / record_a.games = record_b.wins / record_b.games ∧
        c_str record_a.id = c_str record_b.id) ∧
    (cmpfunc_score record_a record_b < 0 ↔
      record_a.overall_score / record_a.games > record_b.overall_score / record_b.games ∨
      (record_a.overall_score / record_a.games = record_b.overall_score / record_b.games ∧
        List.Lex (fun x y : Nat => x < y) (c_str record_a.id) (c_str record_b.id))) ∧
    (cmpfunc_score record_a record_b = 0 ↔
      record_a.overall_score / record_a.games = record_b.overall_score / record_b.games ∧
        c_str record_a.id = c_str record_b.id) ∧
    (cmpfunc_win record_b record_a = - cmpfunc_win record_a record_b ∧
      cmpfunc_score record_b record_a = - cmpfunc_score record_a record_b) ∧
    (cmpfunc_win record_a record_b < 0 → cmpfunc_win record_b record_a < 0 →
      cmpfunc_win record_a record_a < 0) ∧
    (cmpfunc_score record_a record_b < 0 → cmpfunc_score record_b record_a < 0 →
      cmpfunc_score record_a record_a < 0) ∧
    (c_str record_a.id ≠ c_str record_b.id →
      cmpfunc_win record_a record_b ≠ 0 ∧ cmpfunc_score record_a record_b ≠ 0)) :=
  ⟨by norm_num [record_a], by norm_num [record_b], by norm_num [record_a],
    cmpfunc_order record_a record_b record_a (by norm_num [record_a])
      (by norm_num [record_b]) (by norm_num [record_a])⟩

/-! ### The matchup claims -/

/-- C14: for a matchup line naming two registered players with different identifiers,
with distributions `d1` and `d2` of the common battlefield count, the battlefield
loop of `play_blotto` gives player 1 the matchup score `matchup_score w d1 d2`, the
sum of the weights of the battlefields with `d1[i] > d2[i]` plus the sum of half
the weights of those with `d1[i] = d2[i]`, and player 2 the symmetric score; the
matchup step adds each matchup score to the overall score of its player, adds 1 to
the games of each, adds 1 win to the player with the strictly higher matchup score
or 0.5 win to each when the scores are equal, and leaves the matchup scores at 0. -/
theorem matchup_scores (all_players : gmap CString (List Int)) (battlefields : Nat)
    (w : Nat → ℚ) (st : play_state) (id1 id2 : CString) (d1 d2 : List Int)
    (hok : PointsOK st) (hfit : st.point_map.capacity * 4 < SIZE_T_MOD)
    (hc1 : (st.point_map.copy id1).isSome = true) (hc2 : (st.point_map.copy id2).isSome = true)
    (hne : st.point_map.compare id1 id2 ≠ 0)
    (hp1 : gmap_contains_key all_players id1 = true)
    (hp2 : gmap_contains_key all_players id2 = true)
    (hd1 : gmap_get (some all_players) (some id1) = VoidPtr.addr d1)
    (hd2 : gmap_get (some all_players) (some id2) = VoidPtr.addr d2)
    (hl1 : d1.length = battlefields) (hl2 : d2.length = battlefields) :
    ∃ mid st' m1 m2 r1 r2,
      play_blotto_score all_players battlefields w st id1 id2 = some mid ∧
      result_of mid id1 = some m1 ∧ result_of mid id2 = some m2 ∧
      m1.score = matchup_score w d1 d2 battlefields ∧
      m2.score = matchup_score w d2 d1 battlefields ∧
      play_blotto_matchup all_players battlefields w st id1 id2 = some st' ∧
      result_of st' id1 = some r1 ∧ result_of st' id2 = some r2 ∧
      r1.overall_score = (prior_result st id1).overall_score + m1.score ∧
      r2.overall_score = (prior_result st id2).overall_score + m2.score ∧
      r1.games = (prior_result st id1).games + 1 ∧
      r2.games = (prior_result st id2).games + 1 ∧
      r1.wins = (prior_result st id1).wins +
        (if m1.score > m2.score then 1 else if m1.score = m2.score then 1 / 2 else 0) ∧
      r2.wins = (prior_result st id2).wins +
        (if m2.score > m1.score then 1 else if m2.score = m1.score then 1 / 2 else 0) ∧
      r1.score = 0 ∧ r2.score = 0 ∧
      r1.id = (prior_result st id1).id ∧ r2.id = (prior_result st id2).id := by
  obtain ⟨mid, st', h1, h2, h3, h4, h5, h6, _⟩ :=
    matchup_spec w hok hfit hc1 hc2 hne hp1 hp2 hd1 hd2 hl1 hl2
  exact ⟨mid, st', _, _, _, _, h1, h2, h3, rfl, rfl, h4, h5, h6, rfl, rfl, rfl, rfl, rfl, rfl,
    rfl, rfl, rfl, rfl⟩

theorem start_state_ok : PointsOK start_state := by
  refine ⟨Reachable.create str_copy strcmp str_hash (fun _ => ()) (str_map Nat) rfl
    (str_map_lawful Nat), ?_, ?_, ?_⟩
  · intro e he
    simp [start_state, str_map, entries, entries_create] at he
  · intro e he
    simp [start_state, str_map, entries, entries_create] at he
  · intro r hr
    simp [start_state] at hr

theorem matchup_scores_witness :
    PointsOK start_state ∧ start_state.point_map.capacity * 4 < SIZE_T_MOD ∧
    (start_state.point_map.copy [65]).isSome = true ∧
    (start_state.point_map.copy [66]).isSome = true ∧
    start_state.point_map.compare [65] [66] ≠ 0 ∧
    gmap_contains_key abc_players [65] = true ∧ gmap_contains_key abc_players [66] = true ∧
    gmap_get (some abc_players) (some [65]) = VoidPtr.addr [3, 1] ∧
    gmap_get (some abc_players) (some [66]) = VoidPtr.addr [2, 2] ∧
    ([3, 1] : List Int).length = 2 ∧ ([2, 2] : List Int).length = 2 ∧
    ∃ mid st' m1 m2 r1 r2,
      play_blotto_score abc_players 2 (fun _ => 1) start_state [65] [66] = some mid ∧
      result_of mid [65] = some m1 ∧ result_of mid [66] = some m2 ∧
      m1.score = matchup_score (fun _ => 1) [3, 1] [2, 2] 2 ∧
      m2.score = matchup_score (fun _ => 1) [2, 2] [3, 1] 2 ∧
      play_blotto_matchup abc_players 2 (fun _ => 1) start_state [65] [66] = some st' ∧
      result_of st' [65] = some r1 ∧ result_of st' [66] = some r2 ∧
      r1.overall_score = (prior_result start_state [65]).overall_score + m1.score ∧
      r2.overall_score = (prior_result start_state [66]).overall_score + m2.score ∧
      r1.games = (prior_result start_state [65]).games + 1 ∧
      r2.games = (prior_result start_state [66]).games + 1 ∧
      r1.wins = (prior_result start_state [65]).wins +
        (if m1.score > m2.score then 1 else if m1.score = m2.score then 1 / 2 else 0) ∧
      r2.wins = (prior_result start_state [66]).wins +
        (if m2.score > m1.score then 1 else if m2.score = m1.score then 1 / 2 else 0) ∧
      r1.score = 0 ∧ r2.score = 0 ∧
      r1.id = (prior_result start_state [65]).id ∧
      r2.id = (prior_result start_state [66]).id :=
  ⟨start_state_ok, by decide, rfl, rfl, by decide, by decide, by decide, by decide, by decide,
    rfl, rfl,
    matchup_scores abc_players 2 (fun _ => 1) start_state [65] [66] [3, 1] [2, 2]
      start_state_ok (by decide) rfl rfl (by decide) (by decide) (by decide) (by decide)
      (by decide) rfl rfl⟩

theorem score_3_1_against_2_2 (w : Nat → ℚ) :
    matchup_score w [3, 1] [2, 2] 2 = w 0 ∧ matchup_score w [2, 2] [3, 1] 2 = w 1 := by
  constructor <;> simp [matchup_score, List.range_succ, List.filter_cons]

/-- C15 as stated fails: with the distributions `[3, 1]` for `A` and `[2, 2]` for `B`
and the weights 1 and 1, the battlefield loop gives `A` the matchup score 1, not
1.5, and `B` the matchup score 1, not 0.5 (battlefield 2 is won by `B`, as 1 < 2),
and the matchup credits half a win to each, not a full win to `A` and none to
`B`. -/
theorem a_b_matchup_is_tied :
    ((play_blotto_score abc_players 2 (fun _ => 1) start_state [65] [66]).bind
      (fun s => result_of s [65])).map result.score = some 1 ∧
    ((play_blotto_score abc_players 2 (fun _ => 1) start_state [65] [66]).bind
      (fun s => result_of s [66])).map result.score = some 1 ∧
    ((play_blotto_matchup abc_players 2 (fun _ => 1) start_state [65] [66]).bind
      (fun s => result_of s [65])).map result.wins = some (1 / 2) ∧
    ((play_blotto_matchup abc_players 2 (fun _ => 1) start_state [65] [66]).bind
      (fun s => result_of s [66])).map result.wins = some (1 / 2) ∧
    (1 : ℚ) ≠ 3 / 2 ∧ (1 / 2 : ℚ) ≠ 1 ∧ (1 / 2 : ℚ) ≠ 0 := by
  obtain ⟨mid, st', h1, h2, h3, h4, h5, h6, _⟩ :=
    @matchup_spec abc_players 2 (fun _ => (1 : ℚ)) start_state [65] [66] [3, 1] [2, 2]
      start_state_ok (by decide) rfl rfl (by decide) (by decide) (by decide) (by decide)
      (by decide) rfl rfl
  have hs := score_3_1_against_2_2 (fun _ => (1 : ℚ))
  have hpa := (@result_of_absent start_state start_state_ok [65] (by decide)).2
  have hpb := (@result_of_absent start_state start_state_ok [66] (by decide)).2
  rw [h1, h4]
  simp only [Option.some_bind, h2, h3, h5, h6, Option.map_some', hs.1, hs.2, hpa, hpb]
  norm_num [win_credit]

/-- C15, amended: with the distributions `[3, 1]` for `A` and `[2, 2]` for `B` and the
weights 1 and 1, the matchup A-B computed by `play_blotto` has `A` winning
battlefield 1 (1 point) and `B` winning battlefield 2 (1 point), giving `A` a
matchup score of 1 and `B` a matchup score of 1, so that the match is tied and each
of the two is credited half a win. -/
theorem a_b_scenario (all_players : gmap CString (List Int)) (w : Nat → ℚ)
    (st : play_state) (idA idB : CString)
    (hok : PointsOK st) (hfit : st.point_map.capacity * 4 < SIZE_T_MOD)
    (hc1 : (st.point_map.copy idA).isSome = true) (hc2 : (st.point_map.copy idB).isSome = true)
    (hne : st.point_map.compare idA idB ≠ 0)
    (hp1 : gmap_contains_key all_players idA = true)
    (hp2 : gmap_contains_key all_players idB = true)
    (hdA : gmap_get (some all_players) (some idA) = VoidPtr.addr [3, 1])
    (hdB : gmap_get (some all_players) (some idB) = VoidPtr.addr [2, 2])
    (hw0 : w 0 = 1) (hw1 : w 1 = 1) :
    battle_points w [3, 1] [2, 2] 0 = 1 ∧ battle_points w [2, 2] [3, 1] 0 = 0 ∧
    battle_points w [3, 1] [2, 2] 1 = 0 ∧ battle_points w [2, 2] [3, 1] 1 = 1 ∧
    ∃ mid st' mA mB rA rB,
      play_blotto_score all_players 2 w st idA idB = some mid ∧
      result_of mid idA = some mA ∧ result_of mid idB = some mB ∧
      mA.score = 1 ∧ mB.score = 1 ∧
      play_blotto_matchup all_players 2 w st idA idB = some st' ∧
      result_of st' idA = some rA ∧ result_of st' idB = some rB ∧
      rA.wins = (prior_result st idA).wins + 1 / 2 ∧
      rB.wins = (prior_result st idB).wins + 1 / 2 := by
  obtain ⟨mid, st', h1, h2, h3, h4, h5, h6, _⟩ :=
    @matchup_spec all_players 2 w st idA idB [3, 1] [2, 2] hok hfit hc1 hc2 hne hp1 hp2
      hdA hdB rfl rfl
  have hs := score_3_1_against_2_2 w
  have hcr : win_credit 1 1 = 1 / 2 := by norm_num [win_credit]
  simp only [hs.1, hs.2, hw0, hw1, hcr] at h2 h3 h5 h6
  refine ⟨by simp [battle_points, hw0], by simp [battle_points], by simp [battle_points],
    by simp [battle_points, hw1], mid, st', _, _, _, _, h1, h2, h3, rfl, rfl, h4, h5, h6, rfl,
    rfl⟩

theorem a_b_scenario_witness :
    PointsOK start_state ∧ start_state.point_map.capacity * 4 < SIZE_T_MOD ∧
    (start_state.point_map.copy [65]).isSome = true ∧
    (start_state.point_map.copy [66]).isSome = true ∧
    start_state.point_map.compare [65] [66] ≠ 0 ∧
    gmap_contains_key abc_players [65] = true ∧ gmap_contains_key abc_players [66] = true ∧
    gmap_get (some abc_players) (some [65]) = VoidPtr.addr [3, 1] ∧
    gmap_get (some abc_players) (some [66]) = VoidPtr.addr [2, 2] ∧
    (fun _ : Nat => (1 : ℚ)) 0 = 1 ∧ (fun _ : Nat => (1 : ℚ)) 1 = 1 ∧
    (battle_points (fun _ => 1) [3, 1] [2, 2] 0 = 1 ∧
    battle_points (fun _ => 1) [2, 2] [3, 1] 0 = 0 ∧
    battle_points (fun _ => 1) [3, 1] [2, 2] 1 = 0 ∧
    battle_points (fun _ => 1) [2, 2] [3, 1] 1 = 1 ∧
    ∃ mid st' mA mB rA rB,
      play_blotto_score abc_players 2 (fun _ => 1) start_state [65] [66] = some mid ∧
      result_of mid [65] = some mA ∧ result_of mid [66] = some mB ∧
      mA.score = 1 ∧ mB.score = 1 ∧
      play_blotto_matchup abc_players 2 (fun _ => 1) start_state [65] [66] = some st' ∧
      result_of st' [65] = some rA ∧ result_of st' [66] = some rB ∧
      rA.wins = (prior_result start_state [65]).wins + 1 / 2 ∧
      rB.wins = (prior_result start_state [66]).wins + 1 / 2) :=
  ⟨start_state_ok, by decide, rfl, rfl, by decide, by decide, by decide, by decide, by decide,
    rfl, rfl,
    a_b_scenario abc_players (fun _ => 1) start_state [65] [66]
      start_state_ok (by decide) rfl rfl (by decide) (by decide) (by decide) (by decide)
      (by decide) rfl rfl⟩

/-! ### A matchup line that names one player twice -/

theorem get_congr_key {m : gmap K V} (hw : WF m) (hl : Lawful m) {k k2 : K}
    (h : m.compare k k2 = 0) : gmap_get (some m) (some k2) = gmap_get (some m) (some k) := by
  have hfind : gmap_table_find_key m.table k2 m.hash m.compare m.capacity =
      gmap_table_find_key m.table k m.hash m.compare m.capacity := by
    apply Option.ext
    intro e
    rw [Option.mem_def, Option.mem_def, find_iff hw hl, find_iff hw hl]
    constructor
    · rintro ⟨h1, h2⟩
      exact ⟨h1, hl.trans _ _ _ h2 (hl.symm _ _ h)⟩
    · rintro ⟨h1, h2⟩
      exact ⟨h1, hl.trans _ _ _ h2 h⟩
  simp only [gmap_get, hfind]

/-- A sequence of writes through pointers to one struct changes this struct and
nothing else. -/
theorem modify_all_one {a : Nat} (ws : List (VoidPtr Nat × (result → result)))
    (hws : ∀ w ∈ ws, w.1 = VoidPtr.addr a) :
    ∀ (heap : List result) (r : result), heap[a]? = some r →
      ∃ heap', modify_all heap ws = some heap' ∧ heap'.length = heap.length ∧
        heap'[a]? = some (writes_through (VoidPtr.addr a) ws r) ∧
        ∀ b, b ≠ a → heap'[b]? = heap[b]? := by
  induction ws with
  | nil =>
    intro heap r h
    exact ⟨heap, rfl, rfl, h, fun _ _ => rfl⟩
  | cons w ws ih =>
    intro heap r h
    have hlt : a < heap.length := (List.getElem?_eq_some.1 h).1
    have hw := hws w (List.mem_cons_self _ _)
    have hstep := modify_result_addr h w.2
    have g : (heap.set a (w.2 r))[a]? = some (w.2 r) := by
      rw [List.getElem?_set, if_pos rfl, if_pos hlt]
    obtain ⟨heap', e1, e2, e3, e4⟩ :=
      ih (fun x hx => hws x (List.mem_cons_of_mem _ hx)) _ _ g
    refine ⟨heap', ?_, ?_, ?_, ?_⟩
    · rw [modify_all, hw, hstep]
      exact e1
    · rw [e2, List.length_set]
    · rw [e3]
      simp [writes_through, hw]
    · intro b hb
      rw [e4 b hb, List.getElem?_set, if_neg (Ne.symm hb)]

/-- One battlefield of a line that names one player twice changes the matchup score
of the player and nothing else. -/
theorem play_battlefield_one {pm : gmap CString Nat} {id1 id2 : CString} {a : Nat}
    (hg1 : gmap_get (some pm) (some id1) = VoidPtr.addr a)
    (hg2 : gmap_get (some pm) (some id2) = VoidPtr.addr a) (d1 d2 : List Int)
    (w : Nat → ℚ) (heap : List result) (r : result) (h : heap[a]? = some r) (i : Nat)
    (hi1 : i < d1.length) (hi2 : i < d2.length) :
    ∃ heap' r', play_battlefield pm id1 id2 (VoidPtr.addr d1) (VoidPtr.addr d2) w heap i
        = some heap' ∧
      heap'.length = heap.length ∧ heap'[a]? = some r' ∧
      r'.wins = r.wins ∧ r'.games = r.games ∧
      ∀ b, b ≠ a → heap'[b]? = heap[b]? := by
  have e1 : d1[i]? = some (d1.getD i 0) := by
    simp [List.getD_eq_getElem?_getD, List.getElem?_eq_getElem hi1]
  have e2 : d2[i]? = some (d2.getD i 0) := by
    simp [List.getD_eq_getElem?_getD, List.getElem?_eq_getElem hi2]
  unfold play_battlefield
  simp only [read_int, e1, e2, hg1, hg2]
  rcases lt_trichotomy (d1.getD i 0) (d2.getD i 0) with hlt | heq | hgt
  · have n1 : ¬ d1.getD i 0 > d2.getD i 0 := not_lt.2 (le_of_lt hlt)
    have n2 : ¬ d1.getD i 0 = d2.getD i 0 := ne_of_lt hlt
    obtain ⟨heap', k1, k2, k3, k4⟩ := modify_all_one
      [(VoidPtr.addr a, fun game2 : result => { game2 with score := game2.score + w i })]
      (by simp) heap r h
    rw [modify_all_single] at k1
    refine ⟨heap', _, ?_, k2, k3, ?_, ?_, k4⟩
    · simp only [if_neg n1, if_neg n2, if_pos hlt, Option.some_bind, k1]
    · simp [writes_through]
    · simp [writes_through]
  · have n1 : ¬ d1.getD i 0 > d2.getD i 0 := by rw [heq]; exact lt_irrefl _
    have n2 : ¬ d1.getD i 0 < d2.getD i 0 := by rw [heq]; exact lt_irrefl _
    obtain ⟨heap', k1, k2, k3, k4⟩ := modify_all_one
      [(VoidPtr.addr a, fun game1 : result => { game1 with score := game1.score + w i / 2 }),
       (VoidPtr.addr a, fun game2 : result => { game2 with score := game2.score + w i / 2 })]
      (by simp) heap r h
    refine ⟨heap', _, ?_, k2, k3, ?_, ?_, k4⟩
    · simp only [if_neg n1, if_pos heq, if_neg n2, Option.some_bind, k1]
    · simp [writes_through]
    · simp [writes_through]
  · have n2 : ¬ d1.getD i 0 = d2.getD i 0 := ne_of_gt hgt
    have n3 : ¬ d1.getD i 0 < d2.getD i 0 := not_lt.2 (le_of_lt hgt)
    obtain ⟨heap', k1, k2, k3, k4⟩ := modify_all_one
      [(VoidPtr.addr a, fun game1 : result => { game1 with score := game1.score + w i })]
      (by simp) heap r h
    rw [modify_all_single] at k1
    refine ⟨heap', _, ?_, k2, k3, ?_, ?_, k4⟩
    · simp only [if_pos hgt, if_neg n2, if_neg n3, k1, Option.some_bind]
    · simp [writes_through]
    · simp [writes_through]

theorem play_battlefields_one {pm : gmap CString Nat} {id1 id2 : CString} {a : Nat}
    (hg1 : gmap_get (some pm) (some id1) = VoidPtr.addr a)
    (hg2 : gmap_get (some pm) (some id2) = VoidPtr.addr a) (d1 d2 : List Int)
    (w : Nat → ℚ) (is : List Nat) (his : ∀ i ∈ is, i < d1.length ∧ i < d2.length) :
    ∀ (heap : List result) (r : result), heap[a]? = some r →
      ∃ heap' r', play_battlefields pm id1 id2 (VoidPtr.addr d1) (VoidPtr.addr d2) w is heap
          = some heap' ∧
        heap'.length = heap.length ∧ heap'[a]? = some r' ∧
        r'.wins = r.wins ∧ r'.games = r.games ∧
        ∀ b, b ≠ a → heap'[b]? = heap[b]? := by
  induction is with
  | nil =>
    intro heap r h
    exact ⟨heap, r, rfl, rfl, h, rfl, rfl, fun _ _ => rfl⟩
  | cons i is ih =>
    intro heap r h
    obtain ⟨hi1, hi2⟩ := his i (List.mem_cons_self _ _)
    obtain ⟨hp, rp, k1, k2, k3, k4, k5, k6⟩ :=
      play_battlefield_one hg1 hg2 d1 d2 w heap r h i hi1 hi2
    obtain ⟨heap', r', j1, j2, j3, j4, j5, j6⟩ :=
      ih (fun x hx => his x (List.mem_cons_of_mem _ hx)) hp rp k3
    refine ⟨heap', r', ?_, ?_, j3, ?_, ?_, ?_⟩
    · rw [play_battlefields, k1]
      exact j1
    · rw [j2, k2]
    · rw [j4, k4]
    · rw [j5, k5]
    · intro b hb
      rw [j6 b hb, k6 b hb]

/-- The end of a matchup of a player against itself: the two pointers are the same,
the matchup scores are equal, and the player gets two half wins and two games. -/
theorem settle_matchup_one {pm : gmap CString Nat} {id1 id2 : CString} {a : Nat}
    (hg1 : gmap_get (some pm) (some id1) = VoidPtr.addr a)
    (hg2 : gmap_get (some pm) (some id2) = VoidPtr.addr a)
    (heap : List result) (r : result) (h : heap[a]? = some r) :
    ∃ heap', settle_matchup pm id1 id2 heap = some heap' ∧ heap'.length = heap.length ∧
      heap'[a]? = some { r with overall_score := r.overall_score + r.score + r.score,
                                 wins := r.wins + 1 / 2 + 1 / 2,
                                 games := r.games + 1 + 1, score := 0 } ∧
      ∀ b, b ≠ a → heap'[b]? = heap[b]? := by
  obtain ⟨hA, k1, k2, k3, k4⟩ := modify_all_one
    [(VoidPtr.addr a, fun r : result => { r with overall_score := r.overall_score + r.score }),
     (VoidPtr.addr a, fun r : result => { r with overall_score := r.overall_score + r.score })]
    (by simp) heap r h
  have k3' : hA[a]? = some { r with overall_score := r.overall_score + r.score + r.score } := by
    rw [k3]
    simp [writes_through]
  unfold settle_matchup
  simp only [hg1, hg2, k1, Option.some_bind, read_result, k3']
  obtain ⟨hB, j1, j2, j3, j4⟩ := modify_all_one
    [(VoidPtr.addr a, fun r : result => { r with wins := r.wins + 1 / 2 }),
     (VoidPtr.addr a, fun r : result => { r with wins := r.wins + 1 / 2 }),
     (VoidPtr.addr a, fun r : result => { r with games := r.games + 1 }),
     (VoidPtr.addr a, fun r : result => { r with games := r.games + 1 }),
     (VoidPtr.addr a, fun r : result => { r with score := 0 }),
     (VoidPtr.addr a, fun r : result => { r with score := 0 })]
    (by simp) hA _ k3'
  refine ⟨hB, ?_, ?_, ?_, ?_⟩
  · rw [if_neg (lt_irrefl _), if_pos trivial]
    exact j1
  · rw [j2, k2]
  · rw [j3]
    simp [writes_through]
  · intro b hb
    rw [j4 b hb, k4 b hb]

/-! ### The records after each matchup line -/

theorem win_credit_bounds (s1 s2 : ℚ) : 0 ≤ win_credit s1 s2 ∧ win_credit s1 s2 ≤ 1 := by
  unfold win_credit
  split_ifs <;> norm_num

theorem register_player_of_contains {st : play_state} {id : CString}
    (hc : gmap_contains_key st.point_map id = true) : register_player st id = st := by
  unfold register_player
  rw [hc]
  simp

/-- The shape of the state after a registration: the player is in the map, at
most one struct is new, the new struct is the zeroed one and the pointer of the
player leads to it, and the capacity stays within its bound. -/
theorem register_player_shape {st : play_state} (hok : PointsOK st)
    (hfit : st.point_map.capacity * 2 < SIZE_T_MOD) {id : CString}
    (hcopy : (st.point_map.copy id).isSome = true)
    (hb : st.point_map.capacity ≤ max GMAP_INITIAL_CAPACITY (2 * st.point_map.size)) :
    gmap_contains_key (register_player st id).point_map id = true ∧
    (register_player st id).point_map.capacity ≤
      max GMAP_INITIAL_CAPACITY (2 * (register_player st id).point_map.size) ∧
    (register_player st id).point_map.size ≤ st.point_map.size + 1 ∧
    ((register_player st id).heap = st.heap ∨
      ((register_player st id).heap = st.heap ++
          [{ id := id, wins := 0, score := 0, overall_score := 0, games := 0 }] ∧
        gmap_get (some (register_player st id).point_map) (some id) =
          VoidPtr.addr st.heap.length)) := by
  obtain ⟨hw, hl⟩ := reachable_wf hok.reach
  cases hc : gmap_contains_key st.point_map id with
  | true =>
    rw [register_player_of_contains hc]
    exact ⟨hc, hb, by omega, Or.inl rfl⟩
  | false =>
    obtain ⟨m', h1, _, _, hsz, hcap, hget, hcon⟩ :=
      put_ok_step hw hl hfit hcopy (VoidPtr.addr st.heap.length)
    have hst : register_player st id =
        { point_map := m',
          heap := st.heap ++
            [{ id := id, wins := 0, score := 0, overall_score := 0, games := 0 }] } := by
      unfold register_player
      rw [hc, h1]
      rfl
    rw [hst]
    refine ⟨hcon, put_ok_capacity hw hb hcap hsz, ?_, Or.inr ⟨rfl, hget⟩⟩
    show m'.size ≤ _
    rw [hsz, hc]
    simp

/-- The battlefield loop and the end of a matchup, for two pointers that may be the
same: every struct has a game and at most as many wins as games afterwards, when
this held before for every struct but those of the two players. -/
theorem line_tail {st : play_state} (hok : PointsOK st) {id1 id2 : CString} {a1 a2 : Nat}
    (g1 : gmap_get (some st.point_map) (some id1) = VoidPtr.addr a1)
    (g2 : gmap_get (some st.point_map) (some id2) = VoidPtr.addr a2)
    (d1 d2 : List Int) (w : Nat → ℚ) (battlefields : Nat)
    (hl1 : d1.length = battlefields) (hl2 : d2.length = battlefields)
    (hpend : GamesPending st.heap a1 a2) :
    ∃ hm hf, play_battlefields st.point_map id1 id2 (VoidPtr.addr d1) (VoidPtr.addr d2) w
        (List.range battlefields) st.heap = some hm ∧
      settle_matchup st.point_map id1 id2 hm = some hf ∧
      hf.length = st.heap.length ∧ (∀ r ∈ hf, GamesOK r) ∧ (∀ r ∈ hf, r.score = 0) := by
  obtain ⟨hw, hl⟩ := reachable_wf hok.reach
  have hin : ∀ {k : CString} {a : Nat}, gmap_get (some st.point_map) (some k) = VoidPtr.addr a →
      ∃ r, st.heap[a]? = some r := by
    intro k a h
    obtain ⟨e, he, _, hv⟩ := entry_of_get_addr hw hl h
    obtain ⟨a', ha', hlt⟩ := hok.valid e he
    rw [hv] at ha'
    cases ha'
    exact ⟨_, List.getElem?_eq_getElem hlt⟩
  obtain ⟨r1, hr1⟩ := hin g1
  obtain ⟨r2, hr2⟩ := hin g2
  have hrange : ∀ i ∈ List.range battlefields, i < d1.length ∧ i < d2.length := by
    intro i hi
    rw [List.mem_range] at hi
    omega
  by_cases hne : a1 = a2
  · subst hne
    obtain ⟨hm, rm, k1, k2, k3, k4, k5, k6⟩ :=
      play_battlefields_one g1 g2 d1 d2 w (List.range battlefields) hrange _ _ hr1
    obtain ⟨hf, j1, j2, j3, j4⟩ := settle_matchup_one g1 g2 hm rm k3
    refine ⟨hm, hf, k1, j1, by rw [j2, k2], ?_, ?_⟩
    · intro r hr
      obtain ⟨b, hb⟩ := List.mem_iff_getElem?.1 hr
      by_cases h1 : b = a1
      · rw [h1, j3] at hb
        cases hb
        obtain ⟨⟨p1, p2⟩, _⟩ := hpend a1 r1 hr1
        refine ⟨?_, ?_, ?_⟩
        · show 1 ≤ rm.games + 1 + 1
          rw [k5]
          linarith
        · show 0 ≤ rm.wins + 1 / 2 + 1 / 2
          rw [k4]
          linarith
        · show rm.wins + 1 / 2 + 1 / 2 ≤ rm.games + 1 + 1
          rw [k4, k5]
          linarith
      · rw [j4 b h1, k6 b h1] at hb
        obtain ⟨⟨p1, p2⟩, p3⟩ := hpend b r hb
        exact ⟨p3 h1 h1, p1, p2⟩
    · intro r hr
      obtain ⟨b, hb⟩ := List.mem_iff_getElem?.1 hr
      by_cases h1 : b = a1
      · rw [h1, j3] at hb
        cases hb
        rfl
      · rw [j4 b h1, k6 b h1] at hb
        exact hok.zero r (List.getElem?_mem hb)
  · obtain ⟨hm, k1, k2, k3, k4, k5⟩ :=
      play_battlefields_spec hne g1 g2 d1 d2 w (List.range battlefields) hrange _ _ _ hr1 hr2
    obtain ⟨hf, j1, j2, j3, j4, j5⟩ := settle_matchup_spec hne g1 g2 hm _ _ k3 k4
    refine ⟨hm, hf, k1, j1, by rw [j2, k2], ?_, ?_⟩
    · intro r hr
      obtain ⟨b, hb⟩ := List.mem_iff_getElem?.1 hr
      by_cases h1 : b = a1
      · rw [h1, j3] at hb
        cases hb
        obtain ⟨⟨p1, p2⟩, _⟩ := hpend a1 r1 hr1
        obtain ⟨c1, c2⟩ := win_credit_bounds
          (r1.score + ((List.range battlefields).map (battle_points w d1 d2)).sum)
          (r2.score + ((List.range battlefields).map (battle_points w d2 d1)).sum)
        refine ⟨?_, ?_, ?_⟩
        · show 1 ≤ r1.games + 1
          linarith
        · show 0 ≤ r1.wins + win_credit _ _
          linarith
        · show r1.wins + win_credit _ _ ≤ r1.games + 1
          linarith
      · by_cases h2 : b = a2
        · rw [h2, j4] at hb
          cases hb
          obtain ⟨⟨p1, p2⟩, _⟩ := hpend a2 r2 hr2
          obtain ⟨c1, c2⟩ := win_credit_bounds
            (r2.score + ((List.range battlefields).map (battle_points w d2 d1)).sum)
            (r1.score + ((List.range battlefields).map (battle_points w d1 d2)).sum)
          refine ⟨?_, ?_, ?_⟩
          · show 1 ≤ r2.games + 1
            linarith
          · show 0 ≤ r2.wins + win_credit _ _
            linarith
          · show r2.wins + win_credit _ _ ≤ r2.games + 1
            linarith
        · rw [j5 b h1 h2, k5 b h1 h2] at hb
          obtain ⟨⟨p1, p2⟩, p3⟩ := hpend b r hb
          exact ⟨p3 h1 h2, p1, p2⟩
    · intro r hr
      obtain ⟨b, hb⟩ := List.mem_iff_getElem?.1 hr
      by_cases h1 : b = a1
      · rw [h1, j3] at hb
        cases hb
        rfl
      · by_cases h2 : b = a2
        · rw [h2, j4] at hb
          cases hb
          rfl
        · rw [j5 b h1 h2, k5 b h1 h2] at hb
          exact hok.zero r (List.getElem?_mem hb)

theorem pending_of_ok {heap : List result} (hg : ∀ r ∈ heap, GamesOK r) (a1 a2 : Nat) :
    GamesPending heap a1 a2 := by
  intro b r hb
  have h := hg r (List.getElem?_mem hb)
  exact ⟨⟨h.wins_nonneg, h.wins_le⟩, fun _ _ => h.played⟩

theorem pending_append {heap : List result} {a1 a2 : Nat} (hp : GamesPending heap a1 a2)
    (id : CString) (ha : heap.length = a1 ∨ heap.length = a2) :
    GamesPending
      (heap ++ [{ id := id, wins := 0, score := 0, overall_score := 0, games := 0 }]) a1 a2 := by
  intro b r hb
  by_cases hlt : b < heap.length
  · rw [List.getElem?_append_left hlt] at hb
    exact hp b r hb
  · have hlen := (List.getElem?_eq_some.1 hb).1
    simp only [List.length_append, List.length_singleton] at hlen
    have hbe : b = heap.length := by omega
    subst hbe
    rw [List.getElem?_append_right (le_refl _)] at hb
    simp only [Nat.sub_self, List.getElem?_cons_zero, Option.some.injEq] at hb
    subst hb
    refine ⟨⟨le_refl _, le_refl _⟩, ?_⟩
    intro n1 n2
    rcases ha with h | h
    · exact absurd h n1
    · exact absurd h n2

/-- One matchup line over registered players, which may name one player twice,
is processed to its end and keeps the invariant of the matchup loop: every
struct has a game and at most as many wins as games. -/
theorem matchup_step_inv {all_players : gmap CString (List Int)} {battlefields : Nat}
    (w : Nat → ℚ) {st : play_state} {id1 id2 : CString}
    (hok : PointsOK st) (hg : ∀ r ∈ st.heap, GamesOK r)
    (hb : st.point_map.capacity ≤ max GMAP_INITIAL_CAPACITY (2 * st.point_map.size))
    (hn : 4 * (st.point_map.size + 2) < SIZE_T_MOD)
    (hc1 : (st.point_map.copy id1).isSome = true) (hc2 : (st.point_map.copy id2).isSome = true)
    (hp1 : Registered all_players battlefields id1)
    (hp2 : Registered all_players battlefields id2) :
    ∃ st', play_blotto_matchup all_players battlefields w st id1 id2 = some st' ∧
      PointsOK st' ∧ (∀ r ∈ st'.heap, GamesOK r) ∧
      st'.point_map.capacity ≤ max GMAP_INITIAL_CAPACITY (2 * st'.point_map.size) ∧
      st'.point_map.size ≤ st.point_map.size + 2 ∧
      SameFunctions st.point_map st'.point_map := by
  obtain ⟨hin1, d1, hd1, hl1⟩ := hp1
  obtain ⟨hin2, d2, hd2, hl2⟩ := hp2
  obtain ⟨ok1, s1, _, ⟨a1, g1, _⟩, _, _⟩ :=
    register_player_spec hok (fit_of_bound hb hn) hc1
  obtain ⟨c1, b1, sz1, sh1⟩ := register_player_shape hok (fit_of_bound hb hn) hc1 hb
  have hn1 : 4 * ((register_player st id1).point_map.size + 1) < SIZE_T_MOD := by omega
  have hc2' : ((register_player st id1).point_map.copy id2).isSome = true := by
    rw [s1.copy]
    exact hc2
  obtain ⟨ok2, s2, _, ⟨a2, g2, _⟩, _, fr2⟩ :=
    @register_player_spec _ ok1 (fit_of_bound b1 hn1) id2 hc2'
  obtain ⟨_, b2, sz2, sh2⟩ := register_player_shape ok1 (fit_of_bound b1 hn1) hc2' b1
  obtain ⟨hw1, hlaw1⟩ := reachable_wf ok1.reach
  -- the struct of the first player and the structs that have no game yet
  have hp0 : GamesPending st.heap a1 a2 := pending_of_ok hg a1 a2
  have hp1 : GamesPending (register_player st id1).heap a1 a2 := by
    rcases sh1 with h | ⟨h, hget⟩
    · rw [h]
      exact hp0
    · rw [h]
      rw [g1] at hget
      exact pending_append hp0 id1 (Or.inl (VoidPtr.addr.inj hget).symm)
  have hmid : ∃ a1', gmap_get (some (register_player (register_player st id1) id2).point_map)
        (some id1) = VoidPtr.addr a1' ∧
      GamesPending (register_player (register_player st id1) id2).heap a1' a2 := by
    by_cases he : (register_player st id1).point_map.compare id1 id2 = 0
    · have hcon : gmap_contains_key (register_player st id1).point_map id2 = true := by
        rw [contains_congr_key hw1 hlaw1 he]
        exact c1
      have hst := @register_player_of_contains (register_player st id1) id2 hcon
      rw [hst] at g2 ⊢
      rw [get_congr_key hw1 hlaw1 he, g1] at g2
      have ha := VoidPtr.addr.inj g2
      subst ha
      exact ⟨a1, g1, hp1⟩
    · have hne : (register_player st id1).point_map.compare id2 id1 ≠ 0 :=
        fun h0 => he (hlaw1.symm _ _ h0)
      obtain ⟨_, g1', _⟩ := fr2 id1 hne
      rw [g1] at g1'
      refine ⟨a1, g1', ?_⟩
      rcases sh2 with h | ⟨h, hget⟩
      · rw [h]
        exact hp1
      · rw [h]
        rw [g2] at hget
        exact pending_append hp1 id2 (Or.inr (VoidPtr.addr.inj hget).symm)
  obtain ⟨a1', g1', hpend⟩ := hmid
  obtain ⟨hm, hf, k1, k2, k3, k4, k5⟩ :=
    line_tail ok2 g1' g2 d1 d2 w battlefields hl1 hl2 hpend
  refine ⟨{ register_player (register_player st id1) id2 with heap := hf }, ?_, ?_, k4, b2,
    ?_, s1.trans s2⟩
  · unfold play_blotto_matchup play_blotto_score
    rw [if_pos ⟨hin1, hin2⟩]
    simp only [hd1, hd2, k1, Option.map_some', Option.some_bind, k2]
  · refine ⟨ok2.reach, ?_, ok2.inj, k5⟩
    intro e he
    obtain ⟨a, ha, hlt⟩ := ok2.valid e he
    refine ⟨a, ha, ?_⟩
    show a < hf.length
    rw [k3]
    exact hlt
  · show (register_player (register_player st id1) id2).point_map.size ≤ _
    omega

/-- The matchup loop over any list of lines over registered players reaches its
end with the invariant. -/
theorem play_lines_inv {all_players : gmap CString (List Int)} {battlefields : Nat}
    (w : Nat → ℚ) (lines : List (CString × CString))
    (hreg : ∀ line ∈ lines, Registered all_players battlefields line.1 ∧
      Registered all_players battlefields line.2) :
    ∀ st : play_state, PointsOK st → (∀ r ∈ st.heap, GamesOK r) →
      st.point_map.capacity ≤ max GMAP_INITIAL_CAPACITY (2 * st.point_map.size) →
      4 * (st.point_map.size + 2 * lines.length) < SIZE_T_MOD →
      (∀ line ∈ lines, (st.point_map.copy line.1).isSome = true ∧
        (st.point_map.copy line.2).isSome = true) →
      ∃ st', play_lines all_players battlefields w st lines = some st' ∧
        PointsOK st' ∧ ∀ r ∈ st'.heap, GamesOK r := by
  induction lines with
  | nil =>
    intro st hok hg _ _ _
    exact ⟨st, rfl, hok, hg⟩
  | cons line rest ih =>
    intro st hok hg hb hn hcopy
    simp only [List.length_cons] at hn
    obtain ⟨r1, r2⟩ := hreg line (List.mem_cons_self _ _)
    obtain ⟨c1, c2⟩ := hcopy line (List.mem_cons_self _ _)
    obtain ⟨st1, e1, ok1, g1, b1, sz1, s1⟩ :=
      matchup_step_inv w hok hg hb (by omega) c1 c2 r1 r2
    obtain ⟨st', e', ok', g'⟩ :=
      ih (fun x hx => hreg x (List.mem_cons_of_mem _ hx)) st1 ok1 g1 b1 (by omega)
        (by
          intro x hx
          rw [s1.copy]
          exact hcopy x (List.mem_cons_of_mem _ hx))
    refine ⟨st', ?_, ok', g'⟩
    rw [play_lines, e1]
    exact e'

theorem gmap_keys_eq {m : gmap K V} (hw : WF m) :
    gmap_keys m true = some ((entries m).map (fun e => some e.key)) := by
  have hfold := store_fold (entries m) [] 0
  simp only [List.map_nil, List.nil_append, Nat.add_zero, List.length_nil, Nat.zero_add,
    List.replicate_zero, List.append_nil] at hfold
  simp only [gmap_keys, if_true]
  rw [for_each_eq hw.len, hw.size_eq, hfold]
  simp

/-- The array `stats_arr` holds the struct of each stored entry. -/
theorem stats_arr_eq {st : play_state} (hok : PointsOK st) :
    stats_arr st = (entries st.point_map).map (fun e => read_result st.heap e.value) := by
  obtain ⟨hw, hl⟩ := reachable_wf hok.reach
  unfold stats_arr
  rw [gmap_keys_eq hw]
  simp only [Option.getD_some, List.map_map]
  apply List.map_congr_left
  intro e he
  simp only [Function.comp, Option.some_bind, result_of]
  rw [(get_of_mem hw hl he (hl.refl e.key)).1]

theorem stored_result {st : play_state} (hok : PointsOK st) (hg : ∀ r ∈ st.heap, GamesOK r) :
    ∀ e ∈ entries st.point_map, ∃ r, read_result st.heap e.value = some r ∧ GamesOK r := by
  intro e he
  obtain ⟨a, ha, hlt⟩ := hok.valid e he
  rw [ha]
  exact ⟨st.heap[a], List.getElem?_eq_getElem hlt, hg _ (List.getElem_mem _)⟩

theorem result_of_mem {st : play_state} {id : CString} {r : result}
    (h : result_of st id = some r) : r ∈ st.heap := by
  unfold result_of read_result at h
  split at h
  · exact List.getElem?_mem h
  · cases h

theorem rate_bounds {r : result} (h : GamesOK r) :
    r.games ≠ 0 ∧ 0 ≤ r.wins / r.games ∧ r.wins / r.games ≤ 1 := by
  have hpos : (0 : ℚ) < r.games := lt_of_lt_of_le one_pos h.played
  exact ⟨ne_of_gt hpos, div_nonneg h.wins_nonneg (le_of_lt hpos),
    (div_le_one hpos).2 h.wins_le⟩

theorem abc_lines_registered :
    ∀ line ∈ abc_lines, Registered abc_players 2 line.1 ∧ Registered abc_players 2 line.2 := by
  have hA : Registered abc_players 2 [65] := ⟨by decide, [3, 1], by decide, rfl⟩
  have hB : Registered abc_players 2 [66] := ⟨by decide, [2, 2], by decide, rfl⟩
  have hC : Registered abc_players 2 [67] := ⟨by decide, [0, 4], by decide, rfl⟩
  intro line hline
  simp only [abc_lines, List.mem_cons, List.mem_singleton, List.not_mem_nil, or_false] at hline
  rcases hline with rfl | rfl | rfl
  · exact ⟨hA, hB⟩
  · exact ⟨hA, hA⟩
  · exact ⟨hC, hA⟩

/-- C21: `play_blotto` starts with a freshly created `point_map` and no result
struct.  For any list of matchup lines over registered players, lines that name
one player twice included, the program processes each line to its end, and after
each line (after the first `n` lines, for every `n`) every result struct stored in
`point_map` has `games >= 1` and `0 <= wins <= games`; so has the struct behind the
pointer of any identifier.  The array `stats_arr` that is sorted and printed
afterwards holds one struct for each key of `point_map`, and in each of them
`games` is not zero, so that `wins / games` and `overall_score / games` do not
divide by zero, and the win rate `wins / games` lies between 0 and 1. -/
theorem games_at_least_wins (cp : CString → Option CString) (comp : CString → CString → Int)
    (h : CString → Nat) (f : CString → Unit) (pm : gmap CString Nat)
    (all_players : gmap CString (List Int)) (battlefields : Nat) (w : Nat → ℚ)
    (lines : List (CString × CString)) (n : Nat)
    (hcreate : gmap_create (some cp) (some comp) (some h) (some f) true true = some pm)
    (hlaw : Lawful pm)
    (hreg : ∀ line ∈ lines, Registered all_players battlefields line.1 ∧
      Registered all_players battlefields line.2)
    (hcopy : ∀ line ∈ lines, (cp line.1).isSome = true ∧ (cp line.2).isSome = true)
    (hsize : 8 * lines.length < SIZE_T_MOD) :
    ∃ st', play_lines all_players battlefields w { point_map := pm, heap := [] }
        (lines.take n) = some st' ∧
      (∀ e ∈ entries st'.point_map, ∃ r, read_result st'.heap e.value = some r ∧
        1 ≤ r.games ∧ 0 ≤ r.wins ∧ r.wins ≤ r.games) ∧
      (∀ id r, result_of st' id = some r → 1 ≤ r.games ∧ 0 ≤ r.wins ∧ r.wins ≤ r.games) ∧
      (stats_arr st').length = gmap_size (some st'.point_map) ∧
      ∀ x ∈ stats_arr st', ∃ r, x = some r ∧ r.games ≠ 0 ∧
        0 ≤ r.wins / r.games ∧ r.wins / r.games ≤ 1 := by
  obtain ⟨hb, hsz, hcp, _⟩ := create_bound hcreate
  have hempty : entries pm = [] := by
    rw [create_eq hcreate]
    exact entries_create _
  have hlen : (lines.take n).length ≤ lines.length := by
    rw [List.length_take]
    exact Nat.min_le_right _ _
  have hok0 : PointsOK ({ point_map := pm, heap := [] } : play_state) := by
    refine ⟨Reachable.create cp comp h f pm hcreate hlaw, ?_, ?_, ?_⟩
    · intro e he
      rw [show entries pm = [] from hempty] at he
      cases he
    · intro e he
      rw [show entries pm = [] from hempty] at he
      cases he
    · intro r hr
      cases hr
  obtain ⟨st', e', ok', g'⟩ := play_lines_inv w (lines.take n)
    (fun x hx => hreg x (List.mem_of_mem_take hx))
    { point_map := pm, heap := [] } hok0
    (fun r hr => by cases hr) hb
    (by
      show 4 * (pm.size + 2 * (lines.take n).length) < SIZE_T_MOD
      rw [hsz]
      omega)
    (by
      intro x hx
      show (pm.copy x.1).isSome = true ∧ (pm.copy x.2).isSome = true
      rw [hcp]
      exact hcopy x (List.mem_of_mem_take hx))
  obtain ⟨hw', _⟩ := reachable_wf ok'.reach
  refine ⟨st', e', ?_, ?_, ?_, ?_⟩
  · intro e he
    obtain ⟨r, hr, hg⟩ := stored_result ok' g' e he
    exact ⟨r, hr, hg.played, hg.wins_nonneg, hg.wins_le⟩
  · intro id r hr
    have hg := g' r (result_of_mem hr)
    exact ⟨hg.played, hg.wins_nonneg, hg.wins_le⟩
  · rw [stats_arr_eq ok', List.length_map]
    exact hw'.size_eq.symm
  · intro x hx
    rw [stats_arr_eq ok', List.mem_map] at hx
    obtain ⟨e, he, rfl⟩ := hx
    obtain ⟨r, hr, hg⟩ := stored_result ok' g' e he
    exact ⟨r, hr, rate_bounds hg⟩

theorem games_at_least_wins_witness :
    gmap_create (some str_copy) (some strcmp) (some str_hash) (some (fun _ => ())) true true =
      some (str_map Nat) ∧
    Lawful (str_map Nat) ∧
    (∀ line ∈ abc_lines, Registered abc_players 2 line.1 ∧ Registered abc_players 2 line.2) ∧
    (∀ line ∈ abc_lines, (str_copy line.1).isSome = true ∧ (str_copy line.2).isSome = true) ∧
    8 * abc_lines.length < SIZE_T_MOD ∧
    ∃ st', play_lines abc_players 2 (fun _ => 1) { point_map := str_map Nat, heap := [] }
        (abc_lines.take 2) = some st' ∧
      (∀ e ∈ entries st'.point_map, ∃ r, read_result st'.heap e.value = some r ∧
        1 ≤ r.games ∧ 0 ≤ r.wins ∧ r.wins ≤ r.games) ∧
      (∀ id r, result_of st' id = some r → 1 ≤ r.games ∧ 0 ≤ r.wins ∧ r.wins ≤ r.games) ∧
      (stats_arr st').length = gmap_size (some st'.point_map) ∧
      ∀ x ∈ stats_arr st', ∃ r, x = some r ∧ r.games ≠ 0 ∧
        0 ≤ r.wins / r.games ∧ r.wins / r.games ≤ 1 :=
  ⟨rfl, str_map_lawful Nat, abc_lines_registered, fun _ _ => ⟨rfl, rfl⟩, by decide,
    games_at_least_wins str_copy strcmp str_hash (fun _ => ()) (str_map Nat) abc_players 2
      (fun _ => 1) abc_lines 2 rfl (str_map_lawful Nat) abc_lines_registered
      (fun _ _ => ⟨rfl, rfl⟩) (by decide)⟩

end Gmap
